import Mathlib

/-! # OpenIOC hash ingestion (`libclamav/openioc.c`)

A shallow embedding of `openioc.c` and the properties of its specification.

* A C string is the list of its characters before the terminating NUL.
* The libxml2 text reader is a pull cursor over a finite sequence of nodes;
  `xmlTextReaderRead` moves to the next node and answers `1`, or answers `0`
  when no node is left.
* Every `while (1)` loop and the recursion of `openioc_parse_indicator` are
  driven by a fuel argument; `openioc_parse` supplies more fuel than there
  are nodes, which is shown to be enough.
* `cli_calloc`, `cli_malloc` and `mpool_calloc` may return NULL: the heap is
  an oracle telling for each request, in order, whether it succeeds.
  `xmlStrdup` is taken to succeed.
* `hm_addhash_str` and the constants `MAXPATHLEN` and `PATHSEP` are
  parameters; the calls of `hm_addhash_str` are recorded in order.
* `openioc_parse` has no `return` after its last loop: the model keeps apart
  a returned value and the end of the function reached without one.
-/

namespace OpenIOC

/-! ## C library and libxml2 primitives -/

/-- A NUL-terminated C string, as the characters before the NUL. -/
abbrev CStr := List Char

/-- The C-locale `isspace`: space, `\t`, `\n`, `\v`, `\f`, `\r`. -/
def isspace (c : Char) : Bool :=
  c.toNat == 32 || (9 ≤ c.toNat && c.toNat ≤ 13)

/-- The C-locale `isxdigit`: `0-9`, `a-f`, `A-F`. -/
def isxdigit (c : Char) : Bool :=
  (48 ≤ c.toNat && c.toNat ≤ 57) || (97 ≤ c.toNat && c.toNat ≤ 102) ||
    (65 ≤ c.toNat && c.toNat ≤ 70)

/-- The case-folding table of libxml2 `xmlStrcasecmp`: `A-Z` to `a-z`. -/
def casemap (c : Char) : Nat :=
  if 65 ≤ c.toNat ∧ c.toNat ≤ 90 then c.toNat + 32 else c.toNat

/-- The libxml2 `xmlStrcasecmp`: difference of the first case-folded
characters that differ, `0` when the strings agree up to ASCII case. -/
def xmlStrcasecmp : CStr → CStr → Int
  | [], [] => 0
  | [], b :: _ => 0 - (casemap b : Int)
  | a :: _, [] => (casemap a : Int)
  | a :: as, b :: bs =>
    let tmp : Int := (casemap a : Int) - (casemap b : Int)
    if tmp ≠ 0 then tmp else xmlStrcasecmp as bs

/-- The libxml2 `xmlStrEqual` on a possibly NULL first argument. -/
def xmlStrEqual (str1 : Option CStr) (str2 : CStr) : Bool :=
  match str1 with
  | none => false
  | some s => s == str2

/-- The libxml2 node type `XML_READER_TYPE_ELEMENT`. -/
def XML_READER_TYPE_ELEMENT : Nat := 1
/-- The libxml2 node type `XML_READER_TYPE_TEXT`. -/
def XML_READER_TYPE_TEXT : Nat := 3
/-- The libxml2 node type `XML_READER_TYPE_END_ELEMENT`. -/
def XML_READER_TYPE_END_ELEMENT : Nat := 15

/-- One node of the cursor: node type, local name, attributes, text value. -/
structure Node where
  nodeType : Nat
  localName : Option CStr
  attrs : List (CStr × CStr)
  value : Option CStr
deriving DecidableEq, Repr

/-- An `xmlTextReaderPtr`: the current node and the nodes still to come. -/
structure Reader where
  cur : Option Node
  rest : List Node
deriving DecidableEq, Repr

/-- The libxml2 `xmlTextReaderRead`: `1` and the next node, else `0`. -/
def xmlTextReaderRead (reader : Reader) : Int × Reader :=
  match reader.rest with
  | [] => (0, { cur := none, rest := [] })
  | n :: ns => (1, { cur := some n, rest := ns })

/-- The libxml2 `xmlTextReaderConstLocalName`. -/
def xmlTextReaderConstLocalName (reader : Reader) : Option CStr :=
  reader.cur.bind (fun n => n.localName)

/-- The libxml2 `xmlTextReaderNodeType` (`0` when there is no node). -/
def xmlTextReaderNodeType (reader : Reader) : Nat :=
  match reader.cur with
  | none => 0
  | some n => n.nodeType

/-- The libxml2 `xmlTextReaderGetAttribute`. -/
def xmlTextReaderGetAttribute (reader : Reader) (name : CStr) : Option CStr :=
  reader.cur.bind (fun n => (n.attrs.find? (fun a => a.1 == name)).map (fun a => a.2))

/-- The libxml2 `xmlTextReaderConstValue`. -/
def xmlTextReaderConstValue (reader : Reader) : Option CStr :=
  reader.cur.bind (fun n => n.value)

/-- Modelled from the spec: the result codes of `clamav.h` (not under src/),
which the spec lists as success, invalid argument (null name or invalid
handle), cannot open the document, and out of memory; `CL_EARG` is also what
the store answers for a hash it rejects. -/
inductive cl_error_t where
  | CL_SUCCESS
  | CL_ENULLARG
  | CL_EARG
  | CL_EOPEN
  | CL_EMEM
deriving DecidableEq, Repr

open cl_error_t

/-- The allocator: `ok k` tells whether the request number `k` succeeds,
`used` counts the requests made so far. -/
structure Heap where
  ok : Nat → Bool
  used : Nat

/-- One allocation request (`cli_calloc`, `cli_malloc`, `mpool_calloc`):
whether a block is returned, and the heap afterwards. -/
def Heap.alloc (h : Heap) : Bool × Heap :=
  (h.ok h.used, { h with used := h.used + 1 })

/-! ## The hash collector and the tree walker -/

/-- The state the walker functions share: the reader and the list `*elems`
(each `struct openioc_hash` is its `hash` string, linked through `next`). -/
structure Walk where
  reader : Reader
  elems : List CStr
  heap : Heap

/-- The function `openioc_read`: advance, answer the local name, NULL at the end. -/
def openioc_read (reader : Reader) : Option CStr × Reader :=
  let (rc, reader1) := xmlTextReaderRead reader
  if rc ≠ 1 then (none, reader1)
  else (xmlTextReaderConstLocalName reader1, reader1)

/-- The function `openioc_parse_content`. -/
def openioc_parse_content (w : Walk) : cl_error_t × Walk :=
  match xmlTextReaderGetAttribute w.reader "type".toList with
  | none => (CL_SUCCESS, w)
  | some type =>
    if xmlStrcasecmp type "sha1".toList ≠ 0 ∧ xmlStrcasecmp type "sha256".toList ≠ 0 ∧
        xmlStrcasecmp type "md5".toList ≠ 0 then
      (CL_SUCCESS, w)
    else
      let (rd, reader1) := xmlTextReaderRead w.reader
      if rd = 1 ∧ xmlTextReaderNodeType reader1 = XML_READER_TYPE_TEXT then
        match xmlTextReaderConstValue reader1 with
        | some xmlval =>
          let (got, heap1) := w.heap.alloc
          if got then
            (CL_SUCCESS, { reader := reader1, elems := xmlval :: w.elems, heap := heap1 })
          else
            (CL_EMEM, { reader := reader1, elems := w.elems, heap := heap1 })
        | none => (CL_SUCCESS, { w with reader := reader1 })
      else
        (CL_SUCCESS, { w with reader := reader1 })

/-- The function `openioc_parse_indicatoritem`; `none` when the fuel runs out. -/
def openioc_parse_indicatoritem : Nat → Walk → Option (cl_error_t × Walk)
  | 0, _ => none
  | fuel + 1, w =>
    let (name, reader1) := openioc_read w.reader
    let w1 : Walk := { w with reader := reader1 }
    if name.isNone then some (CL_SUCCESS, w1)
    else if xmlStrEqual name "Content".toList ∧
        xmlTextReaderNodeType reader1 = XML_READER_TYPE_ELEMENT then
      let (rc, w2) := openioc_parse_content w1
      if rc ≠ CL_SUCCESS then some (rc, w2)
      else openioc_parse_indicatoritem fuel w2
    else if xmlStrEqual name "IndicatorItem".toList ∧
        xmlTextReaderNodeType reader1 = XML_READER_TYPE_END_ELEMENT then
      some (CL_SUCCESS, w1)
    else openioc_parse_indicatoritem fuel w1

/-- The function `openioc_parse_indicator`; `none` when the fuel runs out. -/
def openioc_parse_indicator : Nat → Walk → Option (cl_error_t × Walk)
  | 0, _ => none
  | fuel + 1, w =>
    let (name, reader1) := openioc_read w.reader
    let w1 : Walk := { w with reader := reader1 }
    if name.isNone then some (CL_SUCCESS, w1)
    else if xmlStrEqual name "Indicator".toList ∧
        xmlTextReaderNodeType reader1 = XML_READER_TYPE_ELEMENT then
      match openioc_parse_indicator fuel w1 with
      | none => none
      | some (rc, w2) =>
        if rc ≠ CL_SUCCESS then some (rc, w2)
        else openioc_parse_indicator fuel w2
    else if xmlStrEqual name "IndicatorItem".toList ∧
        xmlTextReaderNodeType reader1 = XML_READER_TYPE_ELEMENT then
      match openioc_parse_indicatoritem fuel w1 with
      | none => none
      | some (rc, w2) =>
        if rc ≠ CL_SUCCESS then some (rc, w2)
        else openioc_parse_indicator fuel w2
    else if xmlStrEqual name "Indicator".toList ∧
        xmlTextReaderNodeType reader1 = XML_READER_TYPE_END_ELEMENT then
      some (CL_SUCCESS, w1)
    else openioc_parse_indicator fuel w1

/-- The scanning loop of `openioc_parse` (lines 186-202), entered with the
answer `rc` of the last `xmlTextReaderRead`: `Sum.inl (rc, w)` is `return rc`
out of `openioc_parse` in the state `w`, `Sum.inr w` is the state past the loop. -/
def openioc_parse_loop : Nat → Int → Walk → Option ((cl_error_t × Walk) ⊕ Walk)
  | 0, _, _ => none
  | fuel + 1, rc, w =>
    if rc ≠ 1 then some (Sum.inr w)
    else
      let name := xmlTextReaderConstLocalName w.reader
      let after (w1 : Walk) : Option ((cl_error_t × Walk) ⊕ Walk) :=
        if xmlStrEqual name "ioc".toList ∧
            xmlTextReaderNodeType w1.reader = XML_READER_TYPE_END_ELEMENT then
          some (Sum.inr w1)
        else
          let (rc2, reader2) := xmlTextReaderRead w1.reader
          openioc_parse_loop fuel rc2 { w1 with reader := reader2 }
      if xmlStrEqual name "Indicator".toList ∧
          xmlTextReaderNodeType w.reader = XML_READER_TYPE_ELEMENT then
        match openioc_parse_indicator fuel w with
        | none => none
        | some (rc1, w1) =>
          if rc1 ≠ CL_SUCCESS then some (Sum.inl (rc1, w1))
          else after w1
      else after w

/-! ## Registration: trimming, the signature name, the store -/

/-- The platform constants of `openioc_parse` that its headers define:
`MAXPATHLEN` and the first character of `PATHSEP`. -/
structure Config where
  MAXPATHLEN : Nat
  PATHSEP : Char

/-- The C `strrchr`: the part of `s` from the last `c` on, NULL when `c` is absent. -/
def strrchr : CStr → Char → Option CStr
  | [], _ => none
  | a :: as, c =>
    match strrchr as c with
    | some p => some p
    | none => if a = c then some (a :: as) else none

/-- Lines 204-209: `iocp`, the part of `fname` after the last `PATHSEP`. -/
def openioc_iocp (cfg : Config) (fname : CStr) : CStr :=
  match strrchr fname cfg.PATHSEP with
  | none => fname
  | some p => p.tail

/-- Line 211: `strncpy(iocname, iocp, MAXPATHLEN-1)` into the zeroed buffer. -/
def openioc_iocname (cfg : Config) (fname : CStr) : CStr :=
  (openioc_iocp cfg fname).take (cfg.MAXPATHLEN - 1)

/-- Line 212: `ioclen = strlen(iocname)`, a `uint16_t`. -/
def openioc_ioclen (cfg : Config) (fname : CStr) : Nat :=
  (openioc_iocname cfg fname).length % 65536

/-- Lines 232-233: `while (isspace(*hash)) hash++`. -/
def skip_leading (hash : CStr) : CStr :=
  hash.dropWhile isspace

/-- Lines 240-244: `while (isspace(*sp) && sp > hash) { *sp-- = 0; hashlen--; }`
with `sp` the index into `hash`; the answer is the final `hashlen`. -/
def cut_trailing (hash : CStr) : Nat → Nat → Nat
  | 0, hashlen => hashlen
  | sp + 1, hashlen =>
    if isspace (hash.getD (sp + 1) (Char.ofNat 0)) then cut_trailing hash sp (hashlen - 1)
    else hashlen

/-- Lines 231-244 on one record: `none` when the record is dropped
(`hashlen == 0` after the leading whitespace), else the string `hash` that is
passed on, which ends at the NUL written at index `hashlen`. -/
def openioc_trim (raw : CStr) : Option CStr :=
  let hash := skip_leading raw
  let hashlen := hash.length
  if hashlen = 0 then none
  else some (hash.take (cut_trailing hash (hashlen - 1) hashlen))

/-- The store `*vp = c`. -/
def store (_vp c : Char) : Char := c

/-- The `switch (*sp)` of lines 253-270 on the cell `*vp`: the ten case
labels store an underscore and, having no `break`, run on into `default`. -/
def openioc_switch (sp vp : Char) : Char :=
  let vp1 :=
    if sp = '\\' ∨ sp = '/' ∨ sp = '?' ∨ sp = '%' ∨ sp = '*' ∨ sp = ':' ∨ sp = '|' ∨
        sp = '"' ∨ sp = '<' ∨ sp = '>' then store vp '_'
    else vp
  if isspace sp then store vp1 '_' else store vp1 sp

/-- Lines 250-279: the string written to `virusname`. -/
def openioc_virusname (iocname : CStr) (ioclen : Nat) (hash : CStr) (hashlen : Nat) : CStr :=
  (iocname.take ioclen).map (fun c => openioc_switch c (Char.ofNat 0)) ++
    '.' :: (hash.take hashlen).filter isxdigit

/-- The hash store of the engine, which `openioc.c` only calls: the zeroed
`struct cli_matcher` that `mpool_calloc` hands out, and `hm_addhash_str`
acting on what `engine->hm_hdb` points to. -/
structure HashStore (M : Type) where
  zeroed : M
  hm_addhash_str : Option M → CStr → Nat → CStr → cl_error_t × Option M

/-- The field `hm_hdb` of `struct cl_engine`: NULL or the store. -/
structure cl_engine (M : Type) where
  hm_hdb : Option M

/-- What a call of `openioc_parse` hands back: the value of a `return`
statement, or none when control reaches the closing brace of the function. -/
inductive Returned where
  | value (rc : cl_error_t)
  | no_value
deriving DecidableEq, Repr

/-- The observable end of `openioc_parse`: what it returns, the engine, and
the calls of `hm_addhash_str` it made as (hash, virusname), in order. -/
structure Outcome (M : Type) where
  ret : Returned
  engine : cl_engine M
  calls : List (CStr × CStr)
  heap : Heap

/-- The drain loop of lines 225-287 over the collected list. -/
def openioc_drain {M : Type} (st : HashStore M) (iocname : CStr) (ioclen : Nat) :
    List CStr → cl_engine M → List (CStr × CStr) → Heap → Outcome M
  | [], engine, calls, heap =>
    { ret := Returned.no_value, engine := engine, calls := calls, heap := heap }
  | elem :: elems, engine, calls, heap =>
    let hash := skip_leading elem
    let hashlen := hash.length
    if hashlen = 0 then openioc_drain st iocname ioclen elems engine calls heap
    else
      let hashlen1 := cut_trailing hash (hashlen - 1) hashlen
      let (got, heap1) := heap.alloc
      if got then
        let virusname := openioc_virusname iocname ioclen hash hashlen1
        let (_, hdb) := st.hm_addhash_str engine.hm_hdb (hash.take hashlen1) 0 virusname
        openioc_drain st iocname ioclen elems { hm_hdb := hdb }
          (calls ++ [(hash.take hashlen1, virusname)]) heap1
      else
        { ret := Returned.value CL_EMEM, engine := engine, calls := calls, heap := heap1 }

/-- Lines 204-287: registration of the collected list. -/
def openioc_register {M : Type} (cfg : Config) (st : HashStore M) (fname : CStr)
    (elems : List CStr) (engine : cl_engine M) (heap : Heap) : Outcome M :=
  let iocname := openioc_iocname cfg fname
  let ioclen := openioc_ioclen cfg fname
  if elems ≠ [] ∧ engine.hm_hdb.isNone then
    let (got, heap1) := heap.alloc
    if got then
      openioc_drain st iocname ioclen elems { hm_hdb := some st.zeroed } [] heap1
    else
      { ret := Returned.value CL_EMEM, engine := engine, calls := [], heap := heap1 }
  else
    openioc_drain st iocname ioclen elems engine [] heap

/-- Lines 185-202 of `openioc_parse`: the first `xmlTextReaderRead` and the
scanning loop over the nodes that `xmlReaderForFd` delivers. The fuel is one
more than the number of nodes. -/
def openioc_scan (nodes : List Node) (heap : Heap) : Option ((cl_error_t × Walk) ⊕ Walk) :=
  let (rc, reader) := xmlTextReaderRead { cur := none, rest := nodes }
  openioc_parse_loop (nodes.length + 1) rc { reader := reader, elems := [], heap := heap }

/-- The function `openioc_parse`. `fname` is NULL or a string; `xml` is what
`xmlReaderForFd` makes of the descriptor: NULL, or a reader placed before
the first of the nodes. The answer is `none` only if the fuel of the scan
runs out. -/
def openioc_parse {M : Type} (cfg : Config) (st : HashStore M) (fname : Option CStr)
    (fd : Int) (xml : Option (List Node)) (engine : cl_engine M) (heap : Heap) :
    Option (Outcome M) :=
  match fname with
  | none => some { ret := Returned.value CL_ENULLARG, engine := engine, calls := [], heap := heap }
  | some fname =>
    if fd < 0 then
      some { ret := Returned.value CL_EARG, engine := engine, calls := [], heap := heap }
    else
      match xml with
      | none =>
        some { ret := Returned.value CL_EOPEN, engine := engine, calls := [], heap := heap }
      | some nodes =>
        match openioc_scan nodes heap with
        | none => none
        | some (Sum.inl (rc, w)) =>
          some { ret := Returned.value rc, engine := engine, calls := [], heap := w.heap }
        | some (Sum.inr w) => some (openioc_register cfg st fname w.elems engine w.heap)

/-! ## Documents of the grammar -/

/-- A start tag as the cursor shows it. -/
def startNode (name : CStr) (attrs : List (CStr × CStr)) : Node :=
  { nodeType := XML_READER_TYPE_ELEMENT, localName := some name, attrs := attrs, value := none }

/-- An end tag as the cursor shows it. -/
def endNode (name : CStr) : Node :=
  { nodeType := XML_READER_TYPE_END_ELEMENT, localName := some name, attrs := [], value := none }

/-- A text node as the cursor shows it. -/
def textNode (v : CStr) : Node :=
  { nodeType := XML_READER_TYPE_TEXT, localName := some "#text".toList, attrs := [],
    value := some v }

/-- A `Content` element of the grammar: its attributes and its text. -/
structure Content where
  attrs : List (CStr × CStr)
  text : CStr
deriving DecidableEq, Repr

/-- The children of an `Indicator`, `(Indicator | IndicatorItem)*`: empty, or
an `Indicator` with its children, or an `IndicatorItem` with its `Content`
elements, each followed by the later siblings. -/
inductive Indicators where
  | nil
  | indicator (children : Indicators) (siblings : Indicators)
  | item (contents : List Content) (siblings : Indicators)
deriving DecidableEq, Repr

/-- A document `<ioc> Indicator* </ioc>`: the children of each top-level `Indicator`. -/
abbrev Document := List Indicators

/-- The nodes of `<Content ...> TEXT </Content>`: start tag, text node, end
tag, as the cursor of the specification shows them; an empty text has no text
node. -/
def Content.nodes (c : Content) : List Node :=
  if c.text = [] then [startNode "Content".toList c.attrs, endNode "Content".toList]
  else [startNode "Content".toList c.attrs, textNode c.text, endNode "Content".toList]

/-- The nodes of a run of `Content` elements. -/
def contentNodes : List Content → List Node
  | [] => []
  | c :: cs => c.nodes ++ contentNodes cs

/-- The nodes of the children of an `Indicator`, in document order. -/
def Indicators.nodes : Indicators → List Node
  | Indicators.nil => []
  | Indicators.indicator children siblings =>
    startNode "Indicator".toList [] :: (children.nodes ++
      endNode "Indicator".toList :: siblings.nodes)
  | Indicators.item contents siblings =>
    startNode "IndicatorItem".toList [] :: (contentNodes contents ++
      endNode "IndicatorItem".toList :: siblings.nodes)

/-- The nodes of the top-level `Indicator` elements. -/
def topNodes : Document → List Node
  | [] => []
  | i :: is =>
    startNode "Indicator".toList [] :: (i.nodes ++ endNode "Indicator".toList :: topNodes is)

/-- The node sequence of a whole document. -/
def Document.nodes (d : Document) : List Node :=
  startNode "ioc".toList [] :: (topNodes d ++ [endNode "ioc".toList])

/-- The `Content` elements below an `Indicator`, in document order. -/
def Indicators.contents : Indicators → List Content
  | Indicators.nil => []
  | Indicators.indicator children siblings => children.contents ++ siblings.contents
  | Indicators.item contents siblings => contents ++ siblings.contents

/-- The `Content` elements of a document, in document order. -/
def Document.contents : Document → List Content
  | [] => []
  | i :: is => i.contents ++ Document.contents is

/-- Equality of two strings ignoring ASCII case. -/
def eqIgnoringCase (a b : CStr) : Prop :=
  a.map casemap = b.map casemap

instance (a b : CStr) : Decidable (eqIgnoringCase a b) := by
  unfold eqIgnoringCase; infer_instance

/-- A `Content` element has an accepted type: a `type` attribute equal,
ignoring case, to `md5`, `sha1` or `sha256`. -/
def Content.accepted (c : Content) : Prop :=
  match (c.attrs.find? (fun a => a.1 == "type".toList)).map (fun a => a.2) with
  | none => False
  | some t =>
    eqIgnoringCase t "md5".toList ∨ eqIgnoringCase t "sha1".toList ∨
      eqIgnoringCase t "sha256".toList

instance (c : Content) : Decidable c.accepted := by
  unfold Content.accepted; split <;> infer_instance

/-- A heap on which no request fails. -/
def Heap.neverFails (h : Heap) : Prop :=
  ∀ k, h.ok k = true

/-! ## Sample states -/

/-- The walk state at a `<Content type="ssdeep">` start tag. -/
def ssdeepWalk : Walk :=
  { reader := { cur := some (startNode "Content".toList [("type".toList, "ssdeep".toList)]),
                rest := [textNode "3:abc".toList, endNode "Content".toList] },
    elems := ["old".toList],
    heap := { ok := fun _ => true, used := 0 } }

/-- The walk state at a `<Content type="Sha256">` start tag before its text. -/
def sha256Walk : Walk :=
  { reader := { cur := some (startNode "Content".toList [("type".toList, "Sha256".toList)]),
                rest := [textNode " AB12 ".toList, endNode "Content".toList] },
    elems := ["old".toList],
    heap := { ok := fun _ => true, used := 0 } }

/-- The heap after `k` more requests. -/
def Heap.after (h : Heap) (k : Nat) : Heap := { h with used := h.used + k }

/-- Modelled from the spec: `hm_addhash_str` and `struct cli_matcher` (not
under src/) as a store that keeps the (hash, name) pairs it accepts; with the
kind to be detected it infers md5, sha1 or sha256 from the length of the hash
(32, 40 or 64) and rejects any other length. -/
def sampleStore : HashStore (List (CStr × CStr)) :=
  { zeroed := []
    hm_addhash_str := fun hdb hash _ virusname =>
      if hash.length = 32 ∨ hash.length = 40 ∨ hash.length = 64 then
        (CL_SUCCESS, hdb.map (fun entries => entries ++ [(hash, virusname)]))
      else (CL_EARG, hdb) }

/-- A heap on which every request succeeds. -/
def plentyHeap : Heap := { ok := fun _ => true, used := 0 }

/-- A document with nested indicators and three hashes of the three kinds. -/
def nestedDoc : Document :=
  [Indicators.item [{ attrs := [("type".toList, "md5".toList)], text := "aa".toList }]
     (Indicators.indicator
        (Indicators.item
          [{ attrs := [("id".toList, "7".toList), ("type".toList, "SHA1".toList)],
             text := " bb ".toList }] Indicators.nil)
        Indicators.nil),
   Indicators.item [{ attrs := [("type".toList, "Sha256".toList)], text := "cc".toList }]
     Indicators.nil]

/-- Platform constants as on a Unix build: `PATHSEP` "/" and a `MAXPATHLEN` of 1024. -/
def linuxConfig : Config := { MAXPATHLEN := 1024, PATHSEP := '/' }

/-- The document `<ioc><Indicator><IndicatorItem><Content type="md5">
d41d8cd98f00b204e9800998ecf8427e </Content></IndicatorItem></Indicator></ioc>`
of the specification, the hash in two spaces on either side. -/
def md5Doc : Document :=
  [Indicators.item
    [{ attrs := [("type".toList, "md5".toList)],
       text := "  d41d8cd98f00b204e9800998ecf8427e  ".toList }] Indicators.nil]

/-- The same document with `type="ssdeep"`. -/
def ssdeepDoc : Document :=
  [Indicators.item
    [{ attrs := [("type".toList, "ssdeep".toList)],
       text := "  d41d8cd98f00b204e9800998ecf8427e  ".toList }] Indicators.nil]

/-- A heap on which the second request fails. -/
def secondFailsHeap : Heap := { ok := fun k => k != 1, used := 0 }

/-- A document of two hashes, the second in a nested `Indicator`. -/
def twoHashDoc : Document :=
  [Indicators.item [{ attrs := [("type".toList, "md5".toList)], text := "aa".toList }]
     (Indicators.indicator
        (Indicators.item [{ attrs := [("type".toList, "sha1".toList)], text := "bb".toList }]
          Indicators.nil)
        Indicators.nil)]

/-- A document whose only hash text is whitespace. -/
def blankDoc : Document :=
  [Indicators.item [{ attrs := [("type".toList, "sha1".toList)], text := " \t ".toList }]
    Indicators.nil]

/-- A document whose hash the store rejects: it has none of the three lengths. -/
def shortDoc : Document :=
  [Indicators.item [{ attrs := [("type".toList, "md5".toList)], text := "abc".toList }]
    Indicators.nil]

/-! ## What a walk collects -/

/-- The test of lines 66-82 on the attributes of a start tag: whether the
extractor goes on to read the next node (a `type` attribute is there and
`xmlStrcasecmp` answers 0 for one of the three kinds). -/
def acceptedType (attrs : List (CStr × CStr)) : Bool :=
  match (attrs.find? (fun a => a.1 == "type".toList)).map (fun a => a.2) with
  | none => false
  | some t =>
    !(decide (xmlStrcasecmp t "sha1".toList ≠ 0 ∧ xmlStrcasecmp t "sha256".toList ≠ 0 ∧
        xmlStrcasecmp t "md5".toList ≠ 0))

/-- The node is the start tag of a `Content` element with an accepted type. -/
def Node.acceptedContent (n : Node) : Bool :=
  n.nodeType == XML_READER_TYPE_ELEMENT && n.localName == some "Content".toList &&
    acceptedType n.attrs

/-- The value of the node if it is a text node, as a list of at most one string. -/
def Node.textValue (n : Node) : List CStr :=
  if n.nodeType = XML_READER_TYPE_TEXT then n.value.toList else []

/-- The texts of the accepted `Content` elements of a node sequence, in the
order of the sequence: for every start tag of a `Content` element with an
accepted type, the value of the text node right behind it, if there is one. -/
def harvest : List Node → List CStr
  | [] => []
  | n :: ns =>
    (if n.acceptedContent then
      (match ns with
       | [] => []
       | t :: _ => t.textValue)
     else []) ++ harvest ns

/-- Where the cursor stands when a handler that looks for the end tag
`endTag` returns on the first `k` nodes of `body ++ endTag :: tail`, `body`
of length `len`: on the end tag if it is among them, else past the last node. -/
def readerAfter (endTag : Node) (len k : Nat) (tail : List Node) : Reader :=
  if len < k then { cur := some endTag, rest := tail.take (k - len - 1) }
  else { cur := none, rest := [] }

/-- A `Content` element yields a hash record: its type is accepted by the
test of lines 66-82 and it has a text. -/
def Content.collected (c : Content) : Bool :=
  acceptedType c.attrs && !(c.text.isEmpty)

/-- The `IndicatorItem` elements below an `Indicator`, in document order,
each as its run of `Content` elements. -/
def Indicators.items : Indicators → List (List Content)
  | Indicators.nil => []
  | Indicators.indicator children siblings => children.items ++ siblings.items
  | Indicators.item contents siblings => contents :: siblings.items

/-- The `IndicatorItem` elements of a document, in document order. -/
def Document.items : Document → List (List Content)
  | [] => []
  | i :: is => i.items ++ Document.items is

/-- How deep the `Indicator` elements among the children of an `Indicator` nest. -/
def Indicators.depth : Indicators → Nat
  | Indicators.nil => 0
  | Indicators.indicator children siblings => max (children.depth + 1) siblings.depth
  | Indicators.item _ siblings => siblings.depth

/-- The nesting depth of the `Indicator` elements of a document. -/
def Document.depth : Document → Nat
  | [] => 0
  | i :: is => max (i.depth + 1) (Document.depth is)

/-- The nodes behind the start tag of the first `IndicatorItem` of
`<ioc><Indicator><IndicatorItem><Content type="md5"/></IndicatorItem></Indicator>
<Indicator><IndicatorItem><Content type="sha1">abc</Content></IndicatorItem>
</Indicator></ioc>`; the empty element `<Content type="md5"/>` is shown by
the cursor as a start tag without an end tag. -/
def emptyContentNodes : List Node :=
  [startNode "Content".toList [("type".toList, "md5".toList)],
   endNode "IndicatorItem".toList, endNode "Indicator".toList,
   startNode "Indicator".toList [], startNode "IndicatorItem".toList [],
   startNode "Content".toList [("type".toList, "sha1".toList)], textNode "abc".toList,
   endNode "Content".toList, endNode "IndicatorItem".toList, endNode "Indicator".toList,
   endNode "ioc".toList]

/-- The nodes behind the start tag of the outer `IndicatorItem` of
`<IndicatorItem><IndicatorItem></IndicatorItem><Content type="md5">abc</Content>
</IndicatorItem></Indicator></ioc>`. -/
def nestedItemNodes : List Node :=
  [startNode "IndicatorItem".toList [], endNode "IndicatorItem".toList,
   startNode "Content".toList [("type".toList, "md5".toList)], textNode "abc".toList,
   endNode "Content".toList, endNode "IndicatorItem".toList, endNode "Indicator".toList,
   endNode "ioc".toList]

/-- An `IndicatorItem` of the grammar with a hash, a `Content` of another
type, and an accepted `Content` without text. -/
def mixedContents : List Content :=
  [{ attrs := [("type".toList, "md5".toList)], text := "aa".toList },
   { attrs := [("type".toList, "ssdeep".toList)], text := "3:x".toList },
   { attrs := [("type".toList, "sha1".toList)], text := [] }]

/-- The store after the calls `hm_addhash_str(hdb, hash, 0, virusname)` for
the given (hash, virusname) pairs, in order. -/
def replayCalls {M : Type} (st : HashStore M) (hdb : Option M) (calls : List (CStr × CStr)) :
    Option M :=
  calls.foldl (fun h c => (st.hm_addhash_str h c.1 0 c.2).2) hdb

/-- A store that rejects every hash and keeps nothing. -/
def rejectingStore : HashStore (List (CStr × CStr)) :=
  { zeroed := []
    hm_addhash_str := fun hdb _ _ _ => (CL_EARG, hdb) }

/-- A name whose part after the last "/" has 1024 characters. -/
def longName : CStr := "d/b".toList ++ List.replicate 1023 'a'

/-! ## The writes into the `virusname` buffer -/

/-- The stores of the `switch` of lines 253-270 into the cell with index
`vp`, in order: the underscore of the case labels, then, there being no
`break`, the store of `default`. -/
def openioc_switch_writes (sp : Char) (vp : Nat) : List (Nat × Char) :=
  (if sp = '\\' ∨ sp = '/' ∨ sp = '?' ∨ sp = '%' ∨ sp = '*' ∨ sp = ':' ∨ sp = '|' ∨
      sp = '"' ∨ sp = '<' ∨ sp = '>' then [(vp, '_')] else []) ++
    [(vp, if isspace sp then '_' else sp)]

/-- The loop of lines 274-278 over the characters of the hash, `vp` the index
of the next free cell: the stores it makes, and `vp` at its end. -/
def openioc_hex_writes : CStr → Nat → List (Nat × Char) × Nat
  | [], vp => ([], vp)
  | c :: cs, vp =>
    if isxdigit c then
      ((vp, c) :: (openioc_hex_writes cs (vp + 1)).1, (openioc_hex_writes cs (vp + 1)).2)
    else openioc_hex_writes cs vp

/-- Lines 250-279: every store into the buffer `virusname`, as (index,
character), in the order in which it is made; the last is the NUL of line 279. -/
def openioc_virusname_writes (iocname : CStr) (ioclen : Nat) (hash : CStr) (hashlen : Nat) :
    List (Nat × Char) :=
  (List.range ioclen).flatMap
      (fun i => openioc_switch_writes (iocname.getD i (Char.ofNat 0)) i) ++
    [(ioclen, '.')] ++
    (openioc_hex_writes (hash.take hashlen) (ioclen + 1)).1 ++
    [((openioc_hex_writes (hash.take hashlen) (ioclen + 1)).2, Char.ofNat 0)]

/-- The memory after a sequence of stores. -/
def replay (writes : List (Nat × Char)) (mem : Nat → Char) : Nat → Char :=
  writes.foldl (fun m w => fun j => if j = w.1 then w.2 else m j) mem

/-! ## The depth of the recursion -/

/-- The node is the start tag of an `Indicator` element. -/
def Node.isIndicatorStart (n : Node) : Bool :=
  n.nodeType == XML_READER_TYPE_ELEMENT && n.localName == some "Indicator".toList

/-- The number of `Indicator` start tags in a node sequence. -/
def indicatorStarts (ns : List Node) : Nat :=
  ns.countP Node.isIndicatorStart

/-- The function `openioc_parse_indicator` with a count of its nesting: the
third component is the greatest number of invocations of
`openioc_parse_indicator` active at the same time during the call, this one
included. A nested call adds one to its own count; the later iterations of
the loop belong to the same invocation. -/
def openioc_parse_indicator_depth : Nat → Walk → Option (cl_error_t × Walk × Nat)
  | 0, _ => none
  | fuel + 1, w =>
    let (name, reader1) := openioc_read w.reader
    let w1 : Walk := { w with reader := reader1 }
    if name.isNone then some (CL_SUCCESS, w1, 1)
    else if xmlStrEqual name "Indicator".toList ∧
        xmlTextReaderNodeType reader1 = XML_READER_TYPE_ELEMENT then
      match openioc_parse_indicator_depth fuel w1 with
      | none => none
      | some (rc, w2, d) =>
        if rc ≠ CL_SUCCESS then some (rc, w2, d + 1)
        else
          match openioc_parse_indicator_depth fuel w2 with
          | none => none
          | some (rc3, w3, d3) => some (rc3, w3, max (d + 1) d3)
    else if xmlStrEqual name "IndicatorItem".toList ∧
        xmlTextReaderNodeType reader1 = XML_READER_TYPE_ELEMENT then
      match openioc_parse_indicatoritem fuel w1 with
      | none => none
      | some (rc, w2) =>
        if rc ≠ CL_SUCCESS then some (rc, w2, 1)
        else openioc_parse_indicator_depth fuel w2
    else if xmlStrEqual name "Indicator".toList ∧
        xmlTextReaderNodeType reader1 = XML_READER_TYPE_END_ELEMENT then
      some (CL_SUCCESS, w1, 1)
    else openioc_parse_indicator_depth fuel w1

/-- A walk state before a malformed node sequence: end tags without start
tags, an `Indicator` that is never closed. -/
def malformedWalk : Walk :=
  { reader := { cur := some (startNode "Indicator".toList []),
                rest := [endNode "Content".toList, startNode "Indicator".toList [],
                         startNode "Indicator".toList [], textNode "x".toList,
                         endNode "Indicator".toList, startNode "IndicatorItem".toList [],
                         startNode "Content".toList [("type".toList, "md5".toList)]] },
    elems := [], heap := plentyHeap }

/-! ## The calls of the content extractor during a walk -/

/-- The function `openioc_parse_indicatoritem` with a record of its calls of
`openioc_parse_content`: next to the answer, the states on which the
extractor was called, in the order of the calls. -/
def openioc_parse_indicatoritem_log : Nat → Walk → Option ((cl_error_t × Walk) × List Walk)
  | 0, _ => none
  | fuel + 1, w =>
    let (name, reader1) := openioc_read w.reader
    let w1 : Walk := { w with reader := reader1 }
    if name.isNone then some ((CL_SUCCESS, w1), [])
    else if xmlStrEqual name "Content".toList ∧
        xmlTextReaderNodeType reader1 = XML_READER_TYPE_ELEMENT then
      let (rc, w2) := openioc_parse_content w1
      if rc ≠ CL_SUCCESS then some ((rc, w2), [w1])
      else
        match openioc_parse_indicatoritem_log fuel w2 with
        | none => none
        | some (r, log) => some (r, w1 :: log)
    else if xmlStrEqual name "IndicatorItem".toList ∧
        xmlTextReaderNodeType reader1 = XML_READER_TYPE_END_ELEMENT then
      some ((CL_SUCCESS, w1), [])
    else openioc_parse_indicatoritem_log fuel w1

/-- The function `openioc_parse_indicator` with the record of the calls of
`openioc_parse_content` made below it: those of a nested call or of the item
handler, then those of the later iterations of its loop. -/
def openioc_parse_indicator_log : Nat → Walk → Option ((cl_error_t × Walk) × List Walk)
  | 0, _ => none
  | fuel + 1, w =>
    let (name, reader1) := openioc_read w.reader
    let w1 : Walk := { w with reader := reader1 }
    if name.isNone then some ((CL_SUCCESS, w1), [])
    else if xmlStrEqual name "Indicator".toList ∧
        xmlTextReaderNodeType reader1 = XML_READER_TYPE_ELEMENT then
      match openioc_parse_indicator_log fuel w1 with
      | none => none
      | some ((rc, w2), log) =>
        if rc ≠ CL_SUCCESS then some ((rc, w2), log)
        else
          match openioc_parse_indicator_log fuel w2 with
          | none => none
          | some (r, log2) => some (r, log ++ log2)
    else if xmlStrEqual name "IndicatorItem".toList ∧
        xmlTextReaderNodeType reader1 = XML_READER_TYPE_ELEMENT then
      match openioc_parse_indicatoritem_log fuel w1 with
      | none => none
      | some ((rc, w2), log) =>
        if rc ≠ CL_SUCCESS then some ((rc, w2), log)
        else
          match openioc_parse_indicator_log fuel w2 with
          | none => none
          | some (r, log2) => some (r, log ++ log2)
    else if xmlStrEqual name "Indicator".toList ∧
        xmlTextReaderNodeType reader1 = XML_READER_TYPE_END_ELEMENT then
      some ((CL_SUCCESS, w1), [])
    else openioc_parse_indicator_log fuel w1

/-- The scanning loop of `openioc_parse` with the record of the calls of
`openioc_parse_content` made below it. -/
def openioc_parse_loop_log :
    Nat → Int → Walk → Option (((cl_error_t × Walk) ⊕ Walk) × List Walk)
  | 0, _, _ => none
  | fuel + 1, rc, w =>
    if rc ≠ 1 then some (Sum.inr w, [])
    else
      let name := xmlTextReaderConstLocalName w.reader
      let after (w1 : Walk) : Option (((cl_error_t × Walk) ⊕ Walk) × List Walk) :=
        if xmlStrEqual name "ioc".toList ∧
            xmlTextReaderNodeType w1.reader = XML_READER_TYPE_END_ELEMENT then
          some (Sum.inr w1, [])
        else
          let (rc2, reader2) := xmlTextReaderRead w1.reader
          openioc_parse_loop_log fuel rc2 { w1 with reader := reader2 }
      if xmlStrEqual name "Indicator".toList ∧
          xmlTextReaderNodeType w.reader = XML_READER_TYPE_ELEMENT then
        match openioc_parse_indicator_log fuel w with
        | none => none
        | some ((rc1, w1), log) =>
          if rc1 ≠ CL_SUCCESS then some (Sum.inl (rc1, w1), log)
          else
            match after w1 with
            | none => none
            | some (res, log2) => some (res, log ++ log2)
      else after w

/-- The scan of `openioc_parse` with the record of the calls of
`openioc_parse_content` made during it. -/
def openioc_scan_log (nodes : List Node) (heap : Heap) :
    Option (((cl_error_t × Walk) ⊕ Walk) × List Walk) :=
  let (rc, reader) := xmlTextReaderRead { cur := none, rest := nodes }
  openioc_parse_loop_log (nodes.length + 1) rc { reader := reader, elems := [], heap := heap }

/-- The answer of a scan as a code and a state: the code returned out of
`openioc_parse`, or `CL_SUCCESS` past the loop. -/
def scanAnswer : (cl_error_t × Walk) ⊕ Walk → cl_error_t × Walk
  | Sum.inl e => e
  | Sum.inr w => (CL_SUCCESS, w)

/-- The calls `log` of the extractor account for the answer `r`: either every
call answered `CL_SUCCESS` and so does `r`, or every call but the last
answered `CL_SUCCESS` and `r` is the answer of the last call, an error. -/
def ExtractorTrace (log : List Walk) (r : cl_error_t × Walk) : Prop :=
  (r.1 = CL_SUCCESS ∧ ∀ wc ∈ log, (openioc_parse_content wc).1 = CL_SUCCESS) ∨
  (∃ pre wc, log = pre ++ [wc] ∧ (∀ x ∈ pre, (openioc_parse_content x).1 = CL_SUCCESS) ∧
    openioc_parse_content wc = r ∧ r.1 ≠ CL_SUCCESS)

/-- The node sequence of a document with nodes that the walkers skip: text
between the elements, a `Context` element before each `Content`, an
`IndicatorItem` in a nested `Indicator` with two hashes, and a later
`IndicatorItem` with a third. -/
def paddedNodes : List Node :=
  [startNode "ioc".toList [], textNode "\n".toList,
   startNode "Indicator".toList [], textNode "\n".toList,
   startNode "Indicator".toList [], textNode "\n".toList,
   startNode "IndicatorItem".toList [],
   startNode "Context".toList [], endNode "Context".toList,
   startNode "Content".toList [("type".toList, "md5".toList)], textNode "aa".toList,
   endNode "Content".toList, textNode "\n".toList,
   startNode "Context".toList [], endNode "Context".toList,
   startNode "Content".toList [("type".toList, "sha1".toList)], textNode "bb".toList,
   endNode "Content".toList,
   endNode "IndicatorItem".toList, endNode "Indicator".toList,
   startNode "IndicatorItem".toList [],
   startNode "Content".toList [("type".toList, "md5".toList)], textNode "cc".toList,
   endNode "Content".toList, endNode "IndicatorItem".toList,
   endNode "Indicator".toList, endNode "ioc".toList]

/-! ## The body of an `IndicatorItem` with any children -/

/-- The node is the start tag of a `Content` element. -/
def Node.isContentStart (n : Node) : Bool :=
  n.nodeType == XML_READER_TYPE_ELEMENT && n.localName == some "Content".toList

/-- The node is the end tag of an `IndicatorItem` element. -/
def Node.isItemEnd (n : Node) : Bool :=
  n.nodeType == XML_READER_TYPE_END_ELEMENT && n.localName == some "IndicatorItem".toList

/-- Whether the walk of the item handler over the nodes ends in a call of the
extractor that reads past them: the handler has reached the last node, and it
is the start tag of a `Content` element with an accepted type. A node that
the extractor has read is not seen by the handler. -/
def swallowsNext : List Node → Bool
  | [] => false
  | [n] => n.acceptedContent
  | n :: m :: rest => if n.acceptedContent then swallowsNext rest else swallowsNext (m :: rest)

/-- The values that the item handler collects over the nodes, in their order:
behind a start tag of a `Content` element with an accepted type, the value of
the next node if it is a text node; that node is not seen by the handler. -/
def itemCollect : List Node → List CStr
  | [] => []
  | [_] => []
  | n :: m :: rest =>
    if n.acceptedContent then m.textValue ++ itemCollect rest else itemCollect (m :: rest)

/-- The children of an `IndicatorItem` with more than `Content` elements:
text between the elements, a `Context` element, a comment, a `Content` with
a hash, one of another type with a child element, and an accepted `Content`
without text, closed by its end tag. -/
def paddedItemBody : List Node :=
  [textNode "\n  ".toList,
   startNode "Context".toList [("search".toList, "FileItem/Md5sum".toList)],
   endNode "Context".toList,
   { nodeType := 8, localName := some "#comment".toList, attrs := [],
     value := some " hash ".toList },
   startNode "Content".toList [("type".toList, "md5".toList)], textNode "aa".toList,
   endNode "Content".toList, textNode "\n  ".toList,
   startNode "Content".toList [("type".toList, "ssdeep".toList)],
   startNode "b".toList [], textNode "3:x".toList, endNode "b".toList,
   endNode "Content".toList,
   startNode "Content".toList [("type".toList, "sha1".toList)], endNode "Content".toList,
   textNode "\n".toList]

/-! # Theorems -/

/-! ## Case-insensitive comparison -/

theorem casemap_pos (c : Char) (h : c.toNat ≠ 0) : casemap c ≠ 0 := by
  unfold casemap
  split <;> omega

theorem xmlStrcasecmp_of_eqIgnoringCase (a b : CStr) (h : eqIgnoringCase a b) :
    xmlStrcasecmp a b = 0 := by
  unfold eqIgnoringCase at h
  induction a generalizing b with
  | nil =>
    cases b with
    | nil => rfl
    | cons y ys => simp at h
  | cons x xs ih =>
    cases b with
    | nil => simp at h
    | cons y ys =>
      simp only [List.map_cons, List.cons.injEq] at h
      simp only [xmlStrcasecmp, h.1, sub_self, ne_eq, not_true_eq_false, if_false]
      exact ih ys h.2

theorem eqIgnoringCase_of_xmlStrcasecmp (a b : CStr) (ha : ∀ c ∈ a, c.toNat ≠ 0)
    (hb : ∀ c ∈ b, c.toNat ≠ 0) (h : xmlStrcasecmp a b = 0) : eqIgnoringCase a b := by
  unfold eqIgnoringCase
  induction a generalizing b with
  | nil =>
    cases b with
    | nil => rfl
    | cons y ys =>
      have hy := casemap_pos y (hb y (List.mem_cons_self _ _))
      simp only [xmlStrcasecmp] at h
      omega
  | cons x xs ih =>
    cases b with
    | nil =>
      have hx := casemap_pos x (ha x (List.mem_cons_self _ _))
      simp only [xmlStrcasecmp] at h
      omega
    | cons y ys =>
      simp only [xmlStrcasecmp] at h
      by_cases hxy : (casemap x : Int) - (casemap y : Int) = 0
      · simp only [hxy, ne_eq, not_true_eq_false, if_false] at h
        have hc : casemap x = casemap y := by omega
        simp only [List.map_cons, hc, List.cons.injEq, true_and]
        exact ih ys (fun c hc => ha c (List.mem_cons_of_mem _ hc))
          (fun c hc => hb c (List.mem_cons_of_mem _ hc)) h
      · simp only [ne_eq, hxy, not_false_eq_true, if_true] at h

/-! ## The content extractor -/

theorem nul_free_md5 : ∀ c ∈ "md5".toList, c.toNat ≠ 0 := by decide
theorem nul_free_sha1 : ∀ c ∈ "sha1".toList, c.toNat ≠ 0 := by decide
theorem nul_free_sha256 : ∀ c ∈ "sha256".toList, c.toNat ≠ 0 := by decide

/-- A type that is none of the three kinds takes the early `return rc`. -/
theorem parse_content_rejected (w : Walk) (t : CStr)
    (ht : xmlTextReaderGetAttribute w.reader "type".toList = some t)
    (h1 : xmlStrcasecmp t "sha1".toList ≠ 0) (h2 : xmlStrcasecmp t "sha256".toList ≠ 0)
    (h3 : xmlStrcasecmp t "md5".toList ≠ 0) :
    openioc_parse_content w = (CL_SUCCESS, w) := by
  simp only [openioc_parse_content, ht, h1, h2, h3, ne_eq, not_false_eq_true, and_self,
    if_true]

/-- An accepted type passes the comparison of lines 76-78. -/
theorem accepted_passes (t : CStr)
    (h : eqIgnoringCase t "md5".toList ∨ eqIgnoringCase t "sha1".toList ∨
      eqIgnoringCase t "sha256".toList) :
    ¬ (xmlStrcasecmp t "sha1".toList ≠ 0 ∧ xmlStrcasecmp t "sha256".toList ≠ 0 ∧
        xmlStrcasecmp t "md5".toList ≠ 0) := by
  rintro ⟨h1, h2, h3⟩
  rcases h with h | h | h
  · exact h3 (xmlStrcasecmp_of_eqIgnoringCase _ _ h)
  · exact h1 (xmlStrcasecmp_of_eqIgnoringCase _ _ h)
  · exact h2 (xmlStrcasecmp_of_eqIgnoringCase _ _ h)

/-- The content extractor on an accepted type followed by a text node. -/
theorem parse_content_text (w : Walk) (t v : CStr) (n : Node) (ns : List Node)
    (ht : xmlTextReaderGetAttribute w.reader "type".toList = some t)
    (hacc : eqIgnoringCase t "md5".toList ∨ eqIgnoringCase t "sha1".toList ∨
      eqIgnoringCase t "sha256".toList)
    (hrest : w.reader.rest = n :: ns) (hn : n.nodeType = XML_READER_TYPE_TEXT)
    (hv : n.value = some v) :
    openioc_parse_content w =
      if w.heap.ok w.heap.used then
        (CL_SUCCESS, { reader := { cur := some n, rest := ns }, elems := v :: w.elems,
                       heap := { w.heap with used := w.heap.used + 1 } })
      else
        (CL_EMEM, { reader := { cur := some n, rest := ns }, elems := w.elems,
                    heap := { w.heap with used := w.heap.used + 1 } }) := by
  have hp := accepted_passes t hacc
  simp only [openioc_parse_content, ht, hp, if_false, xmlTextReaderRead, hrest,
    xmlTextReaderNodeType, hn, xmlTextReaderConstValue, Option.bind, hv, Heap.alloc,
    and_self, if_true]

/-- C5: a Content start element whose type attribute is absent, or present
but not equal ignoring case to md5, sha1 or sha256, makes
openioc_parse_content return CL_SUCCESS with the whole state (collector,
cursor, heap) unchanged. The attribute value is a C string: it has no NUL. -/
theorem content_other_type_no_effect (w : Walk)
    (hstr : ∀ t, xmlTextReaderGetAttribute w.reader "type".toList = some t →
      ∀ c ∈ t, c.toNat ≠ 0)
    (h : ∀ t, xmlTextReaderGetAttribute w.reader "type".toList = some t →
      ¬ eqIgnoringCase t "md5".toList ∧ ¬ eqIgnoringCase t "sha1".toList ∧
        ¬ eqIgnoringCase t "sha256".toList) :
    openioc_parse_content w = (CL_SUCCESS, w) := by
  cases ht : xmlTextReaderGetAttribute w.reader "type".toList with
  | none => simp only [openioc_parse_content, ht]
  | some t =>
    obtain ⟨h1, h2, h3⟩ := h t ht
    have hz := hstr t ht
    exact parse_content_rejected w t ht
      (fun e => h2 (eqIgnoringCase_of_xmlStrcasecmp _ _ hz nul_free_sha1 e))
      (fun e => h3 (eqIgnoringCase_of_xmlStrcasecmp _ _ hz nul_free_sha256 e))
      (fun e => h1 (eqIgnoringCase_of_xmlStrcasecmp _ _ hz nul_free_md5 e))

theorem content_other_type_no_effect_witness :
    openioc_parse_content ssdeepWalk = (CL_SUCCESS, ssdeepWalk) :=
  content_other_type_no_effect ssdeepWalk
    (by
      intro t ht
      have e : t = "ssdeep".toList := by
        have : xmlTextReaderGetAttribute ssdeepWalk.reader "type".toList
            = some "ssdeep".toList := by decide
        rw [this] at ht
        exact (Option.some.inj ht).symm
      subst e
      decide)
    (by
      intro t ht
      have e : t = "ssdeep".toList := by
        have : xmlTextReaderGetAttribute ssdeepWalk.reader "type".toList
            = some "ssdeep".toList := by decide
        rw [this] at ht
        exact (Option.some.inj ht).symm
      subst e
      decide)

/-- C6: on a Content start element whose type equals md5, sha1 or sha256
ignoring case and whose next node is a text node with value v,
openioc_parse_content (the record allocation succeeding) advances the cursor
by exactly one node, returns CL_SUCCESS, and prepends v, untrimmed, to the
collector, the earlier records staying behind it in order. -/
theorem content_accepted_collects (w : Walk) (t v : CStr) (n : Node) (ns : List Node)
    (ht : xmlTextReaderGetAttribute w.reader "type".toList = some t)
    (hacc : eqIgnoringCase t "md5".toList ∨ eqIgnoringCase t "sha1".toList ∨
      eqIgnoringCase t "sha256".toList)
    (hrest : w.reader.rest = n :: ns) (hn : n.nodeType = XML_READER_TYPE_TEXT)
    (hv : n.value = some v) (halloc : w.heap.ok w.heap.used = true) :
    (openioc_parse_content w).1 = CL_SUCCESS ∧
      (openioc_parse_content w).2.reader = { cur := some n, rest := ns } ∧
      (openioc_parse_content w).2.elems = v :: w.elems := by
  rw [parse_content_text w t v n ns ht hacc hrest hn hv]
  simp [halloc]

theorem content_accepted_collects_witness :
    (openioc_parse_content sha256Walk).1 = CL_SUCCESS ∧
      (openioc_parse_content sha256Walk).2.reader =
        { cur := some (textNode " AB12 ".toList), rest := [endNode "Content".toList] } ∧
      (openioc_parse_content sha256Walk).2.elems = [" AB12 ".toList, "old".toList] :=
  content_accepted_collects sha256Walk "Sha256".toList " AB12 ".toList
    (textNode " AB12 ".toList) [endNode "Content".toList] (by decide)
    (Or.inr (Or.inr (by decide))) rfl rfl rfl rfl

/-! ## Single steps of the walker loops -/

theorem item_step_end (fuel : Nat) (cur : Option Node) (ns : List Node) (elems : List CStr)
    (heap : Heap) :
    openioc_parse_indicatoritem (fuel + 1)
        { reader := { cur := cur, rest := endNode "IndicatorItem".toList :: ns },
          elems := elems, heap := heap } =
      some (CL_SUCCESS, { reader := { cur := some (endNode "IndicatorItem".toList), rest := ns },
                          elems := elems, heap := heap }) := rfl

theorem item_step_content_end (fuel : Nat) (cur : Option Node) (ns : List Node)
    (elems : List CStr) (heap : Heap) :
    openioc_parse_indicatoritem (fuel + 1)
        { reader := { cur := cur, rest := endNode "Content".toList :: ns },
          elems := elems, heap := heap } =
      openioc_parse_indicatoritem fuel
        { reader := { cur := some (endNode "Content".toList), rest := ns },
          elems := elems, heap := heap } := rfl

theorem item_step_content (fuel : Nat) (cur : Option Node) (attrs : List (CStr × CStr))
    (ns : List Node) (elems : List CStr) (heap : Heap) :
    openioc_parse_indicatoritem (fuel + 1)
        { reader := { cur := cur, rest := startNode "Content".toList attrs :: ns },
          elems := elems, heap := heap } =
      if (openioc_parse_content
          { reader := { cur := some (startNode "Content".toList attrs), rest := ns },
            elems := elems, heap := heap }).1 ≠ CL_SUCCESS then
        some (openioc_parse_content
          { reader := { cur := some (startNode "Content".toList attrs), rest := ns },
            elems := elems, heap := heap })
      else
        openioc_parse_indicatoritem fuel (openioc_parse_content
          { reader := { cur := some (startNode "Content".toList attrs), rest := ns },
            elems := elems, heap := heap }).2 := rfl

theorem indicator_step_end (fuel : Nat) (cur : Option Node) (ns : List Node)
    (elems : List CStr) (heap : Heap) :
    openioc_parse_indicator (fuel + 1)
        { reader := { cur := cur, rest := endNode "Indicator".toList :: ns },
          elems := elems, heap := heap } =
      some (CL_SUCCESS, { reader := { cur := some (endNode "Indicator".toList), rest := ns },
                          elems := elems, heap := heap }) := rfl

theorem indicator_step_indicator (fuel : Nat) (cur : Option Node) (ns : List Node)
    (elems : List CStr) (heap : Heap) :
    openioc_parse_indicator (fuel + 1)
        { reader := { cur := cur, rest := startNode "Indicator".toList [] :: ns },
          elems := elems, heap := heap } =
      match openioc_parse_indicator fuel
          { reader := { cur := some (startNode "Indicator".toList []), rest := ns },
            elems := elems, heap := heap } with
      | none => none
      | some (rc, w2) =>
        if rc ≠ CL_SUCCESS then some (rc, w2) else openioc_parse_indicator fuel w2 := rfl

theorem indicator_step_item (fuel : Nat) (cur : Option Node) (ns : List Node)
    (elems : List CStr) (heap : Heap) :
    openioc_parse_indicator (fuel + 1)
        { reader := { cur := cur, rest := startNode "IndicatorItem".toList [] :: ns },
          elems := elems, heap := heap } =
      match openioc_parse_indicatoritem fuel
          { reader := { cur := some (startNode "IndicatorItem".toList []), rest := ns },
            elems := elems, heap := heap } with
      | none => none
      | some (rc, w2) =>
        if rc ≠ CL_SUCCESS then some (rc, w2) else openioc_parse_indicator fuel w2 := rfl

theorem loop_step_ioc_start (fuel : Nat) (ns : List Node) (elems : List CStr) (heap : Heap) :
    openioc_parse_loop (fuel + 1) 1
        { reader := { cur := some (startNode "ioc".toList []), rest := ns },
          elems := elems, heap := heap } =
      openioc_parse_loop fuel
        (xmlTextReaderRead { cur := some (startNode "ioc".toList []), rest := ns }).1
        { reader := (xmlTextReaderRead { cur := some (startNode "ioc".toList []), rest := ns }).2,
          elems := elems, heap := heap } := rfl

theorem loop_step_indicator_end (fuel : Nat) (ns : List Node) (elems : List CStr)
    (heap : Heap) :
    openioc_parse_loop (fuel + 1) 1
        { reader := { cur := some (endNode "Indicator".toList), rest := ns },
          elems := elems, heap := heap } =
      openioc_parse_loop fuel
        (xmlTextReaderRead { cur := some (endNode "Indicator".toList), rest := ns }).1
        { reader := (xmlTextReaderRead { cur := some (endNode "Indicator".toList), rest := ns }).2,
          elems := elems, heap := heap } := rfl

theorem loop_step_ioc_end (fuel : Nat) (ns : List Node) (elems : List CStr) (heap : Heap) :
    openioc_parse_loop (fuel + 1) 1
        { reader := { cur := some (endNode "ioc".toList), rest := ns },
          elems := elems, heap := heap } =
      some (Sum.inr { reader := { cur := some (endNode "ioc".toList), rest := ns },
                      elems := elems, heap := heap }) := rfl

theorem loop_step_indicator (fuel : Nat) (ns : List Node) (elems : List CStr) (heap : Heap) :
    openioc_parse_loop (fuel + 1) 1
        { reader := { cur := some (startNode "Indicator".toList []), rest := ns },
          elems := elems, heap := heap } =
      match openioc_parse_indicator fuel
          { reader := { cur := some (startNode "Indicator".toList []), rest := ns },
            elems := elems, heap := heap } with
      | none => none
      | some (rc1, w1) =>
        if rc1 ≠ CL_SUCCESS then some (Sum.inl (rc1, w1))
        else
          openioc_parse_loop fuel (xmlTextReaderRead w1.reader).1
            { w1 with reader := (xmlTextReaderRead w1.reader).2 } := by
  simp only [openioc_parse_loop]
  rfl

/-! ## Collection from documents of the grammar -/

theorem Heap.neverFails_after (h : Heap) (k : Nat) (hh : h.neverFails) :
    (h.after k).neverFails := fun j => hh j

theorem Content.accepted_type (c : Content) (h : c.accepted) :
    ∃ t, (c.attrs.find? (fun a => a.1 == "type".toList)).map (fun a => a.2) = some t ∧
      (eqIgnoringCase t "md5".toList ∨ eqIgnoringCase t "sha1".toList ∨
        eqIgnoringCase t "sha256".toList) := by
  unfold Content.accepted at h
  split at h
  · exact absurd h id
  · next t ht => exact ⟨t, ht, h⟩

theorem parse_content_good (c : Content) (ns : List Node)
    (elems : List CStr) (heap : Heap) (hheap : heap.neverFails) (hacc : c.accepted) :
    openioc_parse_content
        { reader := { cur := some (startNode "Content".toList c.attrs),
                      rest := textNode c.text :: ns },
          elems := elems, heap := heap } =
      (CL_SUCCESS, { reader := { cur := some (textNode c.text), rest := ns },
                     elems := c.text :: elems, heap := heap.after 1 }) := by
  obtain ⟨t, ht, hacc⟩ := Content.accepted_type c hacc
  rw [parse_content_text
    { reader := { cur := some (startNode "Content".toList c.attrs),
                  rest := textNode c.text :: ns },
      elems := elems, heap := heap } t c.text (textNode c.text) ns ht hacc rfl rfl rfl]
  simp only [hheap heap.used, if_true, Heap.after]

theorem item_contents (cs : List Content) :
    ∀ (fuel : Nat) (cur : Option Node) (tail : List Node) (elems : List CStr) (heap : Heap),
      heap.neverFails → (∀ c ∈ cs, c.accepted ∧ c.text ≠ []) →
      (contentNodes cs).length + 1 ≤ fuel →
      openioc_parse_indicatoritem fuel
          { reader := { cur := cur,
                        rest := contentNodes cs ++ endNode "IndicatorItem".toList :: tail },
            elems := elems, heap := heap } =
        some (CL_SUCCESS,
          { reader := { cur := some (endNode "IndicatorItem".toList), rest := tail },
            elems := (cs.map Content.text).reverse ++ elems,
            heap := heap.after cs.length }) := by
  induction cs with
  | nil =>
    intro fuel cur tail elems heap _ _ hf
    obtain ⟨f, rfl⟩ : ∃ f, fuel = f + 1 := ⟨fuel - 1, by simp [contentNodes] at hf; omega⟩
    simp only [contentNodes, List.nil_append, item_step_end, List.map_nil, List.reverse_nil,
      List.length_nil, Heap.after, Nat.add_zero]
  | cons c cs ih =>
    intro fuel cur tail elems heap hheap hall hf
    have hc := hall c (List.mem_cons_self _ _)
    have hnodes : c.nodes = [startNode "Content".toList c.attrs, textNode c.text,
        endNode "Content".toList] := by
      simp only [Content.nodes, hc.2, if_false]
    simp only [contentNodes, hnodes, List.length_append, List.length_cons, List.length_nil] at hf
    obtain ⟨f, rfl⟩ : ∃ f, fuel = f + 2 := ⟨fuel - 2, by omega⟩
    simp only [contentNodes, hnodes, List.cons_append, List.nil_append]
    rw [item_step_content, parse_content_good c _ elems heap hheap hc.1]
    simp only [ne_eq, not_true_eq_false, if_false]
    rw [item_step_content_end]
    rw [ih f _ tail _ _ (Heap.neverFails_after heap 1 hheap)
      (fun c' h' => hall c' (List.mem_cons_of_mem _ h')) (by omega)]
    simp only [List.map_cons, List.reverse_cons, List.append_assoc, List.singleton_append,
      Heap.after, List.length_cons]
    have e : heap.used + 1 + cs.length = heap.used + (cs.length + 1) := by omega
    rw [e]

theorem Heap.after_after (h : Heap) (j k : Nat) : (h.after j).after k = h.after (j + k) := by
  simp only [Heap.after, Nat.add_assoc]

theorem indicator_collects (i : Indicators) :
    ∀ (fuel : Nat) (cur : Option Node) (tail : List Node) (elems : List CStr) (heap : Heap),
      heap.neverFails → (∀ c ∈ i.contents, c.accepted ∧ c.text ≠ []) →
      i.nodes.length + 1 ≤ fuel →
      openioc_parse_indicator fuel
          { reader := { cur := cur, rest := i.nodes ++ endNode "Indicator".toList :: tail },
            elems := elems, heap := heap } =
        some (CL_SUCCESS,
          { reader := { cur := some (endNode "Indicator".toList), rest := tail },
            elems := (i.contents.map Content.text).reverse ++ elems,
            heap := heap.after i.contents.length }) := by
  induction i with
  | nil =>
    intro fuel cur tail elems heap _ _ hf
    obtain ⟨f, rfl⟩ : ∃ f, fuel = f + 1 := ⟨fuel - 1, by omega⟩
    simp only [Indicators.nodes, List.nil_append, indicator_step_end, Indicators.contents,
      List.map_nil, List.reverse_nil, List.length_nil, Heap.after, Nat.add_zero]
  | indicator ch sib ihc ihs =>
    intro fuel cur tail elems heap hheap hall hf
    simp only [Indicators.nodes, List.length_cons, List.length_append] at hf
    obtain ⟨f, rfl⟩ : ∃ f, fuel = f + 1 := ⟨fuel - 1, by omega⟩
    simp only [Indicators.contents, List.mem_append] at hall
    simp only [Indicators.nodes, List.cons_append, List.append_assoc]
    rw [indicator_step_indicator,
      ihc f _ (sib.nodes ++ endNode "Indicator".toList :: tail) elems heap hheap
        (fun c hc => hall c (Or.inl hc)) (by omega)]
    simp only [ne_eq, not_true_eq_false, if_false]
    rw [ihs f _ tail _ _ (Heap.neverFails_after heap _ hheap)
      (fun c hc => hall c (Or.inr hc)) (by omega)]
    simp only [Indicators.contents, List.map_append, List.reverse_append, List.append_assoc,
      Heap.after_after, List.length_append]
  | item cs sib ihs =>
    intro fuel cur tail elems heap hheap hall hf
    simp only [Indicators.nodes, List.length_cons, List.length_append] at hf
    obtain ⟨f, rfl⟩ : ∃ f, fuel = f + 1 := ⟨fuel - 1, by omega⟩
    simp only [Indicators.contents, List.mem_append] at hall
    simp only [Indicators.nodes, List.cons_append, List.append_assoc]
    rw [indicator_step_item,
      item_contents cs f _ (sib.nodes ++ endNode "Indicator".toList :: tail) elems heap hheap
        (fun c hc => hall c (Or.inl hc)) (by omega)]
    simp only [ne_eq, not_true_eq_false, if_false]
    rw [ihs f _ tail _ _ (Heap.neverFails_after heap _ hheap)
      (fun c hc => hall c (Or.inr hc)) (by omega)]
    simp only [Indicators.contents, List.map_append, List.reverse_append, List.append_assoc,
      Heap.after_after, List.length_append]

theorem loop_collects (d : Document) :
    ∀ (fuel : Nat) (x : Node) (elems : List CStr) (heap : Heap),
      x = startNode "ioc".toList [] ∨ x = endNode "Indicator".toList →
      heap.neverFails → (∀ c ∈ Document.contents d, c.accepted ∧ c.text ≠ []) →
      (topNodes d).length + 2 ≤ fuel →
      openioc_parse_loop fuel 1
          { reader := { cur := some x, rest := topNodes d ++ [endNode "ioc".toList] },
            elems := elems, heap := heap } =
        some (Sum.inr
          { reader := { cur := some (endNode "ioc".toList), rest := [] },
            elems := ((Document.contents d).map Content.text).reverse ++ elems,
            heap := heap.after (Document.contents d).length }) := by
  induction d with
  | nil =>
    intro fuel x elems heap hx _ _ hf
    obtain ⟨f, rfl⟩ : ∃ f, fuel = f + 2 := ⟨fuel - 2, by omega⟩
    have hstep : openioc_parse_loop (f + 2) 1
        { reader := { cur := some x, rest := topNodes [] ++ [endNode "ioc".toList] },
          elems := elems, heap := heap } =
        openioc_parse_loop (f + 1) 1
          { reader := { cur := some (endNode "ioc".toList), rest := [] },
            elems := elems, heap := heap } := by
      rcases hx with rfl | rfl
      · exact loop_step_ioc_start _ _ _ _
      · exact loop_step_indicator_end _ _ _ _
    rw [hstep, loop_step_ioc_end]
    simp only [Document.contents, List.map_nil, List.reverse_nil, List.nil_append,
      List.length_nil, Heap.after, Nat.add_zero]
  | cons i is ih =>
    intro fuel x elems heap hx hheap hall hf
    simp only [topNodes, List.length_cons, List.length_append] at hf
    obtain ⟨f, rfl⟩ : ∃ f, fuel = f + 2 := ⟨fuel - 2, by omega⟩
    simp only [Document.contents, List.mem_append] at hall
    have hstep : openioc_parse_loop (f + 2) 1
        { reader := { cur := some x, rest := topNodes (i :: is) ++ [endNode "ioc".toList] },
          elems := elems, heap := heap } =
        openioc_parse_loop (f + 1) 1
          { reader := { cur := some (startNode "Indicator".toList []),
                        rest := i.nodes ++ endNode "Indicator".toList ::
                          (topNodes is ++ [endNode "ioc".toList]) },
            elems := elems, heap := heap } := by
      simp only [topNodes, List.cons_append, List.append_assoc]
      rcases hx with rfl | rfl
      · exact loop_step_ioc_start _ _ _ _
      · exact loop_step_indicator_end _ _ _ _
    rw [hstep, loop_step_indicator,
      indicator_collects i f _ _ elems heap hheap (fun c hc => hall c (Or.inl hc)) (by omega)]
    simp only [ne_eq, not_true_eq_false, if_false]
    rw [← loop_step_indicator_end,
      ih (f + 1) _ _ _ (Or.inr rfl) (Heap.neverFails_after heap _ hheap)
        (fun c hc => hall c (Or.inr hc)) (by omega)]
    simp only [Document.contents, List.map_append, List.reverse_append, List.append_assoc,
      Heap.after_after, List.length_append]

/-- C1: for every document of the grammar whose Content elements all have an
accepted type and a non-empty text, on a heap where no request fails, the
scan of openioc_parse ends past its loop with a collector that holds exactly
one record per Content element (N records for N elements), the texts in the
reverse of document order: the most recently found first. -/
theorem scan_collects_all_reversed (d : Document) (heap : Heap) (hheap : heap.neverFails)
    (hall : ∀ c ∈ Document.contents d, c.accepted ∧ c.text ≠ []) :
    ∃ w, openioc_scan d.nodes heap = some (Sum.inr w) ∧
      w.elems = ((Document.contents d).map Content.text).reverse ∧
      w.elems.length = (Document.contents d).length := by
  refine ⟨{ reader := { cur := some (endNode "ioc".toList), rest := [] },
             elems := ((Document.contents d).map Content.text).reverse,
             heap := heap.after (Document.contents d).length }, ?_, rfl, ?_⟩
  · have h := loop_collects d ((topNodes d).length + 3) (startNode "ioc".toList []) [] heap
      (Or.inl rfl) hheap hall (by omega)
    simp only [List.append_nil] at h
    simp only [openioc_scan, Document.nodes, xmlTextReaderRead, List.length_cons,
      List.length_append, List.length_nil]
    exact h
  · simp only [List.length_reverse, List.length_map]

theorem scan_collects_all_reversed_witness :
    ∃ w, openioc_scan nestedDoc.nodes plentyHeap = some (Sum.inr w) ∧
      w.elems = ["cc".toList, " bb ".toList, "aa".toList] ∧ w.elems.length = 3 :=
  scan_collects_all_reversed nestedDoc plentyHeap (fun _ => rfl) (by decide)

/-! ## Trimming -/

theorem cut_trailing_take (hash : CStr) (hne : hash ≠ [])
    (hhead : isspace (hash.head hne) = false) :
    ∀ sp, sp < hash.length →
      hash.take (cut_trailing hash sp (sp + 1)) = (hash.take (sp + 1)).rdropWhile isspace := by
  intro sp
  induction sp with
  | zero =>
    intro _
    cases hash with
    | nil => exact absurd rfl hne
    | cons a as =>
      simp only [List.head_cons] at hhead
      simp only [cut_trailing, Nat.zero_add, List.take_succ_cons, List.take_zero,
        List.rdropWhile_singleton, hhead, Bool.false_eq_true, if_false]
  | succ sp ih =>
    intro hlt
    have hget : hash.getD (sp + 1) (Char.ofNat 0) = hash[sp + 1] := List.getD_eq_getElem _ _ hlt
    have htake : hash.take (sp + 1 + 1) = hash.take (sp + 1) ++ [hash[sp + 1]] := by
      rw [List.take_succ, List.getElem?_eq_getElem hlt]
      rfl
    rw [htake]
    by_cases hsp : isspace hash[sp + 1] = true
    · rw [List.rdropWhile_concat_pos _ _ _ hsp]
      simp only [cut_trailing, hget, hsp, if_true, Nat.add_sub_cancel]
      exact ih (by omega)
    · rw [List.rdropWhile_concat_neg _ _ _ hsp]
      simp only [cut_trailing, hget, hsp, if_false, Bool.false_eq_true]
      exact htake

/-- What lines 231-244 compute: the record without its leading and its
trailing whitespace, or nothing when only whitespace is left. -/
theorem openioc_trim_eq (raw : CStr) :
    openioc_trim raw =
      if raw.dropWhile isspace = [] then none
      else some ((raw.dropWhile isspace).rdropWhile isspace) := by
  unfold openioc_trim skip_leading
  by_cases hnil : raw.dropWhile isspace = []
  · simp only [hnil, List.length_nil, if_true]
  · have hlen : 0 < (raw.dropWhile isspace).length := List.length_pos.mpr hnil
    have hhead : isspace ((raw.dropWhile isspace).head hnil) = false := by
      have := List.head_dropWhile_not isspace raw hnil
      simpa using this
    have h := cut_trailing_take (raw.dropWhile isspace) hnil hhead
      ((raw.dropWhile isspace).length - 1) (by omega)
    have e : (raw.dropWhile isspace).length - 1 + 1 = (raw.dropWhile isspace).length := by omega
    rw [e, List.take_length] at h
    simp only [hnil, if_false, Nat.ne_of_gt hlen, h]

theorem rdropWhile_append_spaces (l w : CStr) (hw : ∀ c ∈ w, isspace c = true) :
    (l ++ w).rdropWhile isspace = l.rdropWhile isspace := by
  unfold List.rdropWhile
  rw [List.reverse_append, List.dropWhile_append_of_pos]
  intro a ha
  exact hw a (List.mem_reverse.mp ha)

theorem append_rtake_spaces (l : CStr) :
    ∃ w, (∀ c ∈ w, isspace c = true) ∧ l = l.rdropWhile isspace ++ w := by
  refine ⟨(l.reverse.takeWhile isspace).reverse, ?_, ?_⟩
  · intro c hc
    exact List.mem_takeWhile_imp (List.mem_reverse.mp hc)
  · unfold List.rdropWhile
    rw [← List.reverse_append, List.takeWhile_append_dropWhile, List.reverse_reverse]

/-- Whitespace around a hash that neither starts nor ends with whitespace is
removed by lines 231-244, and nothing else. -/
theorem openioc_trim_sandwich (w1 h w2 : CStr) (hw1 : ∀ c ∈ w1, isspace c = true)
    (hw2 : ∀ c ∈ w2, isspace c = true) (hne : h ≠ [])
    (hhead : isspace (h.head hne) = false) (hlast : isspace (h.getLast hne) = false) :
    openioc_trim (w1 ++ h ++ w2) = some h := by
  have hdrop : (w1 ++ h ++ w2).dropWhile isspace = h ++ w2 := by
    rw [List.append_assoc, List.dropWhile_append_of_pos hw1]
    cases h with
    | nil => exact absurd rfl hne
    | cons a as =>
      simp only [List.head_cons] at hhead
      simp only [List.cons_append]
      rw [List.dropWhile_cons_of_neg (by simp [hhead])]
  have hnil : h ++ w2 ≠ [] := by simp [hne]
  rw [openioc_trim_eq, hdrop, if_neg hnil, rdropWhile_append_spaces h w2 hw2]
  congr 1
  rw [List.rdropWhile_eq_self_iff]
  intro hl
  simp [hlast]

theorem openioc_trim_none_of_spaces (raw : CStr) (h : ∀ c ∈ raw, isspace c = true) :
    openioc_trim raw = none := by
  rw [openioc_trim_eq, if_pos (List.dropWhile_eq_nil_iff.mpr h)]

theorem openioc_trim_some (raw t : CStr) (h : openioc_trim raw = some t) :
    ∃ (hne : t ≠ []) (w1 w2 : CStr), isspace (t.head hne) = false ∧
      isspace (t.getLast hne) = false ∧ (∀ c ∈ w1, isspace c = true) ∧
      (∀ c ∈ w2, isspace c = true) ∧ raw = w1 ++ t ++ w2 := by
  rw [openioc_trim_eq] at h
  by_cases hnil : raw.dropWhile isspace = []
  · rw [if_pos hnil] at h
    exact absurd h (by simp)
  · rw [if_neg hnil] at h
    have ht : (raw.dropWhile isspace).rdropWhile isspace = t := Option.some.inj h
    have hhead : isspace ((raw.dropWhile isspace).head hnil) = false := by
      have := List.head_dropWhile_not isspace raw hnil
      simpa using this
    have hne : t ≠ [] := by
      rw [← ht]
      intro hcon
      have hall := List.rdropWhile_eq_nil_iff.mp hcon
      have := hall _ (List.head_mem hnil)
      rw [hhead] at this
      exact absurd this (by simp)
    obtain ⟨w2, hw2, hsplit⟩ := append_rtake_spaces (raw.dropWhile isspace)
    rw [ht] at hsplit
    refine ⟨hne, raw.takeWhile isspace, w2, ?_, ?_, ?_, hw2, ?_⟩
    · have e : (raw.dropWhile isspace).head hnil = t.head hne := by
        have : ∀ (l : CStr) (hl : l ≠ []), l = t ++ w2 → l.head hl = t.head hne := by
          intro l hl e
          subst e
          exact List.head_append_of_ne_nil hne
        exact this _ hnil hsplit
      rw [← e]
      exact hhead
    · have hl : (raw.dropWhile isspace).rdropWhile isspace ≠ [] := by rw [ht]; exact hne
      have := List.rdropWhile_last_not isspace (raw.dropWhile isspace) hl
      have e : ((raw.dropWhile isspace).rdropWhile isspace).getLast hl = t.getLast hne := by
        have : ∀ (l : CStr) (hl : l ≠ []), l = t → l.getLast hl = t.getLast hne := by
          intro l hl e
          subst e
          rfl
        exact this _ hl ht
      rw [e] at this
      simpa using this
    · intro c hc
      exact List.mem_takeWhile_imp hc
    · rw [List.append_assoc, ← hsplit, List.takeWhile_append_dropWhile]

/-- C8: the trim of the drain (skip the leading whitespace, then cut the
trailing whitespace walking back from the end) is idempotent on every
string: trimming what it yields gives the same string again, and a record it
drops stays dropped. A trimmed hash is non-empty, starts and ends with a
character that is not whitespace, and is the record with only whitespace
taken off its two ends, the characters between unchanged. -/
theorem trim_idempotent (raw : CStr) :
    (openioc_trim raw).bind openioc_trim = openioc_trim raw ∧
      ∀ t, openioc_trim raw = some t →
        openioc_trim t = some t ∧
        ∃ (hne : t ≠ []) (w1 w2 : CStr), isspace (t.head hne) = false ∧
          isspace (t.getLast hne) = false ∧ (∀ c ∈ w1, isspace c = true) ∧
          (∀ c ∈ w2, isspace c = true) ∧ raw = w1 ++ t ++ w2 := by
  have key : ∀ t, openioc_trim raw = some t → openioc_trim t = some t := by
    intro t ht
    obtain ⟨hne, _, _, hhead, hlast, _, _, _⟩ := openioc_trim_some raw t ht
    have := openioc_trim_sandwich [] t [] (by simp) (by simp) hne hhead hlast
    simpa using this
  refine ⟨?_, fun t ht => ⟨key t ht, openioc_trim_some raw t ht⟩⟩
  cases ht : openioc_trim raw with
  | none => rfl
  | some t => exact key t ht

theorem trim_idempotent_witness :
    openioc_trim "ab c".toList = some "ab c".toList ∧
      ∃ (hne : "ab c".toList ≠ []) (w1 w2 : CStr),
        isspace ("ab c".toList.head hne) = false ∧
        isspace ("ab c".toList.getLast hne) = false ∧ (∀ c ∈ w1, isspace c = true) ∧
        (∀ c ∈ w2, isspace c = true) ∧ " \tab c\n ".toList = w1 ++ "ab c".toList ++ w2 :=
  (trim_idempotent " \tab c\n ".toList).2 "ab c".toList (by decide)

/-! ## The drain -/

theorem drain_cons_dropped {M : Type} (st : HashStore M) (iocname : CStr) (ioclen : Nat)
    (elem : CStr) (elems : List CStr) (engine : cl_engine M) (calls : List (CStr × CStr))
    (heap : Heap) (h : openioc_trim elem = none) :
    openioc_drain st iocname ioclen (elem :: elems) engine calls heap =
      openioc_drain st iocname ioclen elems engine calls heap := by
  unfold openioc_trim at h
  by_cases hz : (skip_leading elem).length = 0
  · simp only [openioc_drain, hz, if_true]
  · simp only [hz, if_false] at h
    exact absurd h (by simp)

theorem drain_cons_kept {M : Type} (st : HashStore M) (iocname : CStr) (ioclen : Nat)
    (elem t : CStr) (elems : List CStr) (engine : cl_engine M) (calls : List (CStr × CStr))
    (heap : Heap) (h : openioc_trim elem = some t) :
    openioc_drain st iocname ioclen (elem :: elems) engine calls heap =
      if heap.ok heap.used then
        openioc_drain st iocname ioclen elems
          { hm_hdb := (st.hm_addhash_str engine.hm_hdb t 0
              (openioc_virusname iocname ioclen t t.length)).2 }
          (calls ++ [(t, openioc_virusname iocname ioclen t t.length)]) (heap.after 1)
      else
        { ret := Returned.value CL_EMEM, engine := engine, calls := calls,
          heap := heap.after 1 } := by
  unfold openioc_trim at h
  by_cases hz : (skip_leading elem).length = 0
  · simp only [hz, if_true] at h
    exact absurd h (by simp)
  · simp only [hz, if_false] at h
    have ht := Option.some.inj h
    have hname : openioc_virusname iocname ioclen (skip_leading elem)
        (cut_trailing (skip_leading elem) ((skip_leading elem).length - 1)
          (skip_leading elem).length) = openioc_virusname iocname ioclen t t.length := by
      simp only [openioc_virusname, ht, List.take_length]
    simp only [openioc_drain, hz, if_false, Heap.alloc, ht, hname, Heap.after]

/-- C7: a collected record whose text is empty or consists of whitespace only
is discarded by the drain: draining it and the records after it is draining
the records after it, so it causes no call of the store, no allocation and no
change of the engine, and the remaining records are processed. -/
theorem drain_discards_whitespace {M : Type} (st : HashStore M) (iocname : CStr)
    (ioclen : Nat) (elem : CStr) (elems : List CStr) (engine : cl_engine M)
    (calls : List (CStr × CStr)) (heap : Heap) (h : ∀ c ∈ elem, isspace c = true) :
    openioc_drain st iocname ioclen (elem :: elems) engine calls heap =
      openioc_drain st iocname ioclen elems engine calls heap :=
  drain_cons_dropped st iocname ioclen elem elems engine calls heap
    (openioc_trim_none_of_spaces elem h)

theorem drain_discards_whitespace_witness :
    openioc_drain sampleStore "x.ioc".toList 5 [" \t ".toList, "ab12".toList]
        { hm_hdb := some [] } [] plentyHeap =
      openioc_drain sampleStore "x.ioc".toList 5 ["ab12".toList]
        { hm_hdb := some [] } [] plentyHeap :=
  drain_discards_whitespace sampleStore "x.ioc".toList 5 " \t ".toList ["ab12".toList]
    { hm_hdb := some [] } [] plentyHeap (by decide)

/-! ## The signature name -/

/-- The `switch` of lines 253-270 stores what its `default` branch stores:
the underscore of the case labels is overwritten. -/
theorem openioc_switch_eq (sp vp : Char) :
    openioc_switch sp vp = if isspace sp then '_' else sp := by
  unfold openioc_switch store
  rfl

/-- C4: for every base filename, of length L, and every trimmed hash, the
generated name is P ++ "." ++ H: P, the transformed filename, has length L,
the character at index L is the appended '.', and H, all that follows it, is
the subsequence of the hexadecimal digits of the hash in their order; so the
name has length L + 1 + the number of hexadecimal digits of the hash. -/
theorem virusname_shape (iocname hash : CStr) :
    ∃ P : CStr, P.length = iocname.length ∧
      P = iocname.map (fun c => openioc_switch c (Char.ofNat 0)) ∧
      openioc_virusname iocname iocname.length hash hash.length =
        P ++ '.' :: hash.filter isxdigit ∧
      (openioc_virusname iocname iocname.length hash hash.length)[iocname.length]? =
        some '.' ∧
      (openioc_virusname iocname iocname.length hash hash.length).drop (iocname.length + 1) =
        hash.filter isxdigit ∧
      (∀ c ∈ (openioc_virusname iocname iocname.length hash hash.length).drop
        (iocname.length + 1), isxdigit c = true) ∧
      List.Sublist (hash.filter isxdigit) hash ∧
      (openioc_virusname iocname iocname.length hash hash.length).length =
        iocname.length + 1 + hash.countP isxdigit := by
  have hname : openioc_virusname iocname iocname.length hash hash.length =
      iocname.map (fun c => openioc_switch c (Char.ofNat 0)) ++
        '.' :: hash.filter isxdigit := by
    simp only [openioc_virusname, List.take_length]
  have hlen : (iocname.map (fun c => openioc_switch c (Char.ofNat 0))).length =
      iocname.length := List.length_map _ _
  have hdrop : (openioc_virusname iocname iocname.length hash hash.length).drop
      (iocname.length + 1) = hash.filter isxdigit := by
    rw [hname, ← hlen, List.drop_append_eq_append_drop]
    simp
  refine ⟨_, hlen, rfl, hname, ?_, hdrop, ?_, List.filter_sublist _, ?_⟩
  · rw [hname, List.getElem?_append_right (by rw [hlen]), hlen]
    simp
  · rw [hdrop]
    intro c hc
    exact (List.mem_filter.mp hc).2
  · rw [hname, List.length_append, hlen, List.length_cons, List.countP_eq_length_filter]
    omega

/-! ## The sample document of the specification -/

theorem scan_collects (d : Document) (heap : Heap) (hheap : heap.neverFails)
    (hall : ∀ c ∈ Document.contents d, c.accepted ∧ c.text ≠ []) :
    openioc_scan d.nodes heap =
      some (Sum.inr { reader := { cur := some (endNode "ioc".toList), rest := [] },
                      elems := ((Document.contents d).map Content.text).reverse,
                      heap := heap.after (Document.contents d).length }) := by
  have h := loop_collects d ((topNodes d).length + 3) (startNode "ioc".toList []) [] heap
    (Or.inl rfl) hheap hall (by omega)
  simp only [List.append_nil] at h
  simp only [openioc_scan, Document.nodes, xmlTextReaderRead, List.length_cons,
    List.length_append, List.length_nil]
  exact h

theorem iocname_sample (cfg : Config) (hsep : cfg.PATHSEP = '/' ∨ cfg.PATHSEP = '\\')
    (hmax : 11 ≤ cfg.MAXPATHLEN) :
    openioc_iocname cfg "sample.ioc".toList = "sample.ioc".toList ∧
      openioc_ioclen cfg "sample.ioc".toList = 10 := by
  have hp : openioc_iocp cfg "sample.ioc".toList = "sample.ioc".toList := by
    unfold openioc_iocp
    rcases hsep with h | h <;> rw [h] <;> rfl
  have hn : openioc_iocname cfg "sample.ioc".toList = "sample.ioc".toList := by
    unfold openioc_iocname
    rw [hp]
    apply List.take_of_length_le
    have : "sample.ioc".toList.length = 10 := rfl
    omega
  refine ⟨hn, ?_⟩
  unfold openioc_ioclen
  rw [hn]
  rfl

theorem register_single {M : Type} (cfg : Config) (st : HashStore M) (fname raw t : CStr)
    (engine : cl_engine M) (heap : Heap) (hheap : heap.neverFails)
    (ht : openioc_trim raw = some t) :
    (openioc_register cfg st fname [raw] engine heap).calls =
      [(t, openioc_virusname (openioc_iocname cfg fname) (openioc_ioclen cfg fname) t
        t.length)] := by
  unfold openioc_register
  rcases engine with ⟨_ | m⟩
  · simp only [ne_eq, List.cons_ne_self, not_false_eq_true, Option.isNone_none, and_self,
      if_true, Heap.alloc, hheap heap.used]
    rw [drain_cons_kept _ _ _ raw t _ _ _ _ ht]
    simp only [hheap _, if_true, openioc_drain, List.nil_append]
  · simp only [ne_eq, List.cons_ne_self, not_false_eq_true, Option.isNone_some,
      Bool.false_eq_true, and_false, if_false]
    rw [drain_cons_kept _ _ _ raw t _ _ _ _ ht]
    simp only [hheap _, if_true, openioc_drain, List.nil_append]

/-- C2: on the document `<ioc><Indicator><IndicatorItem><Content type="md5">
d41d8cd98f00b204e9800998ecf8427e </Content></IndicatorItem></Indicator></ioc>`
(the hash between two spaces on each side) with source name sample.ioc,
openioc_parse calls the store exactly once, with the hash
d41d8cd98f00b204e9800998ecf8427e, its surrounding whitespace removed, and the
name sample.ioc.d41d8cd98f00b204e9800998ecf8427e. In general a collected text
w1 ++ h ++ w2, with w1 and w2 whitespace and h non-empty without leading or
trailing whitespace, is inserted as h. (No allocation fails; `PATHSEP` is
"/" or "\" and `MAXPATHLEN` is at least 11.) -/
theorem sample_document_one_insertion {M : Type} (cfg : Config) (st : HashStore M) (fd : Int)
    (engine : cl_engine M) (heap : Heap) (iocname : CStr) (ioclen : Nat) (w1 h w2 : CStr)
    (elems : List CStr) (calls : List (CStr × CStr))
    (hsep : cfg.PATHSEP = '/' ∨ cfg.PATHSEP = '\\') (hmax : 11 ≤ cfg.MAXPATHLEN)
    (hfd : 0 ≤ fd) (hheap : heap.neverFails)
    (hw1 : ∀ c ∈ w1, isspace c = true) (hw2 : ∀ c ∈ w2, isspace c = true) (hne : h ≠ [])
    (hhead : isspace (h.head hne) = false) (hlast : isspace (h.getLast hne) = false) :
    (∃ o, openioc_parse cfg st (some "sample.ioc".toList) fd (some md5Doc.nodes) engine heap
        = some o ∧
      o.calls = [("d41d8cd98f00b204e9800998ecf8427e".toList,
                  "sample.ioc.d41d8cd98f00b204e9800998ecf8427e".toList)]) ∧
    openioc_drain st iocname ioclen ((w1 ++ h ++ w2) :: elems) engine calls heap =
      openioc_drain st iocname ioclen elems
        { hm_hdb := (st.hm_addhash_str engine.hm_hdb h 0
            (openioc_virusname iocname ioclen h h.length)).2 }
        (calls ++ [(h, openioc_virusname iocname ioclen h h.length)]) (heap.after 1) := by
  constructor
  · have hscan := scan_collects md5Doc heap hheap (by decide)
    have htrim : openioc_trim "  d41d8cd98f00b204e9800998ecf8427e  ".toList =
        some "d41d8cd98f00b204e9800998ecf8427e".toList := by decide
    obtain ⟨hn, hl⟩ := iocname_sample cfg hsep hmax
    refine ⟨openioc_register cfg st "sample.ioc".toList
      ["  d41d8cd98f00b204e9800998ecf8427e  ".toList] engine
      (heap.after (Document.contents md5Doc).length), ?_, ?_⟩
    · simp only [openioc_parse, not_lt.mpr hfd, if_false, hscan]
      rfl
    · have hreg := register_single cfg st "sample.ioc".toList
        "  d41d8cd98f00b204e9800998ecf8427e  ".toList
        "d41d8cd98f00b204e9800998ecf8427e".toList engine
        (heap.after (Document.contents md5Doc).length)
        (Heap.neverFails_after heap _ hheap) htrim
      rw [hn, hl] at hreg
      exact hreg
  · rw [drain_cons_kept st iocname ioclen (w1 ++ h ++ w2) h elems engine calls heap
      (openioc_trim_sandwich w1 h w2 hw1 hw2 hne hhead hlast)]
    simp only [hheap heap.used, if_true]

theorem sample_document_one_insertion_witness :
    (∃ o, openioc_parse linuxConfig sampleStore (some "sample.ioc".toList) 3
        (some md5Doc.nodes) { hm_hdb := none } plentyHeap = some o ∧
      o.calls = [("d41d8cd98f00b204e9800998ecf8427e".toList,
                  "sample.ioc.d41d8cd98f00b204e9800998ecf8427e".toList)]) ∧
    openioc_drain sampleStore "x.ioc".toList 5 ((" \t".toList ++ "ab 12".toList ++
        "\n".toList) :: []) { hm_hdb := none } [] plentyHeap =
      openioc_drain sampleStore "x.ioc".toList 5 []
        { hm_hdb := (sampleStore.hm_addhash_str none "ab 12".toList 0
            (openioc_virusname "x.ioc".toList 5 "ab 12".toList "ab 12".toList.length)).2 }
        ([] ++ [("ab 12".toList,
          openioc_virusname "x.ioc".toList 5 "ab 12".toList "ab 12".toList.length)])
        (plentyHeap.after 1) :=
  sample_document_one_insertion linuxConfig sampleStore 3 { hm_hdb := none } plentyHeap
    "x.ioc".toList 5 " \t".toList "ab 12".toList "\n".toList [] []
    (Or.inl rfl) (by decide) (by decide) (fun _ => rfl) (by decide) (by decide) (by decide)
    (by decide) (by decide)

/-- C3, at the base filename `a?b.ioc`: the forbidden character `?` is not
replaced. The name under which openioc_parse registers the hash of the
sample document is `a?b.ioc.d41d8cd98f00b204e9800998ecf8427e`, where the
claim has `a_b.ioc.d41d8cd98f00b204e9800998ecf8427e`; the `switch` stores the
underscore and, for want of a `break`, overwrites it in `default`. -/
theorem forbidden_character_survives :
    (openioc_parse linuxConfig sampleStore (some "a?b.ioc".toList) 3 (some md5Doc.nodes)
        { hm_hdb := none } plentyHeap).map (fun o => o.calls) =
      some [("d41d8cd98f00b204e9800998ecf8427e".toList,
             "a?b.ioc.d41d8cd98f00b204e9800998ecf8427e".toList)] ∧
    openioc_switch '?' (Char.ofNat 0) = '?' ∧
    ∀ sp vp, isspace sp = false → openioc_switch sp vp = sp := by
  refine ⟨by decide, by decide, ?_⟩
  intro sp vp h
  rw [openioc_switch_eq, h]
  rfl

/-! ## Propagation of an error of the content extractor -/

theorem xmlStrEqual_some (name : Option CStr) (s : CStr) (h : xmlStrEqual name s = true) :
    name = some s := by
  cases name with
  | none => exact absurd h (by simp [xmlStrEqual])
  | some n =>
    simp only [xmlStrEqual, beq_iff_eq] at h
    rw [h]

theorem item_content_error (fuel : Nat) (w : Walk)
    (hname : xmlStrEqual (openioc_read w.reader).1 "Content".toList = true)
    (htype : xmlTextReaderNodeType (openioc_read w.reader).2 = XML_READER_TYPE_ELEMENT)
    (herr : (openioc_parse_content { w with reader := (openioc_read w.reader).2 }).1
      ≠ CL_SUCCESS) :
    openioc_parse_indicatoritem (fuel + 1) w =
      some (openioc_parse_content { w with reader := (openioc_read w.reader).2 }) := by
  have hn := xmlStrEqual_some _ _ hname
  simp only [openioc_parse_indicatoritem, hn, Option.isNone_some, Bool.false_eq_true,
    if_false, htype, and_true, herr, ne_eq, not_false_eq_true, if_true]
  simp only [xmlStrEqual, beq_self_eq_true, if_true]

theorem indicator_item_error (fuel : Nat) (w w2 : Walk) (rc : cl_error_t)
    (hname : xmlStrEqual (openioc_read w.reader).1 "IndicatorItem".toList = true)
    (htype : xmlTextReaderNodeType (openioc_read w.reader).2 = XML_READER_TYPE_ELEMENT)
    (hcall : openioc_parse_indicatoritem fuel { w with reader := (openioc_read w.reader).2 }
      = some (rc, w2))
    (herr : rc ≠ CL_SUCCESS) :
    openioc_parse_indicator (fuel + 1) w = some (rc, w2) := by
  have hn := xmlStrEqual_some _ _ hname
  have hne : xmlStrEqual (some "IndicatorItem".toList) "Indicator".toList = false := by decide
  have heq : xmlStrEqual (some "IndicatorItem".toList) "IndicatorItem".toList = true := by
    decide
  simp only [openioc_parse_indicator, hn, Option.isNone_some, Bool.false_eq_true, if_false,
    hne, false_and, heq, htype, and_self, if_true, hcall, herr, ne_eq, not_false_eq_true]

theorem indicator_nested_error (fuel : Nat) (w w2 : Walk) (rc : cl_error_t)
    (hname : xmlStrEqual (openioc_read w.reader).1 "Indicator".toList = true)
    (htype : xmlTextReaderNodeType (openioc_read w.reader).2 = XML_READER_TYPE_ELEMENT)
    (hcall : openioc_parse_indicator fuel { w with reader := (openioc_read w.reader).2 }
      = some (rc, w2))
    (herr : rc ≠ CL_SUCCESS) :
    openioc_parse_indicator (fuel + 1) w = some (rc, w2) := by
  have hn := xmlStrEqual_some _ _ hname
  have heq : xmlStrEqual (some "Indicator".toList) "Indicator".toList = true := by decide
  simp only [openioc_parse_indicator, hn, Option.isNone_some, Bool.false_eq_true, if_false,
    heq, htype, and_self, if_true, hcall, herr, ne_eq, not_false_eq_true]

theorem loop_indicator_error (fuel : Nat) (w w1 : Walk) (rc : cl_error_t)
    (hname : xmlStrEqual (xmlTextReaderConstLocalName w.reader) "Indicator".toList = true)
    (htype : xmlTextReaderNodeType w.reader = XML_READER_TYPE_ELEMENT)
    (hcall : openioc_parse_indicator fuel w = some (rc, w1)) (herr : rc ≠ CL_SUCCESS) :
    openioc_parse_loop (fuel + 1) 1 w = some (Sum.inl (rc, w1)) := by
  simp only [openioc_parse_loop, ne_eq, not_true_eq_false, if_false, hname, htype, and_self,
    if_true, hcall, herr, not_false_eq_true]

theorem parse_scan_error {M : Type} (cfg : Config) (st : HashStore M) (fname : CStr)
    (fd : Int) (nodes : List Node) (engine : cl_engine M) (heap : Heap) (rc : cl_error_t)
    (w : Walk) (hfd : 0 ≤ fd) (hscan : openioc_scan nodes heap = some (Sum.inl (rc, w))) :
    openioc_parse cfg st (some fname) fd (some nodes) engine heap =
      some { ret := Returned.value rc, engine := engine, calls := [], heap := w.heap } := by
  simp only [openioc_parse, not_lt.mpr hfd, if_false, hscan]

theorem content_error_emem (w w1 : Walk) (rc : cl_error_t)
    (h : openioc_parse_content w = (rc, w1)) (herr : rc ≠ CL_SUCCESS) : rc = CL_EMEM := by
  unfold openioc_parse_content at h
  split at h
  · exact absurd (Prod.mk.inj h).1.symm herr
  · split at h
    · exact absurd (Prod.mk.inj h).1.symm herr
    · simp only at h
      split at h
      · split at h
        · split at h
          · exact absurd (Prod.mk.inj h).1.symm herr
          · exact (Prod.mk.inj h).1.symm
        · exact absurd (Prod.mk.inj h).1.symm herr
      · exact absurd (Prod.mk.inj h).1.symm herr

theorem item_error_origin :
    ∀ (fuel : Nat) (w w1 : Walk) (rc : cl_error_t),
      openioc_parse_indicatoritem fuel w = some (rc, w1) → rc ≠ CL_SUCCESS →
      ∃ wc, openioc_parse_content wc = (rc, w1) := by
  intro fuel
  induction fuel with
  | zero =>
    intro w w1 rc h _
    simp only [openioc_parse_indicatoritem] at h
    exact absurd h (by simp)
  | succ fuel ih =>
    intro w w1 rc h herr
    simp only [openioc_parse_indicatoritem] at h
    split at h
    · exact absurd (Prod.mk.inj (Option.some.inj h)).1.symm herr
    · split at h
      · split at h
        · exact ⟨_, Option.some.inj h⟩
        · exact ih _ _ _ h herr
      · split at h
        · exact absurd (Prod.mk.inj (Option.some.inj h)).1.symm herr
        · exact ih _ _ _ h herr

theorem indicator_error_origin :
    ∀ (fuel : Nat) (w w1 : Walk) (rc : cl_error_t),
      openioc_parse_indicator fuel w = some (rc, w1) → rc ≠ CL_SUCCESS →
      ∃ wc, openioc_parse_content wc = (rc, w1) := by
  intro fuel
  induction fuel with
  | zero =>
    intro w w1 rc h _
    simp only [openioc_parse_indicator] at h
    exact absurd h (by simp)
  | succ fuel ih =>
    intro w w1 rc h herr
    simp only [openioc_parse_indicator] at h
    split at h
    · exact absurd (Prod.mk.inj (Option.some.inj h)).1.symm herr
    · split at h
      · split at h
        · exact absurd h (by simp)
        · next rc2 w2 hcall =>
          split at h
          · obtain ⟨e1, e2⟩ := Prod.mk.inj (Option.some.inj h)
            subst e1 e2
            exact ih _ _ _ hcall herr
          · exact ih _ _ _ h herr
      · split at h
        · split at h
          · exact absurd h (by simp)
          · next rc2 w2 hcall =>
            split at h
            · obtain ⟨e1, e2⟩ := Prod.mk.inj (Option.some.inj h)
              subst e1 e2
              exact item_error_origin _ _ _ _ hcall herr
            · exact ih _ _ _ h herr
        · split at h
          · exact absurd (Prod.mk.inj (Option.some.inj h)).1.symm herr
          · exact ih _ _ _ h herr

theorem loop_error_origin :
    ∀ (fuel : Nat) (rd : Int) (w w1 : Walk) (rc : cl_error_t),
      openioc_parse_loop fuel rd w = some (Sum.inl (rc, w1)) →
      rc ≠ CL_SUCCESS ∧ ∃ wc, openioc_parse_content wc = (rc, w1) := by
  intro fuel
  induction fuel with
  | zero =>
    intro rd w w1 rc h
    simp only [openioc_parse_loop] at h
    exact absurd h (by simp)
  | succ fuel ih =>
    intro rd w w1 rc h
    simp only [openioc_parse_loop] at h
    split at h
    · exact absurd h (by simp)
    · split at h
      · split at h
        · exact absurd h (by simp)
        · next rc2 w2 hcall =>
          split at h
          · next herr =>
            obtain ⟨e1, e2⟩ := Prod.mk.inj (Sum.inl.inj (Option.some.inj h))
            subst e1 e2
            exact ⟨herr, indicator_error_origin _ _ _ _ hcall herr⟩
          · split at h
            · exact absurd h (by simp)
            · exact ih _ _ _ _ h
      · split at h
        · exact absurd h (by simp)
        · exact ih _ _ _ _ h

/-! ## The value that openioc_parse returns -/

theorem drain_ret {M : Type} (st : HashStore M) (iocname : CStr) (ioclen : Nat) :
    ∀ (elems : List CStr) (engine : cl_engine M) (calls : List (CStr × CStr)) (heap : Heap),
      (openioc_drain st iocname ioclen elems engine calls heap).ret = Returned.no_value ∨
      (openioc_drain st iocname ioclen elems engine calls heap).ret =
        Returned.value CL_EMEM := by
  intro elems
  induction elems with
  | nil =>
    intro engine calls heap
    exact Or.inl rfl
  | cons elem elems ih =>
    intro engine calls heap
    cases ht : openioc_trim elem with
    | none =>
      rw [drain_cons_dropped _ _ _ _ _ _ _ _ ht]
      exact ih _ _ _
    | some t =>
      rw [drain_cons_kept _ _ _ _ t _ _ _ _ ht]
      split
      · exact ih _ _ _
      · exact Or.inr rfl

theorem register_ret {M : Type} (cfg : Config) (st : HashStore M) (fname : CStr)
    (elems : List CStr) (engine : cl_engine M) (heap : Heap) :
    (openioc_register cfg st fname elems engine heap).ret = Returned.no_value ∨
    (openioc_register cfg st fname elems engine heap).ret = Returned.value CL_EMEM := by
  unfold openioc_register
  simp only
  split
  · split
    · exact drain_ret _ _ _ _ _ _ _
    · exact Or.inr rfl
  · exact drain_ret _ _ _ _ _ _ _

/-- No `return` of `openioc_parse` hands back CL_SUCCESS. -/
theorem openioc_parse_not_success {M : Type} (cfg : Config) (st : HashStore M)
    (fname : Option CStr) (fd : Int) (xml : Option (List Node)) (engine : cl_engine M)
    (heap : Heap) (o : Outcome M)
    (h : openioc_parse cfg st fname fd xml engine heap = some o) :
    o.ret ≠ Returned.value CL_SUCCESS := by
  unfold openioc_parse at h
  split at h
  · rw [← Option.some.inj h]; simp
  · split at h
    · rw [← Option.some.inj h]; simp
    · split at h
      · rw [← Option.some.inj h]; simp
      · next nodes =>
        split at h
        · exact absurd h (by simp)
        · next rc w hscan =>
          rw [← Option.some.inj h]
          unfold openioc_scan at hscan
          have := (loop_error_origin _ _ _ _ _ hscan).1
          simpa using this
        · next w _ =>
          rw [← Option.some.inj h]
          rcases register_ret cfg st _ w.elems engine w.heap with e | e <;> rw [e] <;> simp

/-- C10, at the sample document with `type="ssdeep"`, a valid name and
descriptor, a cursor that opens and a heap on which nothing fails:
openioc_parse makes no registration and then reaches the closing brace of the
function without a `return`, so it hands back no value where the claim has
CL_SUCCESS. The same happens for a document whose hash is only whitespace,
for one whose hash the store rejects, and for the md5 sample; and no call of
openioc_parse whatever returns CL_SUCCESS. -/
theorem success_is_not_returned :
    (openioc_parse linuxConfig sampleStore (some "sample.ioc".toList) 3
        (some ssdeepDoc.nodes) { hm_hdb := none } plentyHeap).map (fun o => (o.ret, o.calls))
      = some (Returned.no_value, []) ∧
    (openioc_parse linuxConfig sampleStore (some "sample.ioc".toList) 3
        (some blankDoc.nodes) { hm_hdb := none } plentyHeap).map (fun o => (o.ret, o.calls))
      = some (Returned.no_value, []) ∧
    (openioc_parse linuxConfig sampleStore (some "sample.ioc".toList) 3
        (some shortDoc.nodes) { hm_hdb := none } plentyHeap).map
          (fun o => (o.ret, o.calls, o.engine.hm_hdb))
      = some (Returned.no_value, [("abc".toList, "sample.ioc.abc".toList)], some []) ∧
    (openioc_parse linuxConfig sampleStore (some "sample.ioc".toList) 3
        (some md5Doc.nodes) { hm_hdb := none } plentyHeap).map (fun o => o.ret)
      = some Returned.no_value ∧
    ∀ (cfg : Config) (fname : Option CStr) (fd : Int) (xml : Option (List Node))
      (engine : cl_engine (List (CStr × CStr))) (heap : Heap)
      (o : Outcome (List (CStr × CStr))),
      openioc_parse cfg sampleStore fname fd xml engine heap = some o →
      o.ret ≠ Returned.value CL_SUCCESS := by
  refine ⟨by decide, by decide, rfl, by decide, ?_⟩
  intro cfg fname fd xml engine heap o h
  exact openioc_parse_not_success cfg sampleStore fname fd xml engine heap o h

/-! ## The fuel is enough -/

theorem parse_content_rest (w : Walk) :
    (openioc_parse_content w).2.reader.rest.length ≤ w.reader.rest.length := by
  unfold openioc_parse_content
  split
  · exact Nat.le_refl _
  · split
    · exact Nat.le_refl _
    · have hr : (xmlTextReaderRead w.reader).2.rest.length ≤ w.reader.rest.length := by
        unfold xmlTextReaderRead
        split
        · simp
        · next n ns h => simp [h]
      simp only
      split
      · split
        · split <;> exact hr
        · exact hr
      · exact hr

theorem openioc_read_rest (r : Reader) :
    (openioc_read r).1 = none ∨ (openioc_read r).2.rest.length + 1 = r.rest.length := by
  cases hr : r.rest with
  | nil => left; simp [openioc_read, xmlTextReaderRead, hr]
  | cons n ns => right; simp [openioc_read, xmlTextReaderRead, hr]

theorem openioc_read_rest_le (r : Reader) :
    (openioc_read r).2.rest.length ≤ r.rest.length := by
  cases hr : r.rest with
  | nil => simp [openioc_read, xmlTextReaderRead, hr]
  | cons n ns => simp [openioc_read, xmlTextReaderRead, hr]

theorem item_total :
    ∀ (fuel : Nat) (w : Walk), w.reader.rest.length < fuel →
      ∃ rc w1, openioc_parse_indicatoritem fuel w = some (rc, w1) ∧
        w1.reader.rest.length ≤ w.reader.rest.length := by
  intro fuel
  induction fuel with
  | zero => intro w h; exact absurd h (Nat.not_lt_zero _)
  | succ fuel ih =>
    intro w hlt
    have hle := openioc_read_rest_le w.reader
    simp only [openioc_parse_indicatoritem]
    split
    · exact ⟨_, _, rfl, hle⟩
    · next hsome =>
      have hstep : (openioc_read w.reader).2.rest.length + 1 = w.reader.rest.length := by
        rcases openioc_read_rest w.reader with h | h
        · rw [h] at hsome
          exact absurd rfl hsome
        · exact h
      split
      · have hc := parse_content_rest { w with reader := (openioc_read w.reader).2 }
        split
        · exact ⟨_, _, rfl, by simp only at hc; omega⟩
        · obtain ⟨rc, w1, h1, h2⟩ :=
            ih (openioc_parse_content { w with reader := (openioc_read w.reader).2 }).2
              (by simp only at hc; omega)
          exact ⟨rc, w1, h1, by simp only at hc; omega⟩
      · split
        · exact ⟨_, _, rfl, hle⟩
        · obtain ⟨rc, w1, h1, h2⟩ :=
            ih { w with reader := (openioc_read w.reader).2 } (by simp only; omega)
          exact ⟨rc, w1, h1, by simp only at h2; omega⟩

theorem indicator_total :
    ∀ (fuel : Nat) (w : Walk), w.reader.rest.length < fuel →
      ∃ rc w1, openioc_parse_indicator fuel w = some (rc, w1) ∧
        w1.reader.rest.length ≤ w.reader.rest.length := by
  intro fuel
  induction fuel with
  | zero => intro w h; exact absurd h (Nat.not_lt_zero _)
  | succ fuel ih =>
    intro w hlt
    have hle := openioc_read_rest_le w.reader
    simp only [openioc_parse_indicator]
    split
    · exact ⟨_, _, rfl, hle⟩
    · next hsome =>
      have hstep : (openioc_read w.reader).2.rest.length + 1 = w.reader.rest.length := by
        rcases openioc_read_rest w.reader with h | h
        · rw [h] at hsome
          exact absurd rfl hsome
        · exact h
      split
      · obtain ⟨rc, w1, h1, h2⟩ :=
          ih { w with reader := (openioc_read w.reader).2 } (by simp only; omega)
        simp only at h2
        rw [h1]
        simp only
        split
        · exact ⟨_, _, rfl, by omega⟩
        · obtain ⟨rc2, w2, h3, h4⟩ := ih w1 (by omega)
          exact ⟨rc2, w2, h3, by omega⟩
      · split
        · obtain ⟨rc, w1, h1, h2⟩ :=
            item_total fuel { w with reader := (openioc_read w.reader).2 }
              (by simp only; omega)
          simp only at h2
          rw [h1]
          simp only
          split
          · exact ⟨_, _, rfl, by omega⟩
          · obtain ⟨rc2, w2, h3, h4⟩ := ih w1 (by omega)
            exact ⟨rc2, w2, h3, by omega⟩
        · split
          · exact ⟨_, _, rfl, hle⟩
          · obtain ⟨rc, w1, h1, h2⟩ :=
              ih { w with reader := (openioc_read w.reader).2 } (by simp only; omega)
            exact ⟨rc, w1, h1, by simp only at h2; omega⟩

theorem read_rest_cases (r : Reader) :
    ((xmlTextReaderRead r).1 ≠ 1) ∨
      ((xmlTextReaderRead r).2.rest.length + 1 = r.rest.length) := by
  unfold xmlTextReaderRead
  split
  · left; simp
  · next n ns h => right; simp [h]

theorem loop_total :
    ∀ (fuel : Nat) (rd : Int) (w : Walk),
      (rd ≠ 1 ∧ 1 ≤ fuel) ∨ w.reader.rest.length + 2 ≤ fuel →
      ∃ res, openioc_parse_loop fuel rd w = some res := by
  intro fuel
  induction fuel with
  | zero =>
    intro rd w h
    rcases h with h | h <;> omega
  | succ fuel ih =>
    intro rd w h
    by_cases hrd : rd = 1
    · have hf : w.reader.rest.length + 1 ≤ fuel := by
        rcases h with h | h
        · exact absurd hrd h.1
        · omega
      have hafter : ∀ w1 : Walk, w1.reader.rest.length ≤ w.reader.rest.length →
          ∃ res, openioc_parse_loop fuel (xmlTextReaderRead w1.reader).1
            { w1 with reader := (xmlTextReaderRead w1.reader).2 } = some res := by
        intro w1 hw1
        apply ih
        rcases read_rest_cases w1.reader with hc | hc
        · exact Or.inl ⟨hc, by omega⟩
        · right
          simp only
          omega
      simp only [openioc_parse_loop, hrd, ne_eq, not_true_eq_false, if_false]
      split
      · obtain ⟨rc, w1, h1, h2⟩ := indicator_total fuel w (by omega)
        rw [h1]
        simp only
        split
        · exact ⟨_, rfl⟩
        · split
          · exact ⟨_, rfl⟩
          · exact hafter w1 h2
      · split
        · exact ⟨_, rfl⟩
        · exact hafter w (Nat.le_refl _)
    · exact ⟨Sum.inr w, by simp only [openioc_parse_loop, ne_eq, hrd, not_false_eq_true,
        if_true]⟩

/-- The scan of `openioc_parse` ends on every node sequence. -/
theorem openioc_scan_total (nodes : List Node) (heap : Heap) :
    ∃ res, openioc_scan nodes heap = some res := by
  unfold openioc_scan
  apply loop_total
  cases nodes with
  | nil => left; exact ⟨by simp [xmlTextReaderRead], by omega⟩
  | cons n ns => right; simp [xmlTextReaderRead]

/-- The function `openioc_parse` ends on every input. -/
theorem openioc_parse_total {M : Type} (cfg : Config) (st : HashStore M)
    (fname : Option CStr) (fd : Int) (xml : Option (List Node)) (engine : cl_engine M)
    (heap : Heap) : ∃ o, openioc_parse cfg st fname fd xml engine heap = some o := by
  unfold openioc_parse
  split
  · exact ⟨_, rfl⟩
  · split
    · exact ⟨_, rfl⟩
    · split
      · exact ⟨_, rfl⟩
      · next nodes =>
        obtain ⟨res, hres⟩ := openioc_scan_total nodes heap
        rw [hres]
        rcases res with ⟨rc, w⟩ | w
        · exact ⟨_, rfl⟩
        · exact ⟨_, rfl⟩

/-! ## More fuel gives the same answer -/

theorem item_unfold (fuel : Nat) (w : Walk) :
    openioc_parse_indicatoritem (fuel + 1) w =
      if (openioc_read w.reader).1.isNone then
        some (CL_SUCCESS, { w with reader := (openioc_read w.reader).2 })
      else if xmlStrEqual (openioc_read w.reader).1 "Content".toList ∧
          xmlTextReaderNodeType (openioc_read w.reader).2 = XML_READER_TYPE_ELEMENT then
        if (openioc_parse_content { w with reader := (openioc_read w.reader).2 }).1
            ≠ CL_SUCCESS then
          some (openioc_parse_content { w with reader := (openioc_read w.reader).2 })
        else
          openioc_parse_indicatoritem fuel
            (openioc_parse_content { w with reader := (openioc_read w.reader).2 }).2
      else if xmlStrEqual (openioc_read w.reader).1 "IndicatorItem".toList ∧
          xmlTextReaderNodeType (openioc_read w.reader).2 = XML_READER_TYPE_END_ELEMENT then
        some (CL_SUCCESS, { w with reader := (openioc_read w.reader).2 })
      else openioc_parse_indicatoritem fuel { w with reader := (openioc_read w.reader).2 } :=
  rfl

theorem indicator_unfold (fuel : Nat) (w : Walk) :
    openioc_parse_indicator (fuel + 1) w =
      if (openioc_read w.reader).1.isNone then
        some (CL_SUCCESS, { w with reader := (openioc_read w.reader).2 })
      else if xmlStrEqual (openioc_read w.reader).1 "Indicator".toList ∧
          xmlTextReaderNodeType (openioc_read w.reader).2 = XML_READER_TYPE_ELEMENT then
        match openioc_parse_indicator fuel { w with reader := (openioc_read w.reader).2 } with
        | none => none
        | some (rc, w2) =>
          if rc ≠ CL_SUCCESS then some (rc, w2) else openioc_parse_indicator fuel w2
      else if xmlStrEqual (openioc_read w.reader).1 "IndicatorItem".toList ∧
          xmlTextReaderNodeType (openioc_read w.reader).2 = XML_READER_TYPE_ELEMENT then
        match openioc_parse_indicatoritem fuel
            { w with reader := (openioc_read w.reader).2 } with
        | none => none
        | some (rc, w2) =>
          if rc ≠ CL_SUCCESS then some (rc, w2) else openioc_parse_indicator fuel w2
      else if xmlStrEqual (openioc_read w.reader).1 "Indicator".toList ∧
          xmlTextReaderNodeType (openioc_read w.reader).2 = XML_READER_TYPE_END_ELEMENT then
        some (CL_SUCCESS, { w with reader := (openioc_read w.reader).2 })
      else openioc_parse_indicator fuel { w with reader := (openioc_read w.reader).2 } :=
  rfl

theorem loop_unfold (fuel : Nat) (rd : Int) (w : Walk) :
    openioc_parse_loop (fuel + 1) rd w =
      if rd ≠ 1 then some (Sum.inr w)
      else if xmlStrEqual (xmlTextReaderConstLocalName w.reader) "Indicator".toList ∧
          xmlTextReaderNodeType w.reader = XML_READER_TYPE_ELEMENT then
        match openioc_parse_indicator fuel w with
        | none => none
        | some (rc1, w1) =>
          if rc1 ≠ CL_SUCCESS then some (Sum.inl (rc1, w1))
          else if xmlStrEqual (xmlTextReaderConstLocalName w.reader) "ioc".toList ∧
              xmlTextReaderNodeType w1.reader = XML_READER_TYPE_END_ELEMENT then
            some (Sum.inr w1)
          else
            openioc_parse_loop fuel (xmlTextReaderRead w1.reader).1
              { w1 with reader := (xmlTextReaderRead w1.reader).2 }
      else if xmlStrEqual (xmlTextReaderConstLocalName w.reader) "ioc".toList ∧
          xmlTextReaderNodeType w.reader = XML_READER_TYPE_END_ELEMENT then
        some (Sum.inr w)
      else
        openioc_parse_loop fuel (xmlTextReaderRead w.reader).1
          { w with reader := (xmlTextReaderRead w.reader).2 } := by
  simp only [openioc_parse_loop]

theorem item_fuel_succ :
    ∀ (fuel : Nat) (w : Walk) (r : cl_error_t × Walk),
      openioc_parse_indicatoritem fuel w = some r →
      openioc_parse_indicatoritem (fuel + 1) w = some r := by
  intro fuel
  induction fuel with
  | zero => intro w r h; exact absurd h (by simp [openioc_parse_indicatoritem])
  | succ fuel ih =>
    intro w r h
    rw [item_unfold] at h ⊢
    split at h
    · rw [if_pos (by assumption)]; exact h
    · rw [if_neg (by assumption)]
      split at h
      · rw [if_pos (by assumption)]
        split at h
        · rw [if_pos (by assumption)]; exact h
        · rw [if_neg (by assumption)]; exact ih _ _ h
      · rw [if_neg (by assumption)]
        split at h
        · rw [if_pos (by assumption)]; exact h
        · rw [if_neg (by assumption)]; exact ih _ _ h

theorem indicator_fuel_succ :
    ∀ (fuel : Nat) (w : Walk) (r : cl_error_t × Walk),
      openioc_parse_indicator fuel w = some r →
      openioc_parse_indicator (fuel + 1) w = some r := by
  intro fuel
  induction fuel with
  | zero => intro w r h; exact absurd h (by simp [openioc_parse_indicator])
  | succ fuel ih =>
    intro w r h
    rw [indicator_unfold] at h ⊢
    split at h
    · rw [if_pos (by assumption)]; exact h
    · rw [if_neg (by assumption)]
      split at h
      · rw [if_pos (by assumption)]
        split at h
        · exact absurd h (by simp)
        · next rc w2 hcall =>
          rw [ih _ _ hcall]
          simp only
          split at h
          · rw [if_pos (by assumption)]; exact h
          · rw [if_neg (by assumption)]; exact ih _ _ h
      · rw [if_neg (by assumption)]
        split at h
        · rw [if_pos (by assumption)]
          split at h
          · exact absurd h (by simp)
          · next rc w2 hcall =>
            rw [item_fuel_succ _ _ _ hcall]
            simp only
            split at h
            · rw [if_pos (by assumption)]; exact h
            · rw [if_neg (by assumption)]; exact ih _ _ h
        · rw [if_neg (by assumption)]
          split at h
          · rw [if_pos (by assumption)]; exact h
          · rw [if_neg (by assumption)]; exact ih _ _ h

theorem loop_fuel_succ :
    ∀ (fuel : Nat) (rd : Int) (w : Walk) (r : (cl_error_t × Walk) ⊕ Walk),
      openioc_parse_loop fuel rd w = some r → openioc_parse_loop (fuel + 1) rd w = some r := by
  intro fuel
  induction fuel with
  | zero => intro rd w r h; exact absurd h (by simp [openioc_parse_loop])
  | succ fuel ih =>
    intro rd w r h
    rw [loop_unfold] at h ⊢
    split at h
    · rw [if_pos (by assumption)]; exact h
    · rw [if_neg (by assumption)]
      split at h
      · rw [if_pos (by assumption)]
        split at h
        · exact absurd h (by simp)
        · next rc w2 hcall =>
          rw [indicator_fuel_succ _ _ _ hcall]
          simp only
          split at h
          · rw [if_pos (by assumption)]; exact h
          · rw [if_neg (by assumption)]
            split at h
            · rw [if_pos (by assumption)]; exact h
            · rw [if_neg (by assumption)]; exact ih _ _ _ h
      · rw [if_neg (by assumption)]
        split at h
        · rw [if_pos (by assumption)]; exact h
        · rw [if_neg (by assumption)]; exact ih _ _ _ h

theorem item_fuel_mono (fuel more : Nat) (w : Walk) (r : cl_error_t × Walk)
    (h : openioc_parse_indicatoritem fuel w = some r) :
    openioc_parse_indicatoritem (fuel + more) w = some r := by
  induction more with
  | zero => exact h
  | succ m ih => exact item_fuel_succ _ _ _ ih

theorem indicator_fuel_mono (fuel more : Nat) (w : Walk) (r : cl_error_t × Walk)
    (h : openioc_parse_indicator fuel w = some r) :
    openioc_parse_indicator (fuel + more) w = some r := by
  induction more with
  | zero => exact h
  | succ m ih => exact indicator_fuel_succ _ _ _ ih

theorem loop_fuel_mono (fuel more : Nat) (rd : Int) (w : Walk)
    (r : (cl_error_t × Walk) ⊕ Walk) (h : openioc_parse_loop fuel rd w = some r) :
    openioc_parse_loop (fuel + more) rd w = some r := by
  induction more with
  | zero => exact h
  | succ m ih => exact loop_fuel_succ _ _ _ _ ih

/-! ## The content extractor on an arbitrary next node -/

theorem acceptedType_false (n : Node) (ns : List Node)
    (h : acceptedType n.attrs = false) :
    (xmlTextReaderGetAttribute { cur := some n, rest := ns } "type".toList = none) ∨
    ∃ t, xmlTextReaderGetAttribute { cur := some n, rest := ns } "type".toList = some t ∧
      xmlStrcasecmp t "sha1".toList ≠ 0 ∧ xmlStrcasecmp t "sha256".toList ≠ 0 ∧
        xmlStrcasecmp t "md5".toList ≠ 0 := by
  unfold acceptedType at h
  split at h
  · next hnone => exact Or.inl hnone
  · next t hsome =>
    right
    refine ⟨t, hsome, ?_⟩
    simp only [Bool.not_eq_false', decide_eq_true_eq] at h
    exact h

theorem acceptedType_true (n : Node) (ns : List Node) (h : acceptedType n.attrs = true) :
    ∃ t, xmlTextReaderGetAttribute { cur := some n, rest := ns } "type".toList = some t ∧
      ¬ (xmlStrcasecmp t "sha1".toList ≠ 0 ∧ xmlStrcasecmp t "sha256".toList ≠ 0 ∧
        xmlStrcasecmp t "md5".toList ≠ 0) := by
  unfold acceptedType at h
  split at h
  · exact absurd h (by simp)
  · next t hsome =>
    refine ⟨t, hsome, ?_⟩
    simp only [Bool.not_eq_true', decide_eq_false_iff_not] at h
    exact h

theorem parse_content_skip (n : Node) (ns : List Node) (elems : List CStr) (heap : Heap)
    (h : acceptedType n.attrs = false) :
    openioc_parse_content { reader := { cur := some n, rest := ns }, elems := elems,
                            heap := heap } =
      (CL_SUCCESS, { reader := { cur := some n, rest := ns }, elems := elems,
                     heap := heap }) := by
  rcases acceptedType_false n ns h with hn | ⟨t, ht, h1, h2, h3⟩
  · simp only [openioc_parse_content, hn]
  · exact parse_content_rejected _ t ht h1 h2 h3

theorem parse_content_at_end (n : Node) (elems : List CStr) (heap : Heap)
    (h : acceptedType n.attrs = true) :
    openioc_parse_content { reader := { cur := some n, rest := [] }, elems := elems,
                            heap := heap } =
      (CL_SUCCESS, { reader := { cur := none, rest := [] }, elems := elems,
                     heap := heap }) := by
  obtain ⟨t, ht, hp⟩ := acceptedType_true n [] h
  simp only [openioc_parse_content, ht, hp, if_false, xmlTextReaderRead]
  rfl

theorem parse_content_no_text (n t : Node) (ns : List Node) (elems : List CStr) (heap : Heap)
    (h : acceptedType n.attrs = true) (ht : t.nodeType ≠ XML_READER_TYPE_TEXT) :
    openioc_parse_content { reader := { cur := some n, rest := t :: ns }, elems := elems,
                            heap := heap } =
      (CL_SUCCESS, { reader := { cur := some t, rest := ns }, elems := elems,
                     heap := heap }) := by
  obtain ⟨ty, hty, hp⟩ := acceptedType_true n (t :: ns) h
  simp only [openioc_parse_content, hty, hp, if_false, xmlTextReaderRead,
    xmlTextReaderNodeType, ht, and_false]

theorem parse_content_push (n t : Node) (v : CStr) (ns : List Node) (elems : List CStr)
    (heap : Heap) (h : acceptedType n.attrs = true) (ht : t.nodeType = XML_READER_TYPE_TEXT)
    (hv : t.value = some v) (hok : heap.ok heap.used = true) :
    openioc_parse_content { reader := { cur := some n, rest := t :: ns }, elems := elems,
                            heap := heap } =
      (CL_SUCCESS, { reader := { cur := some t, rest := ns }, elems := v :: elems,
                     heap := heap.after 1 }) := by
  obtain ⟨ty, hty, hp⟩ := acceptedType_true n (t :: ns) h
  simp only [openioc_parse_content, hty, hp, if_false, xmlTextReaderRead,
    xmlTextReaderNodeType, ht, and_self, if_true, xmlTextReaderConstValue, Option.bind, hv,
    Heap.alloc, hok, Heap.after]

/-! ## The walk of a document that is cut off -/

theorem harvest_endNode (name : CStr) (xs : List Node) :
    harvest (endNode name :: xs) = harvest xs := rfl

theorem harvest_textNode (v : CStr) (xs : List Node) :
    harvest (textNode v :: xs) = harvest xs := rfl

theorem harvest_content_start (attrs : List (CStr × CStr)) (xs : List Node) :
    harvest (startNode "Content".toList attrs :: xs) =
      (if acceptedType attrs then
        (match xs with
         | [] => []
         | t :: _ => t.textValue)
       else []) ++ harvest xs := rfl

theorem harvest_indicator_start (xs : List Node) :
    harvest (startNode "Indicator".toList [] :: xs) = harvest xs := rfl

theorem harvest_item_start (xs : List Node) :
    harvest (startNode "IndicatorItem".toList [] :: xs) = harvest xs := rfl

theorem harvest_ioc_start (xs : List Node) :
    harvest (startNode "ioc".toList [] :: xs) = harvest xs := rfl

theorem Heap.after_zero (h : Heap) : h.after 0 = h := rfl

theorem readerAfter_zero (e : Node) (len : Nat) (tail : List Node) :
    readerAfter e len 0 tail = { cur := none, rest := [] } := by
  simp [readerAfter]

theorem readerAfter_le (e : Node) (len k : Nat) (tail : List Node) (h : k ≤ len) :
    readerAfter e len k tail = { cur := none, rest := [] } := by
  simp [readerAfter, Nat.not_lt.mpr h]

theorem readerAfter_add (e : Node) (len k m : Nat) (tail : List Node) :
    readerAfter e (m + len) (k + m) tail = readerAfter e len k tail := by
  unfold readerAfter
  by_cases h : len < k
  · rw [if_pos h, if_pos (by omega)]
    have e1 : k + m - (m + len) - 1 = k - len - 1 := by omega
    rw [e1]
  · rw [if_neg h, if_neg (by omega)]

theorem item_step_eof (fuel : Nat) (cur : Option Node) (elems : List CStr) (heap : Heap) :
    openioc_parse_indicatoritem (fuel + 1)
        { reader := { cur := cur, rest := [] }, elems := elems, heap := heap } =
      some (CL_SUCCESS, { reader := { cur := none, rest := [] }, elems := elems,
                          heap := heap }) := rfl

theorem item_step_text (fuel : Nat) (cur : Option Node) (v : CStr) (ns : List Node)
    (elems : List CStr) (heap : Heap) :
    openioc_parse_indicatoritem (fuel + 1)
        { reader := { cur := cur, rest := textNode v :: ns }, elems := elems, heap := heap } =
      openioc_parse_indicatoritem fuel
        { reader := { cur := some (textNode v), rest := ns }, elems := elems,
          heap := heap } := rfl

theorem indicator_step_eof (fuel : Nat) (cur : Option Node) (elems : List CStr)
    (heap : Heap) :
    openioc_parse_indicator (fuel + 1)
        { reader := { cur := cur, rest := [] }, elems := elems, heap := heap } =
      some (CL_SUCCESS, { reader := { cur := none, rest := [] }, elems := elems,
                          heap := heap }) := rfl

/-- The item handler after a `Content` start tag whose type is not accepted. -/
theorem item_step_content_skip (fuel : Nat) (cur : Option Node) (attrs : List (CStr × CStr))
    (ns : List Node) (elems : List CStr) (heap : Heap) (h : acceptedType attrs = false) :
    openioc_parse_indicatoritem (fuel + 1)
        { reader := { cur := cur, rest := startNode "Content".toList attrs :: ns },
          elems := elems, heap := heap } =
      openioc_parse_indicatoritem fuel
        { reader := { cur := some (startNode "Content".toList attrs), rest := ns },
          elems := elems, heap := heap } := by
  rw [item_step_content, parse_content_skip (startNode "Content".toList attrs) ns elems heap h]
  simp only [ne_eq, not_true_eq_false, if_false]

/-- The item handler after an accepted `Content` start tag that ends the stream. -/
theorem item_step_content_at_end (fuel : Nat) (cur : Option Node)
    (attrs : List (CStr × CStr)) (elems : List CStr) (heap : Heap)
    (h : acceptedType attrs = true) :
    openioc_parse_indicatoritem (fuel + 1)
        { reader := { cur := cur, rest := [startNode "Content".toList attrs] },
          elems := elems, heap := heap } =
      openioc_parse_indicatoritem fuel
        { reader := { cur := none, rest := [] }, elems := elems, heap := heap } := by
  rw [item_step_content, parse_content_at_end (startNode "Content".toList attrs) elems heap h]
  simp only [ne_eq, not_true_eq_false, if_false]

/-- The item handler after an accepted `Content` start tag and its text. -/
theorem item_step_content_push (fuel : Nat) (cur : Option Node)
    (attrs : List (CStr × CStr)) (v : CStr) (ns : List Node) (elems : List CStr) (heap : Heap)
    (h : acceptedType attrs = true) (hok : heap.ok heap.used = true) :
    openioc_parse_indicatoritem (fuel + 1)
        { reader := { cur := cur, rest := startNode "Content".toList attrs :: textNode v :: ns },
          elems := elems, heap := heap } =
      openioc_parse_indicatoritem fuel
        { reader := { cur := some (textNode v), rest := ns }, elems := v :: elems,
          heap := heap.after 1 } := by
  rw [item_step_content, parse_content_push (startNode "Content".toList attrs) (textNode v) v
    ns elems heap h rfl rfl hok]
  simp only [ne_eq, not_true_eq_false, if_false]

/-- The item handler after an accepted `Content` start tag and its end tag. -/
theorem item_step_content_empty (fuel : Nat) (cur : Option Node)
    (attrs : List (CStr × CStr)) (ns : List Node) (elems : List CStr) (heap : Heap)
    (h : acceptedType attrs = true) :
    openioc_parse_indicatoritem (fuel + 1)
        { reader := { cur := cur,
                      rest := startNode "Content".toList attrs :: endNode "Content".toList :: ns },
          elems := elems, heap := heap } =
      openioc_parse_indicatoritem fuel
        { reader := { cur := some (endNode "Content".toList), rest := ns }, elems := elems,
          heap := heap } := by
  rw [item_step_content, parse_content_no_text (startNode "Content".toList attrs)
    (endNode "Content".toList) ns elems heap h (by decide)]
  simp only [ne_eq, not_true_eq_false, if_false]

theorem harvest_nil : harvest [] = [] := rfl

theorem textNode_textValue (v : CStr) : (textNode v).textValue = [v] := rfl

theorem endNode_textValue (name : CStr) : (endNode name).textValue = [] := rfl

theorem item_walk (cs : List Content) :
    ∀ (k fuel : Nat) (cur : Option Node) (tail : List Node) (elems : List CStr) (heap : Heap),
      heap.neverFails → (contentNodes cs).length + 1 ≤ fuel →
      openioc_parse_indicatoritem fuel
          { reader := { cur := cur,
                        rest := (contentNodes cs ++ endNode "IndicatorItem".toList :: tail).take k },
            elems := elems, heap := heap } =
        some (CL_SUCCESS,
          { reader := readerAfter (endNode "IndicatorItem".toList) (contentNodes cs).length k tail,
            elems := (harvest ((contentNodes cs).take k)).reverse ++ elems,
            heap := heap.after (harvest ((contentNodes cs).take k)).length }) := by
  induction cs with
  | nil =>
    intro k fuel cur tail elems heap _ hf
    obtain ⟨f, rfl⟩ : ∃ f, fuel = f + 1 := ⟨fuel - 1, by omega⟩
    cases k with
    | zero =>
      simp only [contentNodes, List.nil_append, List.take_zero, item_step_eof, harvest,
        List.reverse_nil, List.length_nil, readerAfter_zero, Heap.after_zero]
    | succ k =>
      simp only [contentNodes, List.nil_append, List.take_succ_cons, item_step_end,
        List.take_nil, harvest, List.reverse_nil, List.length_nil, Heap.after_zero]
      simp [readerAfter]
  | cons c cs ih =>
    intro k fuel cur tail elems heap hheap hf
    have hok : ∀ h : Heap, h.neverFails → h.ok h.used = true := fun h hh => hh h.used
    by_cases htext : c.text = []
    · have hnodes : c.nodes = [startNode "Content".toList c.attrs, endNode "Content".toList] := by
        simp only [Content.nodes, htext, if_true]
      simp only [contentNodes, hnodes, List.length_append, List.length_cons, List.length_nil] at hf
      obtain ⟨f, rfl⟩ : ∃ f, fuel = f + 2 := ⟨fuel - 2, by omega⟩
      simp only [contentNodes, hnodes, List.cons_append, List.nil_append, List.length_cons]
      rcases k with _ | _ | k
      · simp only [List.take_zero, item_step_eof, harvest, List.reverse_nil, List.length_nil,
          readerAfter_zero, Heap.after_zero, List.nil_append]
      · simp only [List.take_succ_cons, List.take_zero, harvest_content_start, harvest,
          List.append_nil, ite_self, List.reverse_nil, List.length_nil, Heap.after_zero,
          List.nil_append]
        rw [readerAfter_le _ _ _ _ (by omega)]
        cases hacc : acceptedType c.attrs
        · rw [item_step_content_skip _ _ _ _ _ _ hacc, item_step_eof]
        · rw [item_step_content_at_end _ _ _ _ _ hacc, item_step_eof]
      · simp only [List.take_succ_cons, harvest_content_start, harvest_endNode,
          endNode_textValue, ite_self, List.nil_append]
        have hra : readerAfter (endNode "IndicatorItem".toList) ((contentNodes cs).length + 1 + 1)
            (k + 1 + 1) tail =
            readerAfter (endNode "IndicatorItem".toList) (contentNodes cs).length k tail := by
          have := readerAfter_add (endNode "IndicatorItem".toList) (contentNodes cs).length k 2
            tail
          rw [← this]
          congr 1
          omega
        rw [hra]
        cases hacc : acceptedType c.attrs
        · rw [item_step_content_skip _ _ _ _ _ _ hacc, item_step_content_end,
            ih k f _ tail elems heap hheap (by omega)]
        · rw [item_step_content_empty _ _ _ _ _ _ hacc,
            ih k (f + 1) _ tail elems heap hheap (by omega)]
    · have hnodes : c.nodes = [startNode "Content".toList c.attrs, textNode c.text,
          endNode "Content".toList] := by
        simp only [Content.nodes, htext, if_false]
      simp only [contentNodes, hnodes, List.length_append, List.length_cons, List.length_nil] at hf
      obtain ⟨f, rfl⟩ : ∃ f, fuel = f + 3 := ⟨fuel - 3, by omega⟩
      simp only [contentNodes, hnodes, List.cons_append, List.nil_append, List.length_cons]
      rcases k with _ | _ | _ | k
      · simp only [List.take_zero, item_step_eof, harvest, List.reverse_nil, List.length_nil,
          readerAfter_zero, Heap.after_zero, List.nil_append]
      · simp only [List.take_succ_cons, List.take_zero, harvest_content_start, harvest,
          List.append_nil, ite_self, List.reverse_nil, List.length_nil, Heap.after_zero,
          List.nil_append]
        rw [readerAfter_le _ _ _ _ (by omega)]
        cases hacc : acceptedType c.attrs
        · rw [item_step_content_skip _ _ _ _ _ _ hacc, item_step_eof]
        · rw [item_step_content_at_end _ _ _ _ _ hacc, item_step_eof]
      · simp only [List.take_succ_cons, List.take_zero, harvest_content_start,
          harvest_textNode, harvest_nil, List.append_nil, textNode_textValue]
        rw [readerAfter_le _ _ _ _ (by omega)]
        cases hacc : acceptedType c.attrs
        · rw [item_step_content_skip _ _ _ _ _ _ hacc, item_step_text, item_step_eof]
          rfl
        · rw [item_step_content_push _ _ _ _ _ _ _ hacc (hok heap hheap), item_step_eof]
          rfl
      · simp only [List.take_succ_cons, harvest_content_start, harvest_textNode,
          harvest_endNode, textNode_textValue]
        have hra : readerAfter (endNode "IndicatorItem".toList)
            ((contentNodes cs).length + 1 + 1 + 1) (k + 1 + 1 + 1) tail =
            readerAfter (endNode "IndicatorItem".toList) (contentNodes cs).length k tail := by
          have := readerAfter_add (endNode "IndicatorItem".toList) (contentNodes cs).length k 3
            tail
          rw [← this]
          congr 1
          omega
        rw [hra]
        cases hacc : acceptedType c.attrs
        · simp only [Bool.false_eq_true, if_false, List.nil_append]
          rw [item_step_content_skip _ _ _ _ _ _ hacc, item_step_text, item_step_content_end,
            ih k f _ tail elems heap hheap (by omega)]
        · simp only [if_true, List.singleton_append, List.reverse_cons, List.append_assoc,
            List.length_cons]
          rw [item_step_content_push _ _ _ _ _ _ _ hacc (hok heap hheap),
            item_step_content_end,
            ih k (f + 1) _ tail _ _ (Heap.neverFails_after heap 1 hheap) (by omega)]
          simp only [Heap.after_after, List.singleton_append]
          have e : 1 + (harvest (List.take k (contentNodes cs))).length =
              (harvest (List.take k (contentNodes cs))).length + 1 := by omega
          rw [e]

theorem take_past (xs : List Node) (e : Node) (ys : List Node) (k : Nat)
    (h : xs.length < k) :
    (xs ++ e :: ys).take k = xs ++ e :: ys.take (k - xs.length - 1) := by
  rw [List.take_append_eq_append_take, List.take_of_length_le (Nat.le_of_lt h)]
  obtain ⟨j, hj⟩ : ∃ j, k - xs.length = j + 1 := ⟨k - xs.length - 1, by omega⟩
  rw [hj, List.take_succ_cons, Nat.add_sub_cancel]

theorem take_within (xs ys : List Node) (k : Nat) (h : k ≤ xs.length) :
    (xs ++ ys).take k = xs.take k :=
  List.take_append_of_le_length h

theorem harvest_contentNodes_append (cs : List Content) (rest : List Node) :
    harvest (contentNodes cs ++ rest) = harvest (contentNodes cs) ++ harvest rest := by
  induction cs with
  | nil => rfl
  | cons c cs ih =>
    by_cases htext : c.text = []
    · have hnodes : c.nodes = [startNode "Content".toList c.attrs, endNode "Content".toList] := by
        simp only [Content.nodes, htext, if_true]
      simp only [contentNodes, hnodes, List.cons_append, List.nil_append, List.append_assoc,
        harvest_content_start, harvest_endNode, ih]
    · have hnodes : c.nodes = [startNode "Content".toList c.attrs, textNode c.text,
          endNode "Content".toList] := by
        simp only [Content.nodes, htext, if_false]
      simp only [contentNodes, hnodes, List.cons_append, List.nil_append, List.append_assoc,
        harvest_content_start, harvest_textNode, harvest_endNode, ih]

theorem harvest_nodes_append (i : Indicators) :
    ∀ rest : List Node, harvest (i.nodes ++ rest) = harvest i.nodes ++ harvest rest := by
  induction i with
  | nil => intro rest; rfl
  | indicator ch sib ihc ihs =>
    intro rest
    simp only [Indicators.nodes, List.cons_append, List.append_assoc, harvest_indicator_start,
      ihc, harvest_endNode, ihs]
  | item cs sib ihs =>
    intro rest
    simp only [Indicators.nodes, List.cons_append, List.append_assoc, harvest_item_start,
      harvest_contentNodes_append, harvest_endNode, ihs]

/-- The harvest of a piece, its end tag and a cut part behind it. -/
theorem harvest_take_past (xs : List Node) (name : CStr) (ys : List Node) (k : Nat)
    (hx : ∀ rest, harvest (xs ++ rest) = harvest xs ++ harvest rest) (h : xs.length < k) :
    harvest ((xs ++ endNode name :: ys).take k) =
      harvest xs ++ harvest (ys.take (k - xs.length - 1)) := by
  rw [take_past xs _ ys k h, hx, harvest_endNode]

theorem readerAfter_step (e : Node) (a b k : Nat) (tail : List Node) (h : a < k) :
    readerAfter e b (k - a - 1) tail = readerAfter e (a + 1 + b) k tail := by
  unfold readerAfter
  by_cases hb : b < k - a - 1
  · rw [if_pos hb, if_pos (by omega)]
    have e1 : k - a - 1 - b - 1 = k - (a + 1 + b) - 1 := by omega
    rw [e1]
  · rw [if_neg hb, if_neg (by omega)]

theorem readerAfter_past (e : Node) (len k : Nat) (tail : List Node) (h : len < k) :
    readerAfter e len k tail = { cur := some e, rest := tail.take (k - len - 1) } := by
  simp [readerAfter, h]

theorem readerAfter_congr (e : Node) (l1 k1 l2 k2 : Nat) (tail : List Node)
    (h1 : l1 < k1 ↔ l2 < k2) (h2 : k1 - l1 - 1 = k2 - l2 - 1) :
    readerAfter e l1 k1 tail = readerAfter e l2 k2 tail := by
  unfold readerAfter
  by_cases h : l1 < k1
  · rw [if_pos h, if_pos (h1.mp h), h2]
  · rw [if_neg h, if_neg (fun h' => h (h1.mpr h'))]

theorem indicator_walk (i : Indicators) :
    ∀ (k fuel : Nat) (cur : Option Node) (tail : List Node) (elems : List CStr) (heap : Heap),
      heap.neverFails → i.nodes.length + 1 ≤ fuel →
      openioc_parse_indicator fuel
          { reader := { cur := cur,
                        rest := (i.nodes ++ endNode "Indicator".toList :: tail).take k },
            elems := elems, heap := heap } =
        some (CL_SUCCESS,
          { reader := readerAfter (endNode "Indicator".toList) i.nodes.length k tail,
            elems := (harvest (i.nodes.take k)).reverse ++ elems,
            heap := heap.after (harvest (i.nodes.take k)).length }) := by
  induction i with
  | nil =>
    intro k fuel cur tail elems heap _ hf
    obtain ⟨f, rfl⟩ : ∃ f, fuel = f + 1 := ⟨fuel - 1, by omega⟩
    cases k with
    | zero =>
      simp only [Indicators.nodes, List.nil_append, List.take_zero, indicator_step_eof,
        harvest_nil, List.reverse_nil, List.length_nil, readerAfter_zero, Heap.after_zero]
    | succ k =>
      simp only [Indicators.nodes, List.nil_append, List.take_succ_cons, indicator_step_end,
        List.take_nil, harvest_nil, List.reverse_nil, List.length_nil, Heap.after_zero]
      simp [readerAfter]
  | indicator ch sib ihc ihs =>
    intro k fuel cur tail elems heap hheap hf
    simp only [Indicators.nodes, List.length_cons, List.length_append] at hf
    obtain ⟨f, rfl⟩ : ∃ f, fuel = f + 2 := ⟨fuel - 2, by omega⟩
    cases k with
    | zero =>
      simp only [List.take_zero, indicator_step_eof, harvest_nil, List.reverse_nil,
        List.length_nil, readerAfter_zero, Heap.after_zero, List.nil_append]
    | succ k =>
      simp only [Indicators.nodes, List.cons_append, List.append_assoc, List.take_succ_cons,
        harvest_indicator_start, List.length_cons, List.length_append]
      rw [indicator_step_indicator,
        ihc k (f + 1) _ (sib.nodes ++ endNode "Indicator".toList :: tail) elems heap hheap
          (by omega)]
      simp only [ne_eq, not_true_eq_false, if_false]
      by_cases hk : ch.nodes.length < k
      · rw [readerAfter_past _ _ _ _ hk,
          ihs (k - ch.nodes.length - 1) (f + 1) _ tail _ _ (Heap.neverFails_after heap _ hheap)
            (by omega),
          harvest_take_past ch.nodes _ sib.nodes k (harvest_nodes_append ch) hk,
          List.take_of_length_le (Nat.le_of_lt hk),
          readerAfter_congr _ sib.nodes.length (k - ch.nodes.length - 1)
            (ch.nodes.length + (sib.nodes.length + 1) + 1) (k + 1) tail (by omega) (by omega)]
        simp only [List.reverse_append, List.append_assoc, Heap.after_after,
          List.length_append]
      · have hle : k ≤ ch.nodes.length := Nat.le_of_not_lt hk
        rw [readerAfter_le _ _ _ _ hle, indicator_step_eof, take_within _ _ _ hle,
          readerAfter_le _ _ _ _ (by omega)]
  | item cs sib ihs =>
    intro k fuel cur tail elems heap hheap hf
    simp only [Indicators.nodes, List.length_cons, List.length_append] at hf
    obtain ⟨f, rfl⟩ : ∃ f, fuel = f + 2 := ⟨fuel - 2, by omega⟩
    cases k with
    | zero =>
      simp only [List.take_zero, indicator_step_eof, harvest_nil, List.reverse_nil,
        List.length_nil, readerAfter_zero, Heap.after_zero, List.nil_append]
    | succ k =>
      simp only [Indicators.nodes, List.cons_append, List.append_assoc, List.take_succ_cons,
        harvest_item_start, List.length_cons, List.length_append]
      rw [indicator_step_item,
        item_walk cs k (f + 1) _ (sib.nodes ++ endNode "Indicator".toList :: tail) elems heap
          hheap (by omega)]
      simp only [ne_eq, not_true_eq_false, if_false]
      by_cases hk : (contentNodes cs).length < k
      · rw [readerAfter_past _ _ _ _ hk,
          ihs (k - (contentNodes cs).length - 1) (f + 1) _ tail _ _
            (Heap.neverFails_after heap _ hheap) (by omega),
          harvest_take_past (contentNodes cs) _ sib.nodes k (harvest_contentNodes_append cs) hk,
          List.take_of_length_le (Nat.le_of_lt hk),
          readerAfter_congr _ sib.nodes.length (k - (contentNodes cs).length - 1)
            ((contentNodes cs).length + (sib.nodes.length + 1) + 1) (k + 1) tail (by omega)
            (by omega)]
        simp only [List.reverse_append, List.append_assoc, Heap.after_after,
          List.length_append]
      · have hle : k ≤ (contentNodes cs).length := Nat.le_of_not_lt hk
        rw [readerAfter_le _ _ _ _ hle, indicator_step_eof, take_within _ _ _ hle,
          readerAfter_le _ _ _ _ (by omega)]

theorem harvest_topNodes_append (d : Document) (rest : List Node) :
    harvest (topNodes d ++ rest) = harvest (topNodes d) ++ harvest rest := by
  induction d with
  | nil => rfl
  | cons i is ih =>
    simp only [topNodes, List.cons_append, List.append_assoc, harvest_indicator_start,
      harvest_nodes_append, harvest_endNode, ih]

theorem loop_stop (fuel : Nat) (rd : Int) (w : Walk) (h : rd ≠ 1) :
    openioc_parse_loop (fuel + 1) rd w = some (Sum.inr w) := by
  rw [loop_unfold, if_pos h]

theorem loop_skip (fuel : Nat) (x : Node) (ns : List Node) (elems : List CStr) (heap : Heap)
    (hx : x = startNode "ioc".toList [] ∨ x = endNode "Indicator".toList) :
    openioc_parse_loop (fuel + 1) 1
        { reader := { cur := some x, rest := ns }, elems := elems, heap := heap } =
      openioc_parse_loop fuel (xmlTextReaderRead { cur := some x, rest := ns }).1
        { reader := (xmlTextReaderRead { cur := some x, rest := ns }).2,
          elems := elems, heap := heap } := by
  rcases hx with rfl | rfl
  · exact loop_step_ioc_start _ _ _ _
  · exact loop_step_indicator_end _ _ _ _

theorem read_nil (cur : Option Node) :
    xmlTextReaderRead { cur := cur, rest := [] } = (0, { cur := none, rest := [] }) := rfl

theorem read_cons (cur : Option Node) (n : Node) (ns : List Node) :
    xmlTextReaderRead { cur := cur, rest := n :: ns } = (1, { cur := some n, rest := ns }) :=
  rfl

theorem loop_walk (d : Document) :
    ∀ (k fuel : Nat) (x : Node) (elems : List CStr) (heap : Heap),
      x = startNode "ioc".toList [] ∨ x = endNode "Indicator".toList →
      heap.neverFails → (topNodes d).length + 2 ≤ fuel →
      openioc_parse_loop fuel 1
          { reader := { cur := some x, rest := (topNodes d ++ [endNode "ioc".toList]).take k },
            elems := elems, heap := heap } =
        some (Sum.inr
          { reader := readerAfter (endNode "ioc".toList) (topNodes d).length k [],
            elems := (harvest ((topNodes d).take k)).reverse ++ elems,
            heap := heap.after (harvest ((topNodes d).take k)).length }) := by
  induction d with
  | nil =>
    intro k fuel x elems heap hx _ hf
    obtain ⟨f, rfl⟩ : ∃ f, fuel = f + 2 := ⟨fuel - 2, by omega⟩
    cases k with
    | zero =>
      simp only [topNodes, List.nil_append, List.take_zero, harvest_nil, List.reverse_nil,
        List.length_nil, readerAfter_zero, Heap.after_zero]
      rw [loop_skip _ _ _ _ _ hx, read_nil, loop_stop _ _ _ (by decide)]
    | succ k =>
      simp only [topNodes, List.nil_append, List.take_succ_cons, List.take_nil, harvest_nil,
        List.reverse_nil, List.length_nil, Heap.after_zero]
      rw [loop_skip _ _ _ _ _ hx, read_cons, loop_step_ioc_end]
      simp [readerAfter]
  | cons i is ih =>
    intro k fuel x elems heap hx hheap hf
    simp only [topNodes, List.length_cons, List.length_append] at hf
    obtain ⟨f, rfl⟩ : ∃ f, fuel = f + 3 := ⟨fuel - 3, by omega⟩
    cases k with
    | zero =>
      simp only [List.take_zero, harvest_nil, List.reverse_nil, List.length_nil,
        readerAfter_zero, Heap.after_zero, List.nil_append]
      rw [loop_skip _ _ _ _ _ hx, read_nil, loop_stop _ _ _ (by decide)]
    | succ k =>
      simp only [topNodes, List.cons_append, List.append_assoc, List.take_succ_cons,
        harvest_indicator_start, List.length_cons, List.length_append]
      rw [loop_skip _ _ _ _ _ hx, read_cons, loop_step_indicator,
        indicator_walk i k (f + 1) _ (topNodes is ++ [endNode "ioc".toList]) elems heap hheap
          (by omega)]
      simp only [ne_eq, not_true_eq_false, if_false]
      by_cases hk : i.nodes.length < k
      · rw [readerAfter_past _ _ _ _ hk, ← loop_step_indicator_end,
          ih (k - i.nodes.length - 1) (f + 2) _ _ _ (Or.inr rfl)
            (Heap.neverFails_after heap _ hheap) (by omega),
          harvest_take_past i.nodes _ (topNodes is) k (harvest_nodes_append i) hk,
          List.take_of_length_le (Nat.le_of_lt hk),
          readerAfter_congr _ (topNodes is).length (k - i.nodes.length - 1)
            (i.nodes.length + ((topNodes is).length + 1) + 1) (k + 1) [] (by omega) (by omega)]
        simp only [List.reverse_append, List.append_assoc, Heap.after_after,
          List.length_append]
      · have hle : k ≤ i.nodes.length := Nat.le_of_not_lt hk
        rw [readerAfter_le _ _ _ _ hle, read_nil, loop_stop _ _ _ (by decide),
          take_within _ _ _ hle, readerAfter_le _ _ _ _ (by omega)]

theorem harvest_take_top (d : Document) (k : Nat) :
    harvest ((topNodes d ++ [endNode "ioc".toList]).take k) = harvest ((topNodes d).take k) := by
  by_cases hk : (topNodes d).length < k
  · rw [harvest_take_past (topNodes d) _ [] k (harvest_topNodes_append d) hk,
      List.take_of_length_le (Nat.le_of_lt hk), List.take_nil, harvest_nil, List.append_nil]
  · rw [take_within _ _ _ (Nat.le_of_not_lt hk)]

/-- The scan of `openioc_parse` on the first `k` nodes of a document of the
grammar, on a heap where no request fails. -/
theorem scan_walk (d : Document) (k : Nat) (heap : Heap) (hheap : heap.neverFails) :
    openioc_scan (d.nodes.take k) heap =
      some (Sum.inr
        { reader := readerAfter (endNode "ioc".toList) (topNodes d).length (k - 1) [],
          elems := (harvest (d.nodes.take k)).reverse,
          heap := heap.after (harvest (d.nodes.take k)).length }) := by
  cases k with
  | zero =>
    simp only [List.take_zero, harvest_nil, List.reverse_nil, List.length_nil,
      Heap.after_zero, readerAfter_zero]
    rfl
  | succ k =>
    obtain ⟨res, hres⟩ := openioc_scan_total (d.nodes.take (k + 1)) heap
    rw [hres]
    simp only [openioc_scan, Document.nodes, List.take_succ_cons, read_cons,
      List.length_cons] at hres
    have hbig := loop_fuel_mono _ ((topNodes d).length + 2) _ _ _ hres
    rw [loop_walk d k _ _ [] heap (Or.inl rfl) hheap (by omega)] at hbig
    simp only [List.append_nil] at hbig
    rw [← Option.some.inj hbig]
    simp only [Document.nodes, List.take_succ_cons, harvest_ioc_start, Nat.add_sub_cancel,
      harvest_take_top]

/-! ## The harvest of a document -/

theorem harvest_take_prefix (ns : List Node) :
    ∀ k, harvest (ns.take k) <+: harvest ns := by
  induction ns with
  | nil => intro k; simp [harvest_nil]
  | cons n ns ih =>
    intro k
    cases k with
    | zero => simp only [List.take_zero, harvest_nil]; exact List.nil_prefix
    | succ k =>
      rw [List.take_succ_cons]
      cases k with
      | zero =>
        simp only [List.take_zero, harvest, ite_self, List.nil_append]
        exact List.nil_prefix
      | succ k =>
        cases ns with
        | nil => simp only [List.take_nil]; exact List.prefix_refl _
        | cons t ts =>
          have h := ih (k + 1)
          rw [List.take_succ_cons] at h ⊢
          unfold harvest
          exact (List.prefix_append_right_inj _).mpr h

theorem harvest_mem (ns : List Node) :
    ∀ (j : Nat) (s t : Node) (v : CStr), ns[j]? = some s → ns[j + 1]? = some t →
      s.acceptedContent = true → t.nodeType = XML_READER_TYPE_TEXT → t.value = some v →
      v ∈ harvest ns := by
  induction ns with
  | nil => intro j s t v hs; simp at hs
  | cons n ns ih =>
    intro j s t v hs ht hacc htype hv
    cases j with
    | zero =>
      simp only [List.getElem?_cons_zero, Option.some.injEq] at hs
      subst hs
      cases ns with
      | nil => simp at ht
      | cons t' ts =>
        simp only [Nat.zero_add, List.getElem?_cons_succ, List.getElem?_cons_zero,
          Option.some.injEq] at ht
        subst ht
        unfold harvest
        simp only [hacc, if_true, Node.textValue, htype, hv, Option.toList]
        exact List.mem_append_left _ (List.mem_singleton.mpr rfl)
    | succ j =>
      simp only [List.getElem?_cons_succ] at hs ht
      unfold harvest
      exact List.mem_append_right _ (ih j s t v hs ht hacc htype hv)

theorem harvest_contentNodes (cs : List Content) :
    harvest (contentNodes cs) = (cs.filter Content.collected).map Content.text := by
  induction cs with
  | nil => rfl
  | cons c cs ih =>
    by_cases htext : c.text = []
    · have hnodes : c.nodes = [startNode "Content".toList c.attrs, endNode "Content".toList] := by
        simp only [Content.nodes, htext, if_true]
      have hc : c.collected = false := by simp [Content.collected, htext]
      simp only [contentNodes, hnodes, List.cons_append, List.nil_append,
        harvest_content_start, harvest_endNode, endNode_textValue, ite_self, ih,
        List.filter_cons, hc, Bool.false_eq_true, if_false]
    · have hnodes : c.nodes = [startNode "Content".toList c.attrs, textNode c.text,
          endNode "Content".toList] := by
        simp only [Content.nodes, htext, if_false]
      have hne : c.text.isEmpty = false := by
        cases hct : c.text with
        | nil => exact absurd hct htext
        | cons a as => rfl
      simp only [contentNodes, hnodes, List.cons_append, List.nil_append,
        harvest_content_start, harvest_textNode, harvest_endNode, textNode_textValue, ih,
        List.filter_cons, Content.collected, hne, Bool.not_false, Bool.and_true]
      cases acceptedType c.attrs <;> rfl

theorem contentNodes_append (a b : List Content) :
    contentNodes (a ++ b) = contentNodes a ++ contentNodes b := by
  induction a with
  | nil => rfl
  | cons x xs ihx =>
    show x.nodes ++ contentNodes (xs ++ b) = (x.nodes ++ contentNodes xs) ++ contentNodes b
    rw [ihx, List.append_assoc]

theorem harvest_indicators (i : Indicators) :
    harvest i.nodes = harvest (contentNodes i.contents) := by
  induction i with
  | nil => rfl
  | indicator ch sib ihc ihs =>
    simp only [Indicators.nodes, Indicators.contents, harvest_indicator_start,
      harvest_nodes_append, harvest_endNode, ihc, ihs, contentNodes_append,
      harvest_contentNodes_append]
  | item cs sib ihs =>
    simp only [Indicators.nodes, Indicators.contents, harvest_item_start,
      harvest_contentNodes_append, harvest_endNode, ihs, contentNodes_append]

theorem harvest_document (d : Document) :
    harvest d.nodes = ((Document.contents d).filter Content.collected).map Content.text := by
  have htop : ∀ d : Document, harvest (topNodes d) = harvest (contentNodes (Document.contents d)) := by
    intro d
    induction d with
    | nil => rfl
    | cons i is ih =>
      simp only [topNodes, Document.contents, harvest_indicator_start, harvest_nodes_append,
        harvest_endNode, harvest_indicators, ih, contentNodes_append,
        harvest_contentNodes_append]
  simp only [Document.nodes, harvest_ioc_start, harvest_topNodes_append, harvest_endNode,
    harvest_nil, List.append_nil, htop, harvest_contentNodes]

/-- The complete scan of a document of the grammar. -/
theorem scan_whole (d : Document) (heap : Heap) (hheap : heap.neverFails) :
    openioc_scan d.nodes heap =
      some (Sum.inr
        { reader := { cur := some (endNode "ioc".toList), rest := [] },
          elems := (harvest d.nodes).reverse,
          heap := heap.after (harvest d.nodes).length }) := by
  have h := scan_walk d d.nodes.length heap hheap
  rw [List.take_length] at h
  rw [h]
  have hl : d.nodes.length - 1 = (topNodes d).length + 1 := by
    simp [Document.nodes]
  rw [hl, readerAfter_past _ _ _ _ (by omega), List.take_nil]

/-! ## Truncated, nested and flattened documents -/

/-- C11: the node sequence of a document of the grammar cut off after any
number k of nodes (no allocation failing): the scan of openioc_parse ends
past its loop, without error; in discovery order its collection is an
initial segment of the collection of the complete document, which is the
texts of the accepted Content elements that have one; and it contains every
accepted Content text whose text node lies before the cut. -/
theorem truncated_scan_prefix (d : Document) (k : Nat) (heap : Heap)
    (hheap : heap.neverFails) :
    ∃ w w', openioc_scan (d.nodes.take k) heap = some (Sum.inr w) ∧
      openioc_scan d.nodes heap = some (Sum.inr w') ∧
      w.elems.reverse <+: w'.elems.reverse ∧
      w.elems.reverse = harvest (d.nodes.take k) ∧
      w'.elems.reverse =
        ((Document.contents d).filter Content.collected).map Content.text ∧
      ∀ (j : Nat) (s t : Node) (v : CStr), j + 1 < k →
        d.nodes[j]? = some s → d.nodes[j + 1]? = some t → s.acceptedContent = true →
        t.nodeType = XML_READER_TYPE_TEXT → t.value = some v → v ∈ w.elems := by
  refine ⟨_, _, scan_walk d k heap hheap, scan_whole d heap hheap, ?_, ?_, ?_, ?_⟩
  · simp only [List.reverse_reverse]
    exact harvest_take_prefix d.nodes k
  · simp only [List.reverse_reverse]
  · simp only [List.reverse_reverse]
    exact harvest_document d
  · intro j s t v hj hs ht hacc htype hv
    simp only [List.mem_reverse]
    refine harvest_mem (d.nodes.take k) j s t v ?_ ?_ hacc htype hv
    · rw [List.getElem?_take_of_lt (by omega)]
      exact hs
    · rw [List.getElem?_take_of_lt hj]
      exact ht

theorem truncated_scan_prefix_witness :
    ∃ w w', openioc_scan (nestedDoc.nodes.take 10) plentyHeap = some (Sum.inr w) ∧
      openioc_scan nestedDoc.nodes plentyHeap = some (Sum.inr w') ∧
      w.elems.reverse <+: w'.elems.reverse ∧
      w.elems.reverse = harvest (nestedDoc.nodes.take 10) ∧
      w'.elems.reverse =
        ((Document.contents nestedDoc).filter Content.collected).map Content.text ∧
      ∀ (j : Nat) (s t : Node) (v : CStr), j + 1 < 10 →
        nestedDoc.nodes[j]? = some s → nestedDoc.nodes[j + 1]? = some t →
        s.acceptedContent = true →
        t.nodeType = XML_READER_TYPE_TEXT → t.value = some v → v ∈ w.elems :=
  truncated_scan_prefix nestedDoc 10 plentyHeap (fun _ => rfl)

/-- C17 as stated is false. After `<IndicatorItem><Content type="md5"/>` the
extractor reads the end tag of the IndicatorItem itself, so the handler runs
on through the enclosing Indicator into the next IndicatorItem, collects its
hash and stops only at that element's end tag. And an IndicatorItem nested in
an IndicatorItem ends the handler at the inner end tag: the Content behind it
is left to the Indicator walker and never reaches the extractor. -/
theorem item_handler_misses_end_tag :
    (openioc_parse_indicatoritem 12
        { reader := { cur := some (startNode "IndicatorItem".toList []),
                      rest := emptyContentNodes },
          elems := [], heap := plentyHeap }).map (fun r => (r.1, r.2.reader, r.2.elems)) =
      some (CL_SUCCESS,
        { cur := some (endNode "IndicatorItem".toList),
          rest := [endNode "Indicator".toList, endNode "ioc".toList] },
        ["abc".toList]) ∧
    (openioc_parse_indicatoritem 12
        { reader := { cur := some (startNode "IndicatorItem".toList []),
                      rest := nestedItemNodes },
          elems := [], heap := plentyHeap }).map (fun r => (r.1, r.2.reader, r.2.elems)) =
      some (CL_SUCCESS,
        { cur := some (endNode "IndicatorItem".toList),
          rest := nestedItemNodes.drop 2 },
        []) ∧
    (openioc_scan (startNode "ioc".toList [] :: startNode "Indicator".toList [] ::
        startNode "IndicatorItem".toList [] :: nestedItemNodes) plentyHeap).map
          (fun r => r.elim (fun _ => none) (fun w => some w.elems)) = some (some []) := by
  refine ⟨by decide, by decide, by decide⟩

/-! ## An accepted Content element without text -/

/-- C14: on a Content start element with an accepted type whose next node is
not a text node (an end tag, a child element) or is missing (end of the
stream), openioc_parse_content returns CL_SUCCESS and leaves the collector
and the heap as they are; the one node it has read is consumed. -/
theorem content_without_text (w : Walk) (t : CStr)
    (ht : xmlTextReaderGetAttribute w.reader "type".toList = some t)
    (hacc : eqIgnoringCase t "md5".toList ∨ eqIgnoringCase t "sha1".toList ∨
      eqIgnoringCase t "sha256".toList)
    (hnext : ∀ n ns, w.reader.rest = n :: ns → n.nodeType ≠ XML_READER_TYPE_TEXT) :
    (openioc_parse_content w).1 = CL_SUCCESS ∧
      (openioc_parse_content w).2.elems = w.elems ∧
      (openioc_parse_content w).2.heap = w.heap ∧
      (openioc_parse_content w).2.reader = (xmlTextReaderRead w.reader).2 := by
  have hp := accepted_passes t hacc
  cases hrest : w.reader.rest with
  | nil =>
    simp only [openioc_parse_content, ht, hp, if_false, xmlTextReaderRead, hrest]
    simp
  | cons n ns =>
    have hn := hnext n ns hrest
    simp only [openioc_parse_content, ht, hp, if_false, xmlTextReaderRead, hrest,
      xmlTextReaderNodeType, hn, and_false, and_self]

theorem content_without_text_witness :
    (openioc_parse_content
        { reader := { cur := some (startNode "Content".toList [("type".toList, "MD5".toList)]),
                      rest := [endNode "Content".toList, endNode "IndicatorItem".toList] },
          elems := ["old".toList], heap := plentyHeap }).1 = CL_SUCCESS ∧
      (openioc_parse_content
        { reader := { cur := some (startNode "Content".toList [("type".toList, "MD5".toList)]),
                      rest := [endNode "Content".toList, endNode "IndicatorItem".toList] },
          elems := ["old".toList], heap := plentyHeap }).2.elems = ["old".toList] ∧
      (openioc_parse_content
        { reader := { cur := some (startNode "Content".toList [("type".toList, "MD5".toList)]),
                      rest := [endNode "Content".toList, endNode "IndicatorItem".toList] },
          elems := ["old".toList], heap := plentyHeap }).2.heap = plentyHeap ∧
      (openioc_parse_content
        { reader := { cur := some (startNode "Content".toList [("type".toList, "MD5".toList)]),
                      rest := [endNode "Content".toList, endNode "IndicatorItem".toList] },
          elems := ["old".toList], heap := plentyHeap }).2.reader =
        (xmlTextReaderRead
          { cur := some (startNode "Content".toList [("type".toList, "MD5".toList)]),
            rest := [endNode "Content".toList, endNode "IndicatorItem".toList] }).2 :=
  content_without_text _ "MD5".toList (by decide) (Or.inl (by decide))
    (by
      intro n ns h
      have e : n = endNode "Content".toList := (List.cons.inj h).1.symm
      rw [e]
      decide)

/-! ## The drain and the answers of the store -/

theorem drain_calls {M : Type} (st : HashStore M) (iocname : CStr) (ioclen : Nat) :
    ∀ (elems : List CStr) (engine : cl_engine M) (calls : List (CStr × CStr)) (heap : Heap),
      heap.neverFails →
      (openioc_drain st iocname ioclen elems engine calls heap).calls =
        calls ++ elems.filterMap (fun e => (openioc_trim e).map
          (fun t => (t, openioc_virusname iocname ioclen t t.length))) ∧
      (openioc_drain st iocname ioclen elems engine calls heap).ret = Returned.no_value := by
  intro elems
  induction elems with
  | nil =>
    intro engine calls heap _
    simp only [openioc_drain, List.filterMap_nil, List.append_nil, and_self]
  | cons elem elems ih =>
    intro engine calls heap hheap
    cases ht : openioc_trim elem with
    | none =>
      rw [drain_cons_dropped _ _ _ _ _ _ _ _ ht]
      simp only [List.filterMap_cons, ht, Option.map_none']
      exact ih engine calls heap hheap
    | some t =>
      rw [drain_cons_kept _ _ _ _ t _ _ _ _ ht]
      simp only [hheap heap.used, if_true, List.filterMap_cons, ht, Option.map_some']
      have h := ih { hm_hdb := (st.hm_addhash_str engine.hm_hdb t 0
          (openioc_virusname iocname ioclen t t.length)).2 }
        (calls ++ [(t, openioc_virusname iocname ioclen t t.length)]) (heap.after 1)
        (Heap.neverFails_after heap 1 hheap)
      rw [h.1, h.2]
      simp only [List.append_assoc, List.singleton_append, and_self]

/-- C12: a rejection by the store is not fatal to the batch. For every
collected list and every store, whatever its insertions answer (no
allocation failing), the drain calls hm_addhash_str exactly once for each
record whose trimmed hash is not empty, with that hash and its name, in list
order, most recently found first, and runs to the end of the list; so the
calls are the same for any two stores, whatever either one answers. -/
theorem drain_attempts_every_hash {M M' : Type} (st : HashStore M) (st' : HashStore M')
    (iocname : CStr) (ioclen : Nat) (elems : List CStr) (engine : cl_engine M)
    (engine' : cl_engine M') (heap : Heap) (hheap : heap.neverFails) :
    (openioc_drain st iocname ioclen elems engine [] heap).calls =
        elems.filterMap (fun e => (openioc_trim e).map
          (fun t => (t, openioc_virusname iocname ioclen t t.length))) ∧
      (openioc_drain st iocname ioclen elems engine [] heap).ret = Returned.no_value ∧
      (openioc_drain st iocname ioclen elems engine [] heap).calls =
        (openioc_drain st' iocname ioclen elems engine' [] heap).calls := by
  have h := drain_calls st iocname ioclen elems engine [] heap hheap
  have h' := drain_calls st' iocname ioclen elems engine' [] heap hheap
  simp only [List.nil_append] at h h'
  exact ⟨h.1, h.2, h.1.trans h'.1.symm⟩

theorem drain_attempts_every_hash_witness :
    (openioc_drain rejectingStore "x.ioc".toList 5 [" ab ".toList, "  ".toList, "cd".toList]
        { hm_hdb := some [] } [] plentyHeap).calls =
        [" ab ".toList, "  ".toList, "cd".toList].filterMap (fun e => (openioc_trim e).map
          (fun t => (t, openioc_virusname "x.ioc".toList 5 t t.length))) ∧
      (openioc_drain rejectingStore "x.ioc".toList 5 [" ab ".toList, "  ".toList, "cd".toList]
        { hm_hdb := some [] } [] plentyHeap).ret = Returned.no_value ∧
      (openioc_drain rejectingStore "x.ioc".toList 5 [" ab ".toList, "  ".toList, "cd".toList]
        { hm_hdb := some [] } [] plentyHeap).calls =
        (openioc_drain sampleStore "x.ioc".toList 5 [" ab ".toList, "  ".toList, "cd".toList]
          { hm_hdb := none } [] plentyHeap).calls :=
  drain_attempts_every_hash rejectingStore sampleStore "x.ioc".toList 5
    [" ab ".toList, "  ".toList, "cd".toList] { hm_hdb := some [] } { hm_hdb := none }
    plentyHeap (fun _ => rfl)

/-! ## Creation of the store -/

theorem replayCalls_append {M : Type} (st : HashStore M) (hdb : Option M)
    (a b : List (CStr × CStr)) :
    replayCalls st hdb (a ++ b) = replayCalls st (replayCalls st hdb a) b := by
  simp only [replayCalls, List.foldl_append]

theorem drain_store {M : Type} (st : HashStore M) (iocname : CStr) (ioclen : Nat) :
    ∀ (elems : List CStr) (engine : cl_engine M) (calls : List (CStr × CStr)) (heap : Heap),
      ∃ added, (openioc_drain st iocname ioclen elems engine calls heap).calls
          = calls ++ added ∧
        (openioc_drain st iocname ioclen elems engine calls heap).engine.hm_hdb =
          replayCalls st engine.hm_hdb added := by
  intro elems
  induction elems with
  | nil =>
    intro engine calls heap
    exact ⟨[], by simp only [openioc_drain, List.append_nil], rfl⟩
  | cons elem elems ih =>
    intro engine calls heap
    cases ht : openioc_trim elem with
    | none =>
      rw [drain_cons_dropped _ _ _ _ _ _ _ _ ht]
      exact ih engine calls heap
    | some t =>
      rw [drain_cons_kept _ _ _ _ t _ _ _ _ ht]
      split
      · obtain ⟨added, h1, h2⟩ := ih
          { hm_hdb := (st.hm_addhash_str engine.hm_hdb t 0
              (openioc_virusname iocname ioclen t t.length)).2 }
          (calls ++ [(t, openioc_virusname iocname ioclen t t.length)]) (heap.after 1)
        refine ⟨(t, openioc_virusname iocname ioclen t t.length) :: added, ?_, ?_⟩
        · rw [h1, List.append_assoc, List.singleton_append]
        · rw [h2]
          rfl
      · exact ⟨[], by simp only [List.append_nil], rfl⟩

/-- C16: the store is created lazily and once. With an empty collected list
openioc_parse leaves the engine, the store calls and the heap untouched.
With an existing store no allocation for a store is made and the drain
starts on that store, which changes only through the calls of
hm_addhash_str made on it. Only with a non-empty list and an absent store
is a store allocated: zeroed, one request, before the drain; and if that
request fails, CL_EMEM is returned and the engine is as before. -/
theorem store_created_lazily {M : Type} (cfg : Config) (st : HashStore M) (fname : CStr)
    (elems : List CStr) (engine : cl_engine M) (heap : Heap) :
    (openioc_register cfg st fname [] engine heap =
      { ret := Returned.no_value, engine := engine, calls := [], heap := heap }) ∧
    (∀ (fd : Int) (nodes : List Node) (w : Walk), 0 ≤ fd →
      openioc_scan nodes heap = some (Sum.inr w) → w.elems = [] →
      openioc_parse cfg st (some fname) fd (some nodes) engine heap =
        some { ret := Returned.no_value, engine := engine, calls := [], heap := w.heap }) ∧
    (∀ m, engine.hm_hdb = some m →
      openioc_register cfg st fname elems engine heap =
        openioc_drain st (openioc_iocname cfg fname) (openioc_ioclen cfg fname) elems engine []
          heap ∧
      (openioc_register cfg st fname elems engine heap).engine.hm_hdb =
        replayCalls st (some m) (openioc_register cfg st fname elems engine heap).calls) ∧
    (engine.hm_hdb = none → elems ≠ [] → heap.ok heap.used = true →
      openioc_register cfg st fname elems engine heap =
        openioc_drain st (openioc_iocname cfg fname) (openioc_ioclen cfg fname) elems
          { hm_hdb := some st.zeroed } [] (heap.after 1)) ∧
    (engine.hm_hdb = none → elems ≠ [] → heap.ok heap.used = false →
      openioc_register cfg st fname elems engine heap =
        { ret := Returned.value CL_EMEM, engine := engine, calls := [],
          heap := heap.after 1 }) := by
  have hempty : openioc_register cfg st fname [] engine heap =
      { ret := Returned.no_value, engine := engine, calls := [], heap := heap } := by
    simp only [openioc_register, ne_eq, not_true_eq_false, false_and, if_false, openioc_drain]
  refine ⟨hempty, ?_, ?_, ?_, ?_⟩
  · intro fd nodes w hfd hscan hnil
    simp only [openioc_parse, not_lt.mpr hfd, if_false, hscan, hnil]
    simp only [openioc_register, ne_eq, not_true_eq_false, false_and, if_false, openioc_drain]
  · intro m hm
    have hreg : openioc_register cfg st fname elems engine heap =
        openioc_drain st (openioc_iocname cfg fname) (openioc_ioclen cfg fname) elems engine []
          heap := by
      simp only [openioc_register, hm, Option.isNone_some, Bool.false_eq_true, and_false,
        if_false]
    refine ⟨hreg, ?_⟩
    rw [hreg]
    obtain ⟨added, h1, h2⟩ := drain_store st (openioc_iocname cfg fname)
      (openioc_ioclen cfg fname) elems engine [] heap
    rw [h2, h1, hm, List.nil_append]
  · intro hnone hne hok
    simp only [openioc_register, hnone, Option.isNone_none, ne_eq, hne, not_false_eq_true,
      and_self, if_true, Heap.alloc, hok, Heap.after]
  · intro hnone hne hok
    simp only [openioc_register, hnone, Option.isNone_none, ne_eq, hne, not_false_eq_true,
      and_self, if_true, Heap.alloc, hok, Bool.false_eq_true, if_false, Heap.after]

theorem store_created_lazily_witness :
    openioc_register linuxConfig sampleStore "sample.ioc".toList
        ["d41d8cd98f00b204e9800998ecf8427e".toList]
        { hm_hdb := some [("00".toList, "old".toList)] } plentyHeap =
      openioc_drain sampleStore (openioc_iocname linuxConfig "sample.ioc".toList)
        (openioc_ioclen linuxConfig "sample.ioc".toList)
        ["d41d8cd98f00b204e9800998ecf8427e".toList]
        { hm_hdb := some [("00".toList, "old".toList)] } [] plentyHeap ∧
    (openioc_register linuxConfig sampleStore "sample.ioc".toList
        ["d41d8cd98f00b204e9800998ecf8427e".toList]
        { hm_hdb := some [("00".toList, "old".toList)] } plentyHeap).engine.hm_hdb =
      replayCalls sampleStore (some [("00".toList, "old".toList)])
        (openioc_register linuxConfig sampleStore "sample.ioc".toList
          ["d41d8cd98f00b204e9800998ecf8427e".toList]
          { hm_hdb := some [("00".toList, "old".toList)] } plentyHeap).calls :=
  (store_created_lazily linuxConfig sampleStore "sample.ioc".toList
    ["d41d8cd98f00b204e9800998ecf8427e".toList]
    { hm_hdb := some [("00".toList, "old".toList)] } plentyHeap).2.2.1
    [("00".toList, "old".toList)] rfl

/-! ## The base filename -/

theorem strrchr_none (s : CStr) (c : Char) (h : strrchr s c = none) : c ∉ s := by
  induction s with
  | nil => simp
  | cons a as ih =>
    simp only [strrchr] at h
    split at h
    · exact absurd h (by simp)
    · next hnone =>
      split at h
      · exact absurd h (by simp)
      · next hne =>
        simp only [List.mem_cons, not_or]
        exact ⟨fun e => hne e.symm, ih hnone⟩

theorem strrchr_some (s : CStr) (c : Char) :
    ∀ p, strrchr s c = some p →
      ∃ pre rest, p = c :: rest ∧ s = pre ++ c :: rest ∧ c ∉ rest := by
  induction s with
  | nil => intro p h; simp [strrchr] at h
  | cons a as ih =>
    intro p h
    simp only [strrchr] at h
    split at h
    · next q hq =>
      obtain ⟨pre, rest, h1, h2, h3⟩ := ih q hq
      have hp : q = p := Option.some.inj h
      subst hp
      exact ⟨a :: pre, rest, h1, by rw [h2]; rfl, h3⟩
    · next hnone =>
      split at h
      · next hac =>
        have hp := Option.some.inj h
        subst hac
        exact ⟨[], as, hp.symm, rfl, strrchr_none as a hnone⟩
      · exact absurd h (by simp)

theorem iocp_spec (cfg : Config) (fname : CStr) :
    cfg.PATHSEP ∉ openioc_iocp cfg fname ∧
    (cfg.PATHSEP ∉ fname → openioc_iocp cfg fname = fname) ∧
    (cfg.PATHSEP ∈ fname → ∃ pre, fname = pre ++ cfg.PATHSEP :: openioc_iocp cfg fname) ∧
    openioc_iocp cfg fname <:+ fname := by
  unfold openioc_iocp
  cases h : strrchr fname cfg.PATHSEP with
  | none =>
    have hn := strrchr_none fname cfg.PATHSEP h
    exact ⟨hn, fun _ => rfl, fun hm => absurd hm hn, List.suffix_refl _⟩
  | some p =>
    obtain ⟨pre, rest, h1, h2, h3⟩ := strrchr_some fname cfg.PATHSEP p h
    subst h1
    refine ⟨h3, ?_, fun _ => ⟨pre, h2⟩, ?_⟩
    · intro hn
      rw [h2] at hn
      exact absurd (List.mem_append_right _ (List.mem_cons_self _ _)) hn
    · exact ⟨pre ++ [cfg.PATHSEP], by rw [h2]; simp⟩

theorem strrchr_absent (s : CStr) (c : Char) (h : c ∉ s) : strrchr s c = none := by
  induction s with
  | nil => rfl
  | cons a as ih =>
    simp only [List.mem_cons, not_or] at h
    simp only [strrchr, ih h.2]
    rw [if_neg (fun e => h.1 e.symm)]

theorem strrchr_last (pre rest : CStr) (c : Char) (h : c ∉ rest) :
    strrchr (pre ++ c :: rest) c = some (c :: rest) := by
  induction pre with
  | nil =>
    simp only [List.nil_append, strrchr, strrchr_absent rest c h, if_true]
  | cons a as ih =>
    show (match strrchr (as ++ c :: rest) c with
      | some p => some p
      | none => if a = c then some (a :: (as ++ c :: rest)) else none) = some (c :: rest)
    rw [ih]

theorem longName_iocp (n : Nat) :
    openioc_iocp linuxConfig ("d/b".toList ++ List.replicate n 'a') =
      'b' :: List.replicate n 'a' := by
  have hmem : '/' ∉ 'b' :: List.replicate n 'a' := by
    intro h
    rcases List.mem_cons.mp h with e | e
    · exact absurd e (by decide)
    · exact absurd (List.eq_of_mem_replicate e) (by decide)
  have h := strrchr_last "d".toList ('b' :: List.replicate n 'a') '/' hmem
  unfold openioc_iocp
  have e : "d/b".toList ++ List.replicate n 'a' =
      "d".toList ++ '/' :: 'b' :: List.replicate n 'a' := rfl
  have hsep : linuxConfig.PATHSEP = '/' := rfl
  rw [e, hsep, h]
  rfl

/-- C18 as stated is false: for the name `d/b` followed by 1023 times `a`,
with `PATHSEP` "/" and `MAXPATHLEN` 1024, the part after the last separator
has 1024 characters, the base filename copied by line 211 and used for the
names has its first 1023 only, and the original name does not end with it. -/
theorem long_base_filename_is_cut :
    (openioc_iocp linuxConfig longName).length = 1024 ∧
    (openioc_iocname linuxConfig longName).length = 1023 ∧
    openioc_ioclen linuxConfig longName = 1023 ∧
    openioc_iocname linuxConfig longName ≠ openioc_iocp linuxConfig longName ∧
    ¬ (openioc_iocname linuxConfig longName <:+ longName) := by
  have hp : openioc_iocp linuxConfig longName = 'b' :: List.replicate 1023 'a' :=
    longName_iocp 1023
  have hn : openioc_iocname linuxConfig longName = 'b' :: List.replicate 1022 'a' := by
    unfold openioc_iocname
    rw [hp]
    have hm : linuxConfig.MAXPATHLEN - 1 = 1022 + 1 := rfl
    rw [hm, List.take_succ_cons, List.take_replicate]
    rfl
  have hnl : (openioc_iocname linuxConfig longName).length = 1023 := by
    rw [hn, List.length_cons, List.length_replicate]
  have hpl : (openioc_iocp linuxConfig longName).length = 1024 := by
    rw [hp, List.length_cons, List.length_replicate]
  refine ⟨hpl, hnl, ?_, ?_, ?_⟩
  · unfold openioc_ioclen
    rw [hnl]
  · intro h
    rw [h, hpl] at hnl
    exact absurd hnl (by decide)
  · rw [hn]
    rintro ⟨pre, hpre⟩
    have hlong : longName = 'd' :: '/' :: 'b' :: 'a' :: List.replicate 1022 'a' := rfl
    rw [hlong] at hpre
    have hlen := congrArg List.length hpre
    simp only [List.length_append, List.length_cons, List.length_replicate] at hlen
    have hpl3 : pre.length = 3 := by omega
    have hget := congrArg (fun l => l[3]?) hpre
    simp only [List.getElem?_cons_succ, List.getElem?_cons_zero] at hget
    rw [List.getElem?_append_right (Nat.le_of_eq hpl3), hpl3, Nat.sub_self,
      List.getElem?_cons_zero] at hget
    exact absurd (Option.some.inj hget) (by decide)

/-- C18, amended: for every source file name, the part after the last path
separator (the whole name if it has none) has no separator in it and the
name ends with it; the base filename used for the signature names is that
part cut to its first MAXPATHLEN-1 characters, so it has no separator either,
and when the part is shorter than MAXPATHLEN it is used whole and the name
ends with it; its length is ioclen when MAXPATHLEN is at most 65536. -/
theorem base_filename (cfg : Config) (fname : CStr) :
    cfg.PATHSEP ∉ openioc_iocp cfg fname ∧
    (cfg.PATHSEP ∉ fname → openioc_iocp cfg fname = fname) ∧
    (cfg.PATHSEP ∈ fname → ∃ pre, fname = pre ++ cfg.PATHSEP :: openioc_iocp cfg fname) ∧
    openioc_iocp cfg fname <:+ fname ∧
    openioc_iocname cfg fname = (openioc_iocp cfg fname).take (cfg.MAXPATHLEN - 1) ∧
    openioc_iocname cfg fname <+: openioc_iocp cfg fname ∧
    cfg.PATHSEP ∉ openioc_iocname cfg fname ∧
    ((openioc_iocp cfg fname).length < cfg.MAXPATHLEN →
      openioc_iocname cfg fname = openioc_iocp cfg fname ∧
      openioc_iocname cfg fname <:+ fname) ∧
    (cfg.MAXPATHLEN ≤ 65536 →
      openioc_ioclen cfg fname = (openioc_iocname cfg fname).length) := by
  obtain ⟨h1, h2, h3, h4⟩ := iocp_spec cfg fname
  have hpre : openioc_iocname cfg fname <+: openioc_iocp cfg fname := List.take_prefix _ _
  refine ⟨h1, h2, h3, h4, rfl, hpre, ?_, ?_, ?_⟩
  · intro hm
    exact h1 (hpre.subset hm)
  · intro hlt
    have e : openioc_iocname cfg fname = openioc_iocp cfg fname :=
      List.take_of_length_le (by omega)
    exact ⟨e, by rw [e]; exact h4⟩
  · intro hmax
    unfold openioc_ioclen
    apply Nat.mod_eq_of_lt
    have : (openioc_iocname cfg fname).length ≤ cfg.MAXPATHLEN - 1 := by
      unfold openioc_iocname
      exact List.length_take_le _ _
    omega

theorem base_filename_witness :
    openioc_iocname linuxConfig "dir/sub/sample.ioc".toList =
        openioc_iocp linuxConfig "dir/sub/sample.ioc".toList ∧
      openioc_iocname linuxConfig "dir/sub/sample.ioc".toList <:+
        "dir/sub/sample.ioc".toList :=
  (base_filename linuxConfig "dir/sub/sample.ioc".toList).2.2.2.2.2.2.2.1 (by decide)

/-! ## The bounds of the `virusname` buffer -/

theorem hex_writes_spec (cs : CStr) :
    ∀ vp, (openioc_hex_writes cs vp).2 = vp + (cs.filter isxdigit).length ∧
      (∀ w ∈ (openioc_hex_writes cs vp).1, vp ≤ w.1 ∧ w.1 < vp + (cs.filter isxdigit).length) ∧
      (openioc_hex_writes cs vp).1.length = (cs.filter isxdigit).length := by
  induction cs with
  | nil => intro vp; simp [openioc_hex_writes]
  | cons c cs ih =>
    intro vp
    by_cases hc : isxdigit c = true
    · obtain ⟨h1, h2, h3⟩ := ih (vp + 1)
      simp only [openioc_hex_writes, hc, if_true, List.filter_cons, List.length_cons, h1, h3,
        List.mem_cons]
      refine ⟨by omega, ?_, trivial⟩
      rintro w (rfl | hw)
      · exact ⟨Nat.le_refl _, by omega⟩
      · have := h2 w hw
        omega
    · obtain ⟨h1, h2, h3⟩ := ih vp
      simp only [openioc_hex_writes, hc, Bool.false_eq_true, if_false, List.filter_cons]
      exact ⟨h1, h2, h3⟩

theorem filter_take_le (hash : CStr) (hashlen : Nat) :
    ((hash.take hashlen).filter isxdigit).length ≤ hashlen :=
  Nat.le_trans (List.length_filter_le _ _)
    (List.length_take_le hashlen hash)

theorem switch_writes_index (sp : Char) (vp : Nat) :
    ∀ w ∈ openioc_switch_writes sp vp, w.1 = vp := by
  intro w hw
  unfold openioc_switch_writes at hw
  rcases List.mem_append.mp hw with h | h
  · split at h
    · rw [List.mem_singleton.mp h]
    · exact absurd h (List.not_mem_nil _)
  · rw [List.mem_singleton.mp h]

/-! ## The buffer after the writes holds the signature name -/

theorem replay_append (a b : List (Nat × Char)) (m : Nat → Char) :
    replay (a ++ b) m = replay b (replay a m) := by
  simp only [replay, List.foldl_append]

theorem replay_cons (w : Nat × Char) (ws : List (Nat × Char)) (m : Nat → Char) :
    replay (w :: ws) m = replay ws (fun j => if j = w.1 then w.2 else m j) := rfl

theorem replay_nil (m : Nat → Char) : replay [] m = m := rfl

theorem switch_replay (sp : Char) (vp : Nat) (m : Nat → Char) (j : Nat) :
    replay (openioc_switch_writes sp vp) m j =
      if j = vp then (if isspace sp then '_' else sp) else m j := by
  unfold openioc_switch_writes
  split
  · simp only [List.singleton_append, replay_cons, replay_nil]
    by_cases hj : j = vp
    · simp only [hj, if_true]
    · simp only [hj, if_false]
  · simp only [List.nil_append, replay_cons, replay_nil]

theorem name_replay (iocname : CStr) (n : Nat) :
    ∀ (m : Nat → Char) (j : Nat),
      replay ((List.range n).flatMap
          (fun i => openioc_switch_writes (iocname.getD i (Char.ofNat 0)) i)) m j =
        if j < n then
          (if isspace (iocname.getD j (Char.ofNat 0)) then '_'
           else iocname.getD j (Char.ofNat 0))
        else m j := by
  induction n with
  | zero =>
    intro m j
    rw [if_neg (Nat.not_lt_zero j)]
    rfl
  | succ n ih =>
    intro m j
    rw [List.range_succ, List.flatMap_append, replay_append]
    simp only [List.flatMap_cons, List.flatMap_nil, List.append_nil, switch_replay]
    by_cases hj : j = n
    · subst hj
      rw [if_pos rfl, if_pos (Nat.lt_succ_self j)]
    · rw [if_neg hj, ih]
      by_cases hlt : j < n
      · rw [if_pos hlt, if_pos (show j < n + 1 by omega)]
      · rw [if_neg hlt, if_neg (show ¬ j < n + 1 by omega)]

theorem hex_replay (cs : CStr) :
    ∀ (vp : Nat) (m : Nat → Char) (j : Nat),
      replay (openioc_hex_writes cs vp).1 m j =
        if vp ≤ j ∧ j < vp + (cs.filter isxdigit).length then
          (cs.filter isxdigit).getD (j - vp) (Char.ofNat 0)
        else m j := by
  induction cs with
  | nil =>
    intro vp m j
    rw [if_neg (show ¬ (vp ≤ j ∧ j < vp + (List.filter isxdigit []).length) by
      simp only [List.filter_nil, List.length_nil]; omega)]
    rfl
  | cons c cs ih =>
    intro vp m j
    by_cases hc : isxdigit c = true
    · have hw : (openioc_hex_writes (c :: cs) vp).1 =
          (vp, c) :: (openioc_hex_writes cs (vp + 1)).1 := by
        simp only [openioc_hex_writes, hc, if_true]
      have hf : (c :: cs).filter isxdigit = c :: cs.filter isxdigit := by
        simp only [List.filter_cons, hc, if_true]
      rw [hw, hf, replay_cons, ih, List.length_cons]
      by_cases hj : j = vp
      · subst hj
        rw [if_neg (show ¬ (j + 1 ≤ j ∧ j < j + 1 + (cs.filter isxdigit).length) by omega),
          if_pos (show j ≤ j ∧ j < j + ((cs.filter isxdigit).length + 1) by omega),
          Nat.sub_self, List.getD_cons_zero]
        simp only [if_true]
      · by_cases hr : vp + 1 ≤ j ∧ j < vp + 1 + (cs.filter isxdigit).length
        · rw [if_pos hr,
            if_pos (show vp ≤ j ∧ j < vp + ((cs.filter isxdigit).length + 1) by omega)]
          obtain ⟨i, hi⟩ : ∃ i, j - vp = i + 1 := ⟨j - vp - 1, by omega⟩
          have hi2 : j - (vp + 1) = i := by omega
          rw [hi, hi2, List.getD_cons_succ]
        · rw [if_neg hr,
            if_neg (show ¬ (vp ≤ j ∧ j < vp + ((cs.filter isxdigit).length + 1)) by omega)]
          simp only [hj, if_false]
    · have hw : openioc_hex_writes (c :: cs) vp = openioc_hex_writes cs vp := by
        simp only [openioc_hex_writes, hc, Bool.false_eq_true, if_false]
      have hf : (c :: cs).filter isxdigit = cs.filter isxdigit := by
        simp only [List.filter_cons, hc, Bool.false_eq_true, if_false]
      rw [hw, hf, ih]

/-- After the writes of lines 250-279 the buffer holds the signature name
and, behind it, the NUL; the cells further on are untouched. -/
theorem virusname_writes_replay (iocname : CStr) (ioclen : Nat) (hash : CStr)
    (hashlen : Nat) (mem : Nat → Char) (hlen : ioclen ≤ iocname.length) (j : Nat) :
    replay (openioc_virusname_writes iocname ioclen hash hashlen) mem j =
      if j < (openioc_virusname iocname ioclen hash hashlen).length then
        (openioc_virusname iocname ioclen hash hashlen).getD j (Char.ofNat 0)
      else if j = (openioc_virusname iocname ioclen hash hashlen).length then Char.ofNat 0
      else mem j := by
  obtain ⟨h1, _, _⟩ := hex_writes_spec (hash.take hashlen) (ioclen + 1)
  have hP : ((iocname.take ioclen).map (fun c => openioc_switch c (Char.ofNat 0))).length =
      ioclen := by
    rw [List.length_map, List.length_take]
    omega
  have hname : (openioc_virusname iocname ioclen hash hashlen).length =
      ioclen + 1 + ((hash.take hashlen).filter isxdigit).length := by
    simp only [openioc_virusname, List.length_append, List.length_cons, hP]
    omega
  rw [hname]
  unfold openioc_virusname_writes
  rw [replay_append, replay_append, replay_append]
  simp only [replay_cons, replay_nil, h1]
  by_cases hj : j = ioclen + 1 + ((hash.take hashlen).filter isxdigit).length
  · rw [if_pos hj,
      if_neg (show ¬ j < ioclen + 1 + ((hash.take hashlen).filter isxdigit).length by omega),
      if_pos hj]
  · rw [if_neg hj, hex_replay]
    by_cases hr : ioclen + 1 ≤ j ∧ j < ioclen + 1 + ((hash.take hashlen).filter isxdigit).length
    · rw [if_pos hr, if_pos hr.2]
      unfold openioc_virusname
      rw [List.getD_append_right _ _ _ _ (show _ ≤ j by rw [hP]; omega), hP]
      obtain ⟨i, hi⟩ : ∃ i, j - ioclen = i + 1 := ⟨j - ioclen - 1, by omega⟩
      have hi2 : j - (ioclen + 1) = i := by omega
      rw [hi, hi2, List.getD_cons_succ]
    · rw [if_neg hr]
      by_cases hd : j = ioclen
      · subst hd
        rw [if_pos rfl,
          if_pos (show j < j + 1 + ((hash.take hashlen).filter isxdigit).length by omega)]
        unfold openioc_virusname
        rw [List.getD_append_right _ _ _ _ (show _ ≤ j by rw [hP]), hP, Nat.sub_self,
          List.getD_cons_zero]
      · rw [if_neg hd, name_replay]
        by_cases hlt : j < ioclen
        · rw [if_pos hlt,
            if_pos (show j < ioclen + 1 + ((hash.take hashlen).filter isxdigit).length by
              omega)]
          unfold openioc_virusname
          have hjl : j < iocname.length := by omega
          have hjP : j < ((iocname.take ioclen).map
              (fun c => openioc_switch c (Char.ofNat 0))).length := by rw [hP]; exact hlt
          rw [List.getD_append _ _ _ _ hjP, List.getD_eq_getElem _ _ hjP, List.getElem_map,
            List.getElem_take, openioc_switch_eq, List.getD_eq_getElem _ _ hjl]
        · rw [if_neg hlt,
            if_neg (show ¬ j < ioclen + 1 + ((hash.take hashlen).filter isxdigit).length by
              omega),
            if_neg hj]

/-- C19: in the buffer of ioclen + hashlen + 2 characters that line 245
allocates (hashlen the length after the right trim), every store of lines
250-279 has its index inside the buffer, and the characters written, the
terminating NUL included, number ioclen + 1 + (hexadecimal digits of the
hash) + 1, which is at most ioclen + hashlen + 2: the NUL goes to the index
ioclen + 1 + (hexadecimal digits), the last store. The stores are those of
the name: after them the buffer holds the signature name and its NUL. -/
theorem virusname_writes_in_bounds (iocname : CStr) (ioclen : Nat) (hash : CStr)
    (hashlen : Nat) :
    (∀ w ∈ openioc_virusname_writes iocname ioclen hash hashlen,
      w.1 < ioclen + hashlen + 2) ∧
    (openioc_hex_writes (hash.take hashlen) (ioclen + 1)).2 =
      ioclen + 1 + ((hash.take hashlen).filter isxdigit).length ∧
    (openioc_hex_writes (hash.take hashlen) (ioclen + 1)).2 + 1 ≤ ioclen + hashlen + 2 ∧
    (openioc_virusname_writes iocname ioclen hash hashlen).getLast? =
      some (ioclen + 1 + ((hash.take hashlen).filter isxdigit).length, Char.ofNat 0) ∧
    (∀ w ∈ openioc_virusname_writes iocname ioclen hash hashlen,
      w.1 ≤ ioclen + 1 + ((hash.take hashlen).filter isxdigit).length) ∧
    (ioclen ≤ iocname.length → ∀ (mem : Nat → Char) (j : Nat),
      replay (openioc_virusname_writes iocname ioclen hash hashlen) mem j =
        if j < (openioc_virusname iocname ioclen hash hashlen).length then
          (openioc_virusname iocname ioclen hash hashlen).getD j (Char.ofNat 0)
        else if j = (openioc_virusname iocname ioclen hash hashlen).length then Char.ofNat 0
        else mem j) := by
  obtain ⟨h1, h2, _⟩ := hex_writes_spec (hash.take hashlen) (ioclen + 1)
  have hle := filter_take_le hash hashlen
  have hidx : ∀ w ∈ openioc_virusname_writes iocname ioclen hash hashlen,
      w.1 ≤ ioclen + 1 + ((hash.take hashlen).filter isxdigit).length := by
    intro w hw
    unfold openioc_virusname_writes at hw
    simp only [List.mem_append, List.mem_flatMap, List.mem_range, List.mem_singleton] at hw
    rcases hw with ((⟨i, hi, hwi⟩ | rfl) | hw) | rfl
    · rw [switch_writes_index _ _ w hwi]
      omega
    · simp only
      omega
    · have := h2 w hw
      omega
    · simp only [h1]
      omega
  refine ⟨?_, h1, by omega, ?_, hidx,
    fun hlen mem j => virusname_writes_replay iocname ioclen hash hashlen mem hlen j⟩
  · intro w hw
    have := hidx w hw
    omega
  · unfold openioc_virusname_writes
    rw [List.getLast?_append, List.getLast?_singleton, h1]
    rfl

theorem virusname_writes_in_bounds_witness :
    3 ≤ "a b".toList.length ∧
      ∀ (mem : Nat → Char) (j : Nat),
        replay (openioc_virusname_writes "a b".toList 3 "1g2 ".toList 3) mem j =
          if j < (openioc_virusname "a b".toList 3 "1g2 ".toList 3).length then
            (openioc_virusname "a b".toList 3 "1g2 ".toList 3).getD j (Char.ofNat 0)
          else if j = (openioc_virusname "a b".toList 3 "1g2 ".toList 3).length then
            Char.ofNat 0
          else mem j :=
  ⟨by decide, (virusname_writes_in_bounds "a b".toList 3 "1g2 ".toList 3).2.2.2.2.2 (by decide)⟩

/-! ## Termination and the depth of the recursion -/

theorem depth_unfold (fuel : Nat) (w : Walk) :
    openioc_parse_indicator_depth (fuel + 1) w =
      if (openioc_read w.reader).1.isNone then
        some (CL_SUCCESS, { w with reader := (openioc_read w.reader).2 }, 1)
      else if xmlStrEqual (openioc_read w.reader).1 "Indicator".toList ∧
          xmlTextReaderNodeType (openioc_read w.reader).2 = XML_READER_TYPE_ELEMENT then
        match openioc_parse_indicator_depth fuel
            { w with reader := (openioc_read w.reader).2 } with
        | none => none
        | some (rc, w2, d) =>
          if rc ≠ CL_SUCCESS then some (rc, w2, d + 1)
          else
            match openioc_parse_indicator_depth fuel w2 with
            | none => none
            | some (rc3, w3, d3) => some (rc3, w3, max (d + 1) d3)
      else if xmlStrEqual (openioc_read w.reader).1 "IndicatorItem".toList ∧
          xmlTextReaderNodeType (openioc_read w.reader).2 = XML_READER_TYPE_ELEMENT then
        match openioc_parse_indicatoritem fuel
            { w with reader := (openioc_read w.reader).2 } with
        | none => none
        | some (rc, w2) =>
          if rc ≠ CL_SUCCESS then some (rc, w2, 1)
          else openioc_parse_indicator_depth fuel w2
      else if xmlStrEqual (openioc_read w.reader).1 "Indicator".toList ∧
          xmlTextReaderNodeType (openioc_read w.reader).2 = XML_READER_TYPE_END_ELEMENT then
        some (CL_SUCCESS, { w with reader := (openioc_read w.reader).2 }, 1)
      else openioc_parse_indicator_depth fuel { w with reader := (openioc_read w.reader).2 } :=
  rfl

/-- The count of the nesting does not change what the function answers. -/
theorem depth_erase :
    ∀ (fuel : Nat) (w : Walk),
      (openioc_parse_indicator_depth fuel w).map (fun r => (r.1, r.2.1)) =
        openioc_parse_indicator fuel w := by
  intro fuel
  induction fuel with
  | zero => intro w; rfl
  | succ fuel ih =>
    intro w
    rw [depth_unfold, indicator_unfold]
    split
    · rfl
    · split
      · rw [← ih]
        cases h1 : openioc_parse_indicator_depth fuel
            { w with reader := (openioc_read w.reader).2 } with
        | none => rfl
        | some r =>
          obtain ⟨rc, w2, d⟩ := r
          simp only [Option.map_some']
          split
          · rfl
          · rw [← ih]
            cases h2 : openioc_parse_indicator_depth fuel w2 with
            | none => rfl
            | some r2 => rfl
      · split
        · cases h1 : openioc_parse_indicatoritem fuel
              { w with reader := (openioc_read w.reader).2 } with
          | none => rfl
          | some r =>
            obtain ⟨rc, w2⟩ := r
            simp only
            split
            · rfl
            · exact ih w2
        · split
          · rfl
          · exact ih _

theorem read_consumed (r : Reader) (h : (openioc_read r).1.isNone = false) :
    ∃ n, r.rest = n :: (openioc_read r).2.rest ∧ (openioc_read r).2.cur = some n ∧
      (openioc_read r).1 = n.localName := by
  cases hr : r.rest with
  | nil =>
    have : (openioc_read r).1 = none := by simp [openioc_read, xmlTextReaderRead, hr]
    rw [this] at h
    exact absurd h (by simp)
  | cons n ns =>
    refine ⟨n, ?_, ?_, ?_⟩ <;>
      simp [openioc_read, xmlTextReaderRead, hr, xmlTextReaderConstLocalName]

theorem content_consumed (w : Walk) :
    ∃ c, w.reader.rest = c ++ (openioc_parse_content w).2.reader.rest := by
  have hread : ∃ c, w.reader.rest = c ++ (xmlTextReaderRead w.reader).2.rest := by
    cases hr : w.reader.rest with
    | nil => exact ⟨[], by simp [xmlTextReaderRead, hr]⟩
    | cons n ns => exact ⟨[n], by simp [xmlTextReaderRead, hr]⟩
  unfold openioc_parse_content
  split
  · exact ⟨[], rfl⟩
  · split
    · exact ⟨[], rfl⟩
    · simp only
      split
      · split
        · split <;> exact hread
        · exact hread
      · exact hread

theorem item_consumed :
    ∀ (fuel : Nat) (w w1 : Walk) (rc : cl_error_t),
      openioc_parse_indicatoritem fuel w = some (rc, w1) →
      ∃ c, w.reader.rest = c ++ w1.reader.rest := by
  intro fuel
  induction fuel with
  | zero => intro w w1 rc h; exact absurd h (by simp [openioc_parse_indicatoritem])
  | succ fuel ih =>
    intro w w1 rc h
    rw [item_unfold] at h
    have hstep : ∃ c, w.reader.rest = c ++ (openioc_read w.reader).2.rest := by
      cases hr : w.reader.rest with
      | nil => exact ⟨[], by simp [openioc_read, xmlTextReaderRead, hr]⟩
      | cons n ns => exact ⟨[n], by simp [openioc_read, xmlTextReaderRead, hr]⟩
    obtain ⟨c0, hc0⟩ := hstep
    have hvia : ∀ w2 : Walk, (∃ c, (openioc_read w.reader).2.rest = c ++ w2.reader.rest) →
        ∃ c, w.reader.rest = c ++ w2.reader.rest := by
      rintro w2 ⟨c, hc⟩
      exact ⟨c0 ++ c, by rw [hc0, hc, List.append_assoc]⟩
    split at h
    · obtain ⟨_, e⟩ := Prod.mk.inj (Option.some.inj h)
      subst e
      exact ⟨c0, hc0⟩
    · split at h
      · obtain ⟨cc, hcc⟩ := content_consumed { w with reader := (openioc_read w.reader).2 }
        split at h
        · have e := Option.some.inj h
          have e2 : (openioc_parse_content { w with reader := (openioc_read w.reader).2 }).2
              = w1 := congrArg Prod.snd e
          rw [← e2]
          exact hvia _ ⟨cc, hcc⟩
        · obtain ⟨c2, hc2⟩ := ih _ _ _ h
          exact hvia _ ⟨cc ++ c2, by rw [hcc, hc2, List.append_assoc]⟩
      · split at h
        · obtain ⟨_, e⟩ := Prod.mk.inj (Option.some.inj h)
          subst e
          exact ⟨c0, hc0⟩
        · obtain ⟨c2, hc2⟩ := ih _ _ _ h
          exact hvia _ ⟨c2, hc2⟩

theorem indicatorStarts_append (a b : List Node) :
    indicatorStarts (a ++ b) = indicatorStarts a + indicatorStarts b := by
  simp only [indicatorStarts, List.countP_append]

theorem depth_bound :
    ∀ (fuel : Nat) (w w1 : Walk) (rc : cl_error_t) (d : Nat),
      openioc_parse_indicator_depth fuel w = some (rc, w1, d) →
      ∃ c, w.reader.rest = c ++ w1.reader.rest ∧ 1 ≤ d ∧ d ≤ 1 + indicatorStarts c := by
  intro fuel
  induction fuel with
  | zero => intro w w1 rc d h; exact absurd h (by simp [openioc_parse_indicator_depth])
  | succ fuel ih =>
    intro w w1 rc d h
    rw [depth_unfold] at h
    split at h
    · have e := Option.some.inj h
      have e1 : w1 = { w with reader := (openioc_read w.reader).2 } :=
        (congrArg (fun r => r.2.1) e).symm
      have e2 : d = 1 := (congrArg (fun r => r.2.2) e).symm
      subst e1 e2
      cases hr : w.reader.rest with
      | nil => exact ⟨[], by simp [openioc_read, xmlTextReaderRead, hr], by omega, by omega⟩
      | cons n ns =>
        exact ⟨[n], by simp [openioc_read, xmlTextReaderRead, hr], by omega, by omega⟩
    · next hsome =>
      obtain ⟨n, hn, hcur, hname⟩ := read_consumed w.reader (by
        cases hx : (openioc_read w.reader).1.isNone with
        | true => exact absurd hx hsome
        | false => rfl)
      split at h
      · next hind =>
        have hstart : indicatorStarts [n] = 1 := by
          have h1 := xmlStrEqual_some _ _ hind.1
          have h2 := hind.2
          simp only [xmlTextReaderNodeType, hcur] at h2
          rw [hname] at h1
          simp [indicatorStarts, Node.isIndicatorStart, h1, h2]
        split at h
        · exact absurd h (by simp)
        · next rc2 w2 d2 hcall =>
          obtain ⟨c2, hc2, hd2a, hd2⟩ := ih _ _ _ _ hcall
          simp only at hc2
          split at h
          · have e := Option.some.inj h
            have e1 : w2 = w1 := congrArg (fun r => r.2.1) e
            have e2 : d2 + 1 = d := congrArg (fun r => r.2.2) e
            subst e1 e2
            refine ⟨n :: c2, by rw [hn, hc2]; rfl, by omega, ?_⟩
            have := indicatorStarts_append [n] c2
            simp only [List.singleton_append] at this
            omega
          · split at h
            · exact absurd h (by simp)
            · next rc3 w3 d3 hcall3 =>
              obtain ⟨c3, hc3, hd3a, hd3⟩ := ih _ _ _ _ hcall3
              have e := Option.some.inj h
              have e1 : w3 = w1 := congrArg (fun r => r.2.1) e
              have e2 : max (d2 + 1) d3 = d := congrArg (fun r => r.2.2) e
              subst e1 e2
              refine ⟨n :: (c2 ++ c3), by rw [hn, hc2, hc3]; simp only [List.cons_append, List.append_assoc],
                by omega, ?_⟩
              have h1 := indicatorStarts_append [n] (c2 ++ c3)
              have h2 := indicatorStarts_append c2 c3
              simp only [List.singleton_append] at h1
              omega
      · split at h
        · split at h
          · exact absurd h (by simp)
          · next rc2 w2 hcall =>
            obtain ⟨c2, hc2⟩ := item_consumed _ _ _ _ hcall
            simp only at hc2
            split at h
            · have e := Option.some.inj h
              have e1 : w2 = w1 := congrArg (fun r => r.2.1) e
              have e2 : 1 = d := congrArg (fun r => r.2.2) e
              subst e1 e2
              exact ⟨n :: c2, by rw [hn, hc2]; rfl, by omega, by omega⟩
            · obtain ⟨c3, hc3, hd3a, hd3⟩ := ih _ _ _ _ h
              refine ⟨n :: (c2 ++ c3), by rw [hn, hc2, hc3]; simp only [List.cons_append, List.append_assoc],
                hd3a, ?_⟩
              have h1 := indicatorStarts_append [n] (c2 ++ c3)
              have h2 := indicatorStarts_append c2 c3
              simp only [List.singleton_append] at h1
              omega
        · split at h
          · have e := Option.some.inj h
            have e1 : { w with reader := (openioc_read w.reader).2 } = w1 :=
              congrArg (fun r => r.2.1) e
            have e2 : 1 = d := congrArg (fun r => r.2.2) e
            subst e1 e2
            exact ⟨[n], by rw [hn]; rfl, by omega, by omega⟩
          · obtain ⟨c3, hc3, hd3a, hd3⟩ := ih _ _ _ _ h
            simp only at hc3
            refine ⟨n :: c3, by rw [hn, hc3]; rfl, hd3a, ?_⟩
            have h1 := indicatorStarts_append [n] c3
            simp only [List.singleton_append] at h1
            omega

theorem depth_fuel_succ :
    ∀ (fuel : Nat) (w : Walk) (r : cl_error_t × Walk × Nat),
      openioc_parse_indicator_depth fuel w = some r →
      openioc_parse_indicator_depth (fuel + 1) w = some r := by
  intro fuel
  induction fuel with
  | zero => intro w r h; exact absurd h (by simp [openioc_parse_indicator_depth])
  | succ fuel ih =>
    intro w r h
    rw [depth_unfold] at h ⊢
    split at h
    · rw [if_pos (by assumption)]; exact h
    · rw [if_neg (by assumption)]
      split at h
      · rw [if_pos (by assumption)]
        split at h
        · exact absurd h (by simp)
        · next rc w2 d hcall =>
          rw [ih _ _ hcall]
          simp only
          split at h
          · rw [if_pos (by assumption)]; exact h
          · rw [if_neg (by assumption)]
            split at h
            · exact absurd h (by simp)
            · next rc3 w3 d3 hcall3 =>
              rw [ih _ _ hcall3]
              exact h
      · rw [if_neg (by assumption)]
        split at h
        · rw [if_pos (by assumption)]
          split at h
          · exact absurd h (by simp)
          · next rc w2 hcall =>
            rw [item_fuel_succ _ _ _ hcall]
            simp only
            split at h
            · rw [if_pos (by assumption)]; exact h
            · rw [if_neg (by assumption)]; exact ih _ _ h
        · rw [if_neg (by assumption)]
          split at h
          · rw [if_pos (by assumption)]; exact h
          · rw [if_neg (by assumption)]; exact ih _ _ h

theorem depth_fuel_mono (fuel more : Nat) (w : Walk) (r : cl_error_t × Walk × Nat)
    (h : openioc_parse_indicator_depth fuel w = some r) :
    openioc_parse_indicator_depth (fuel + more) w = some r := by
  induction more with
  | zero => exact h
  | succ m ih => exact depth_fuel_succ _ _ _ ih

theorem depth_total (fuel : Nat) (w : Walk) (h : w.reader.rest.length < fuel) :
    ∃ rc w1 d, openioc_parse_indicator_depth fuel w = some (rc, w1, d) := by
  obtain ⟨rc, w1, hr, _⟩ := indicator_total fuel w h
  rw [← depth_erase] at hr
  cases hd : openioc_parse_indicator_depth fuel w with
  | none => rw [hd] at hr; exact absurd hr (by simp)
  | some r => exact ⟨r.1, r.2.1, r.2.2, rfl⟩

/-- C20: on every finite node sequence, well-formed or not, the function
`openioc_parse_indicator` returns, with its recursive calls and its calls to
`openioc_parse_indicatoritem` and `openioc_parse_content`: a budget of one
step per remaining node, plus one, is enough, and every larger budget gives
the same answer. A read that answers a name has consumed exactly one node,
the handlers never give nodes back, and the number of invocations of
`openioc_parse_indicator` active at the same time is at most one more than
the number of `Indicator` start tags consumed, so it never exceeds the number
of `Indicator` start tags in the sequence when the call was triggered by
one. -/
theorem indicator_recursion_terminates (w : Walk) :
    ∃ rc w1 d,
      (∀ fuel, w.reader.rest.length < fuel →
        openioc_parse_indicator fuel w = some (rc, w1) ∧
        openioc_parse_indicator_depth fuel w = some (rc, w1, d)) ∧
      (∃ consumed, w.reader.rest = consumed ++ w1.reader.rest ∧
        d ≤ 1 + indicatorStarts consumed) ∧
      1 ≤ d ∧ d ≤ 1 + indicatorStarts w.reader.rest ∧
      (∀ n, w.reader.cur = some n → n.isIndicatorStart = true →
        d ≤ indicatorStarts (n :: w.reader.rest)) ∧
      (∃ r, ∀ fuel, w.reader.rest.length < fuel →
        openioc_parse_indicatoritem fuel w = some r) ∧
      (openioc_parse_content w).2.reader.rest.length ≤ w.reader.rest.length ∧
      ((openioc_read w.reader).1 = none ∨
        (openioc_read w.reader).2.rest.length + 1 = w.reader.rest.length) := by
  obtain ⟨rc, w1, d, hd⟩ := depth_total (w.reader.rest.length + 1) w (Nat.lt_succ_self _)
  obtain ⟨c, hc, hd1, hd2⟩ := depth_bound _ _ _ _ _ hd
  have hle : d ≤ 1 + indicatorStarts w.reader.rest := by
    have := indicatorStarts_append c w1.reader.rest
    rw [← hc] at this
    omega
  obtain ⟨irc, iw, hitem, _⟩ := item_total (w.reader.rest.length + 1) w (Nat.lt_succ_self _)
  refine ⟨rc, w1, d, ?_, ⟨c, hc, hd2⟩, hd1, hle, ?_, ⟨(irc, iw), ?_⟩,
    parse_content_rest w, openioc_read_rest w.reader⟩
  · intro fuel hf
    obtain ⟨m, rfl⟩ : ∃ m, fuel = w.reader.rest.length + 1 + m := ⟨fuel - (w.reader.rest.length + 1), by omega⟩
    have h2 := depth_fuel_mono _ m _ _ hd
    refine ⟨?_, h2⟩
    rw [← depth_erase, h2]
    rfl
  · intro n _ hn
    have : indicatorStarts (n :: w.reader.rest) = 1 + indicatorStarts w.reader.rest := by
      simp only [indicatorStarts, List.countP_cons, hn, if_true]
      omega
    omega
  · intro fuel hf
    obtain ⟨m, rfl⟩ : ∃ m, fuel = w.reader.rest.length + 1 + m := ⟨fuel - (w.reader.rest.length + 1), by omega⟩
    exact item_fuel_mono _ m _ _ hitem

theorem indicator_recursion_terminates_witness :
    malformedWalk.reader.cur = some (startNode "Indicator".toList []) ∧
      (startNode "Indicator".toList []).isIndicatorStart = true ∧
      ∃ rc w1 d,
        (∀ fuel, malformedWalk.reader.rest.length < fuel →
          openioc_parse_indicator fuel malformedWalk = some (rc, w1) ∧
          openioc_parse_indicator_depth fuel malformedWalk = some (rc, w1, d)) ∧
        d ≤ indicatorStarts (startNode "Indicator".toList [] :: malformedWalk.reader.rest) := by
  obtain ⟨rc, w1, d, h1, _, _, _, h5, _⟩ := indicator_recursion_terminates malformedWalk
  exact ⟨rfl, by decide, rc, w1, d, h1, h5 _ rfl (by decide)⟩

/-- The recursion on a malformed sequence: the call returns success at the
stray end tag of the inner `Indicator`, after two nested invocations, and the
caller goes on to the end of the sequence, where the open `IndicatorItem` and
`Content` end the walk. At most three invocations are active at once, and the
sequence has three `Indicator` start tags, the triggering one included. -/
theorem malformed_walk_terminates :
    (openioc_parse_indicator_depth 8 malformedWalk).map (fun r => (r.1, r.2.2)) =
        some (CL_SUCCESS, 3) ∧
      (openioc_parse_indicator 8 malformedWalk).map (fun r => (r.1, r.2.reader.rest)) =
        some (CL_SUCCESS, []) ∧
      indicatorStarts (startNode "Indicator".toList [] :: malformedWalk.reader.rest) = 3 := by
  refine ⟨by decide, by decide, by decide⟩

/-- The document with two hashes, the second allocation failing: openioc_parse
returns CL_EMEM and calls the store for no hash, the first one included. -/
theorem two_hash_document_aborted :
    openioc_parse linuxConfig sampleStore (some "sample.ioc".toList) 3
        (some twoHashDoc.nodes) { hm_hdb := none } secondFailsHeap =
      some { ret := Returned.value CL_EMEM, engine := { hm_hdb := none }, calls := [],
             heap := { ok := fun k => k != 1, used := 2 } } :=
  parse_scan_error linuxConfig sampleStore "sample.ioc".toList 3
    twoHashDoc.nodes { hm_hdb := none } secondFailsHeap CL_EMEM
    { reader := { cur := some (textNode "bb".toList),
                  rest := [endNode "Content".toList, endNode "IndicatorItem".toList,
                           endNode "Indicator".toList, endNode "Indicator".toList,
                           endNode "ioc".toList] },
      elems := ["aa".toList],
      heap := { ok := fun k => k != 1, used := 2 } }
    (by decide) rfl

/-- The item handler on an IndicatorItem of the grammar, its children
Content elements written with a start and an end tag, of any type, with or
without text, openioc_parse_indicatoritem (given enough fuel, no allocation
failing) consumes the nodes up to and including the end tag of the
IndicatorItem and no further: the nodes behind it are left as they are, and
what is collected are the texts of the accepted Content elements of this
IndicatorItem, pushed in their order. -/
theorem item_handler_on_grammar (cs : List Content) (fuel : Nat) (cur : Option Node)
    (tail : List Node) (elems : List CStr) (heap : Heap) (hheap : heap.neverFails)
    (hfuel : (contentNodes cs).length + 1 ≤ fuel) :
    ∃ heap', openioc_parse_indicatoritem fuel
        { reader := { cur := cur,
                      rest := contentNodes cs ++ endNode "IndicatorItem".toList :: tail },
          elems := elems, heap := heap } =
      some (CL_SUCCESS,
        { reader := { cur := some (endNode "IndicatorItem".toList), rest := tail },
          elems := ((cs.filter Content.collected).map Content.text).reverse ++ elems,
          heap := heap' }) := by
  have hk : (contentNodes cs).length <
      (contentNodes cs ++ endNode "IndicatorItem".toList :: tail).length := by
    simp only [List.length_append, List.length_cons]
    omega
  have ht1 : (contentNodes cs).take
      (contentNodes cs ++ endNode "IndicatorItem".toList :: tail).length = contentNodes cs :=
    List.take_of_length_le (Nat.le_of_lt hk)
  have ht2 : tail.take ((contentNodes cs ++ endNode "IndicatorItem".toList :: tail).length -
      (contentNodes cs).length - 1) = tail := by
    apply List.take_of_length_le
    simp only [List.length_append, List.length_cons]
    omega
  have h := item_walk cs (contentNodes cs ++ endNode "IndicatorItem".toList :: tail).length
    fuel cur tail elems heap hheap hfuel
  rw [List.take_length, readerAfter_past _ _ _ _ hk, ht1, ht2, harvest_contentNodes] at h
  exact ⟨_, h⟩

theorem item_handler_on_grammar_mixed :
    ∃ heap', openioc_parse_indicatoritem 9
        { reader := { cur := some (startNode "IndicatorItem".toList []),
                      rest := contentNodes mixedContents ++ endNode "IndicatorItem".toList ::
                        [endNode "Indicator".toList, endNode "ioc".toList] },
          elems := ["old".toList], heap := plentyHeap } =
      some (CL_SUCCESS,
        { reader := { cur := some (endNode "IndicatorItem".toList),
                      rest := [endNode "Indicator".toList, endNode "ioc".toList] },
          elems := ((mixedContents.filter Content.collected).map Content.text).reverse ++
            ["old".toList],
          heap := heap' }) :=
  item_handler_on_grammar mixedContents 9 _ _ _ plentyHeap (fun _ => rfl) (by decide)

/-! ## An error of the extractor at any point of the walk -/

theorem item_log_unfold (fuel : Nat) (w : Walk) :
    openioc_parse_indicatoritem_log (fuel + 1) w =
      if (openioc_read w.reader).1.isNone then
        some ((CL_SUCCESS, { w with reader := (openioc_read w.reader).2 }), [])
      else if xmlStrEqual (openioc_read w.reader).1 "Content".toList ∧
          xmlTextReaderNodeType (openioc_read w.reader).2 = XML_READER_TYPE_ELEMENT then
        if (openioc_parse_content { w with reader := (openioc_read w.reader).2 }).1
            ≠ CL_SUCCESS then
          some (openioc_parse_content { w with reader := (openioc_read w.reader).2 },
            [{ w with reader := (openioc_read w.reader).2 }])
        else
          match openioc_parse_indicatoritem_log fuel
              (openioc_parse_content { w with reader := (openioc_read w.reader).2 }).2 with
          | none => none
          | some (r, log) => some (r, { w with reader := (openioc_read w.reader).2 } :: log)
      else if xmlStrEqual (openioc_read w.reader).1 "IndicatorItem".toList ∧
          xmlTextReaderNodeType (openioc_read w.reader).2 = XML_READER_TYPE_END_ELEMENT then
        some ((CL_SUCCESS, { w with reader := (openioc_read w.reader).2 }), [])
      else openioc_parse_indicatoritem_log fuel { w with reader := (openioc_read w.reader).2 } :=
  rfl

theorem indicator_log_unfold (fuel : Nat) (w : Walk) :
    openioc_parse_indicator_log (fuel + 1) w =
      if (openioc_read w.reader).1.isNone then
        some ((CL_SUCCESS, { w with reader := (openioc_read w.reader).2 }), [])
      else if xmlStrEqual (openioc_read w.reader).1 "Indicator".toList ∧
          xmlTextReaderNodeType (openioc_read w.reader).2 = XML_READER_TYPE_ELEMENT then
        match openioc_parse_indicator_log fuel
            { w with reader := (openioc_read w.reader).2 } with
        | none => none
        | some ((rc, w2), log) =>
          if rc ≠ CL_SUCCESS then some ((rc, w2), log)
          else
            match openioc_parse_indicator_log fuel w2 with
            | none => none
            | some (r, log2) => some (r, log ++ log2)
      else if xmlStrEqual (openioc_read w.reader).1 "IndicatorItem".toList ∧
          xmlTextReaderNodeType (openioc_read w.reader).2 = XML_READER_TYPE_ELEMENT then
        match openioc_parse_indicatoritem_log fuel
            { w with reader := (openioc_read w.reader).2 } with
        | none => none
        | some ((rc, w2), log) =>
          if rc ≠ CL_SUCCESS then some ((rc, w2), log)
          else
            match openioc_parse_indicator_log fuel w2 with
            | none => none
            | some (r, log2) => some (r, log ++ log2)
      else if xmlStrEqual (openioc_read w.reader).1 "Indicator".toList ∧
          xmlTextReaderNodeType (openioc_read w.reader).2 = XML_READER_TYPE_END_ELEMENT then
        some ((CL_SUCCESS, { w with reader := (openioc_read w.reader).2 }), [])
      else openioc_parse_indicator_log fuel { w with reader := (openioc_read w.reader).2 } :=
  rfl

/-- The record of the calls does not change what the item handler answers. -/
theorem item_log_erase :
    ∀ (fuel : Nat) (w : Walk),
      (openioc_parse_indicatoritem_log fuel w).map Prod.fst =
        openioc_parse_indicatoritem fuel w := by
  intro fuel
  induction fuel with
  | zero => intro w; rfl
  | succ fuel ih =>
    intro w
    rw [item_log_unfold, item_unfold]
    split
    · rfl
    · split
      · split
        · rfl
        · rw [← ih]
          cases openioc_parse_indicatoritem_log fuel
              (openioc_parse_content { w with reader := (openioc_read w.reader).2 }).2 with
          | none => rfl
          | some r => rfl
      · split
        · rfl
        · exact ih _

/-- The record of the calls does not change what the walker answers. -/
theorem indicator_log_erase :
    ∀ (fuel : Nat) (w : Walk),
      (openioc_parse_indicator_log fuel w).map Prod.fst =
        openioc_parse_indicator fuel w := by
  intro fuel
  induction fuel with
  | zero => intro w; rfl
  | succ fuel ih =>
    intro w
    rw [indicator_log_unfold, indicator_unfold]
    split
    · rfl
    · split
      · rw [← ih]
        cases h1 : openioc_parse_indicator_log fuel
            { w with reader := (openioc_read w.reader).2 } with
        | none => rfl
        | some r =>
          obtain ⟨⟨rc, w2⟩, log⟩ := r
          simp only [Option.map_some']
          split
          · rfl
          · rw [← ih]
            cases openioc_parse_indicator_log fuel w2 with
            | none => rfl
            | some r2 => rfl
      · split
        · rw [← item_log_erase]
          cases h1 : openioc_parse_indicatoritem_log fuel
              { w with reader := (openioc_read w.reader).2 } with
          | none => rfl
          | some r =>
            obtain ⟨⟨rc, w2⟩, log⟩ := r
            simp only [Option.map_some']
            split
            · rfl
            · rw [← ih]
              cases openioc_parse_indicator_log fuel w2 with
              | none => rfl
              | some r2 => rfl
        · split
          · rfl
          · exact ih _

theorem loop_log_unfold (fuel : Nat) (rd : Int) (w : Walk) :
    openioc_parse_loop_log (fuel + 1) rd w =
      if rd ≠ 1 then some (Sum.inr w, [])
      else if xmlStrEqual (xmlTextReaderConstLocalName w.reader) "Indicator".toList ∧
          xmlTextReaderNodeType w.reader = XML_READER_TYPE_ELEMENT then
        match openioc_parse_indicator_log fuel w with
        | none => none
        | some ((rc1, w1), log) =>
          if rc1 ≠ CL_SUCCESS then some (Sum.inl (rc1, w1), log)
          else
            match (if xmlStrEqual (xmlTextReaderConstLocalName w.reader) "ioc".toList ∧
                xmlTextReaderNodeType w1.reader = XML_READER_TYPE_END_ELEMENT then
              some (Sum.inr w1, [])
            else
              openioc_parse_loop_log fuel (xmlTextReaderRead w1.reader).1
                { w1 with reader := (xmlTextReaderRead w1.reader).2 }) with
            | none => none
            | some (res, log2) => some (res, log ++ log2)
      else if xmlStrEqual (xmlTextReaderConstLocalName w.reader) "ioc".toList ∧
          xmlTextReaderNodeType w.reader = XML_READER_TYPE_END_ELEMENT then
        some (Sum.inr w, [])
      else
        openioc_parse_loop_log fuel (xmlTextReaderRead w.reader).1
          { w with reader := (xmlTextReaderRead w.reader).2 } := by
  simp only [openioc_parse_loop_log]

/-- The record of the calls does not change what the scanning loop answers. -/
theorem loop_log_erase :
    ∀ (fuel : Nat) (rd : Int) (w : Walk),
      (openioc_parse_loop_log fuel rd w).map Prod.fst = openioc_parse_loop fuel rd w := by
  intro fuel
  induction fuel with
  | zero => intro rd w; rfl
  | succ fuel ih =>
    intro rd w
    rw [loop_log_unfold, loop_unfold]
    split
    · rfl
    · split
      · rw [← indicator_log_erase]
        cases h1 : openioc_parse_indicator_log fuel w with
        | none => rfl
        | some r =>
          obtain ⟨⟨rc, w2⟩, log⟩ := r
          simp only [Option.map_some']
          split
          · rfl
          · by_cases hioc : xmlStrEqual (xmlTextReaderConstLocalName w.reader) "ioc".toList ∧
                xmlTextReaderNodeType w2.reader = XML_READER_TYPE_END_ELEMENT
            · simp only [if_pos hioc, Option.map_some']
            · simp only [if_neg hioc]
              rw [← ih]
              cases openioc_parse_loop_log fuel (xmlTextReaderRead w2.reader).1
                  { w2 with reader := (xmlTextReaderRead w2.reader).2 } with
              | none => rfl
              | some r2 => rfl
      · split
        · rfl
        · exact ih _ _

theorem scan_log_erase (nodes : List Node) (heap : Heap) :
    (openioc_scan_log nodes heap).map Prod.fst = openioc_scan nodes heap :=
  loop_log_erase _ _ _

theorem trace_nil (r : cl_error_t × Walk) (h : r.1 = CL_SUCCESS) : ExtractorTrace [] r :=
  Or.inl ⟨h, fun _ hm => absurd hm (List.not_mem_nil _)⟩

theorem trace_fail (wc : Walk) (h : (openioc_parse_content wc).1 ≠ CL_SUCCESS) :
    ExtractorTrace [wc] (openioc_parse_content wc) :=
  Or.inr ⟨[], wc, rfl, fun _ hm => absurd hm (List.not_mem_nil _), rfl, h⟩

theorem trace_append (l1 l2 : List Walk) (r : cl_error_t × Walk)
    (h1 : ∀ wc ∈ l1, (openioc_parse_content wc).1 = CL_SUCCESS) (h2 : ExtractorTrace l2 r) :
    ExtractorTrace (l1 ++ l2) r := by
  rcases h2 with ⟨hr, hall⟩ | ⟨pre, wc, hl, hpre, hwc, hr⟩
  · left
    refine ⟨hr, fun x hx => ?_⟩
    rcases List.mem_append.mp hx with hx | hx
    · exact h1 x hx
    · exact hall x hx
  · right
    refine ⟨l1 ++ pre, wc, by rw [hl, List.append_assoc], fun x hx => ?_, hwc, hr⟩
    rcases List.mem_append.mp hx with hx | hx
    · exact h1 x hx
    · exact hpre x hx

theorem trace_success (log : List Walk) (r : cl_error_t × Walk) (h : ExtractorTrace log r)
    (hr : r.1 = CL_SUCCESS) : ∀ wc ∈ log, (openioc_parse_content wc).1 = CL_SUCCESS := by
  rcases h with ⟨_, hall⟩ | ⟨_, _, _, _, _, hne⟩
  · exact hall
  · exact absurd hr hne

/-- A failed call in the record is its last call, and the answer is the
answer of that call. -/
theorem trace_use (log : List Walk) (r : cl_error_t × Walk) (h : ExtractorTrace log r)
    (wc : Walk) (hm : wc ∈ log) (hf : (openioc_parse_content wc).1 ≠ CL_SUCCESS) :
    r = openioc_parse_content wc ∧ log.getLast? = some wc ∧
      ∀ pre post, log = pre ++ wc :: post → post = [] := by
  rcases h with ⟨_, hall⟩ | ⟨pre, wl, hl, hpre, hwl, _⟩
  · exact absurd (hall wc hm) hf
  · subst hl
    have hlast : wc = wl := by
      rcases List.mem_append.mp hm with hx | hx
      · exact absurd (hpre wc hx) hf
      · exact List.mem_singleton.mp hx
    subst hlast
    refine ⟨hwl.symm, by simp, ?_⟩
    intro p q hpq
    cases q with
    | nil => rfl
    | cons y ys =>
      exfalso
      have hmem : wc ∈ pre := by
        have hd := congrArg List.dropLast hpq
        rw [List.dropLast_concat] at hd
        rw [hd]
        have : (p ++ wc :: y :: ys).dropLast = p ++ wc :: (y :: ys).dropLast := by
          rw [List.dropLast_append_of_ne_nil _ (by simp)]
          rfl
        rw [this]
        simp
      exact hf (hpre wc hmem)

theorem item_log_trace :
    ∀ (fuel : Nat) (w : Walk) (r : cl_error_t × Walk) (log : List Walk),
      openioc_parse_indicatoritem_log fuel w = some (r, log) → ExtractorTrace log r := by
  intro fuel
  induction fuel with
  | zero => intro w r log h; exact absurd h (by simp [openioc_parse_indicatoritem_log])
  | succ fuel ih =>
    intro w r log h
    rw [item_log_unfold] at h
    split at h
    · obtain ⟨e1, e2⟩ := Prod.mk.inj (Option.some.inj h)
      subst e1 e2
      exact trace_nil _ rfl
    · split at h
      · split at h
        · next hf =>
          obtain ⟨e1, e2⟩ := Prod.mk.inj (Option.some.inj h)
          subst e1 e2
          exact trace_fail _ hf
        · next hs =>
          split at h
          · exact absurd h (by simp)
          · next r2 log2 hcall =>
            obtain ⟨e1, e2⟩ := Prod.mk.inj (Option.some.inj h)
            subst e1 e2
            have := trace_append [{ w with reader := (openioc_read w.reader).2 }] log2 r2
              (fun x hx => by
                rw [List.mem_singleton.mp hx]
                exact not_not.mp hs) (ih _ _ _ hcall)
            exact this
      · split at h
        · obtain ⟨e1, e2⟩ := Prod.mk.inj (Option.some.inj h)
          subst e1 e2
          exact trace_nil _ rfl
        · exact ih _ _ _ h

theorem indicator_log_trace :
    ∀ (fuel : Nat) (w : Walk) (r : cl_error_t × Walk) (log : List Walk),
      openioc_parse_indicator_log fuel w = some (r, log) → ExtractorTrace log r := by
  intro fuel
  induction fuel with
  | zero => intro w r log h; exact absurd h (by simp [openioc_parse_indicator_log])
  | succ fuel ih =>
    intro w r log h
    rw [indicator_log_unfold] at h
    split at h
    · obtain ⟨e1, e2⟩ := Prod.mk.inj (Option.some.inj h)
      subst e1 e2
      exact trace_nil _ rfl
    · split at h
      · split at h
        · exact absurd h (by simp)
        · next rc w2 log1 hcall =>
          have t1 := ih _ _ _ hcall
          split at h
          · obtain ⟨e1, e2⟩ := Prod.mk.inj (Option.some.inj h)
            subst e1 e2
            exact t1
          · next hs =>
            split at h
            · exact absurd h (by simp)
            · next r2 log2 hcall2 =>
              obtain ⟨e1, e2⟩ := Prod.mk.inj (Option.some.inj h)
              subst e1 e2
              exact trace_append _ _ _ (trace_success _ _ t1 (not_not.mp hs))
                (ih _ _ _ hcall2)
      · split at h
        · split at h
          · exact absurd h (by simp)
          · next rc w2 log1 hcall =>
            have t1 := item_log_trace _ _ _ _ hcall
            split at h
            · obtain ⟨e1, e2⟩ := Prod.mk.inj (Option.some.inj h)
              subst e1 e2
              exact t1
            · next hs =>
              split at h
              · exact absurd h (by simp)
              · next r2 log2 hcall2 =>
                obtain ⟨e1, e2⟩ := Prod.mk.inj (Option.some.inj h)
                subst e1 e2
                exact trace_append _ _ _ (trace_success _ _ t1 (not_not.mp hs))
                  (ih _ _ _ hcall2)
        · split at h
          · obtain ⟨e1, e2⟩ := Prod.mk.inj (Option.some.inj h)
            subst e1 e2
            exact trace_nil _ rfl
          · exact ih _ _ _ h

theorem loop_log_trace :
    ∀ (fuel : Nat) (rd : Int) (w : Walk) (res : (cl_error_t × Walk) ⊕ Walk)
      (log : List Walk),
      openioc_parse_loop_log fuel rd w = some (res, log) →
      ExtractorTrace log (scanAnswer res) ∧ ∀ e, res = Sum.inl e → e.1 ≠ CL_SUCCESS := by
  intro fuel
  induction fuel with
  | zero => intro rd w res log h; exact absurd h (by simp [openioc_parse_loop_log])
  | succ fuel ih =>
    intro rd w res log h
    rw [loop_log_unfold] at h
    have hstop : ∀ (w1 : Walk) (res1 : (cl_error_t × Walk) ⊕ Walk) (log1 : List Walk),
        some (Sum.inr w1, ([] : List Walk)) = some (res1, log1) →
        ExtractorTrace log1 (scanAnswer res1) ∧ ∀ e, res1 = Sum.inl e → e.1 ≠ CL_SUCCESS := by
      intro w1 res1 log1 h1
      obtain ⟨e1, e2⟩ := Prod.mk.inj (Option.some.inj h1)
      subst e1 e2
      exact ⟨trace_nil _ rfl, fun e he => absurd he (by simp)⟩
    split at h
    · exact hstop _ _ _ h
    · split at h
      · split at h
        · exact absurd h (by simp)
        · next rc w1 log1 hcall =>
          have t1 := indicator_log_trace _ _ _ _ hcall
          split at h
          · next hf =>
            obtain ⟨e1, e2⟩ := Prod.mk.inj (Option.some.inj h)
            subst e1 e2
            exact ⟨t1, fun e he => by rw [← Sum.inl.inj he]; exact hf⟩
          · next hs =>
            have hall := trace_success _ _ t1 (not_not.mp hs)
            split at h
            · exact absurd h (by simp)
            · next res2 log2 hafter =>
              obtain ⟨e1, e2⟩ := Prod.mk.inj (Option.some.inj h)
              subst e1 e2
              have t2 : ExtractorTrace log2 (scanAnswer res2) ∧
                  ∀ e, res2 = Sum.inl e → e.1 ≠ CL_SUCCESS := by
                by_cases hioc :
                    xmlStrEqual (xmlTextReaderConstLocalName w.reader) "ioc".toList ∧
                    xmlTextReaderNodeType w1.reader = XML_READER_TYPE_END_ELEMENT
                · rw [if_pos hioc] at hafter
                  exact hstop _ _ _ hafter
                · rw [if_neg hioc] at hafter
                  exact ih _ _ _ _ hafter
              exact ⟨trace_append _ _ _ hall t2.1, t2.2⟩
      · split at h
        · exact hstop _ _ _ h
        · exact ih _ _ _ _ h

theorem scan_log_total (nodes : List Node) (heap : Heap) :
    ∃ r, openioc_scan_log nodes heap = some r := by
  obtain ⟨res, hres⟩ := openioc_scan_total nodes heap
  rw [← scan_log_erase] at hres
  cases hd : openioc_scan_log nodes heap with
  | none => rw [hd] at hres; exact absurd hres (by simp)
  | some r => exact ⟨r, rfl⟩

theorem item_log_total (fuel : Nat) (w : Walk) (h : w.reader.rest.length < fuel) :
    ∃ r, openioc_parse_indicatoritem_log fuel w = some r := by
  obtain ⟨rc, w1, hr, _⟩ := item_total fuel w h
  rw [← item_log_erase] at hr
  cases hd : openioc_parse_indicatoritem_log fuel w with
  | none => rw [hd] at hr; exact absurd hr (by simp)
  | some r => exact ⟨r, rfl⟩

theorem indicator_log_total (fuel : Nat) (w : Walk) (h : w.reader.rest.length < fuel) :
    ∃ r, openioc_parse_indicator_log fuel w = some r := by
  obtain ⟨rc, w1, hr, _⟩ := indicator_total fuel w h
  rw [← indicator_log_erase] at hr
  cases hd : openioc_parse_indicator_log fuel w with
  | none => rw [hd] at hr; exact absurd hr (by simp)
  | some r => exact ⟨r, rfl⟩

theorem item_log_answer (fuel : Nat) (w : Walk) (r : cl_error_t × Walk) (log : List Walk)
    (h : openioc_parse_indicatoritem_log fuel w = some (r, log)) :
    openioc_parse_indicatoritem fuel w = some r := by
  rw [← item_log_erase, h]; rfl

theorem indicator_log_answer (fuel : Nat) (w : Walk) (r : cl_error_t × Walk)
    (log : List Walk) (h : openioc_parse_indicator_log fuel w = some (r, log)) :
    openioc_parse_indicator fuel w = some r := by
  rw [← indicator_log_erase, h]; rfl

theorem scan_log_answer (nodes : List Node) (heap : Heap) (res : (cl_error_t × Walk) ⊕ Walk)
    (log : List Walk) (h : openioc_scan_log nodes heap = some (res, log)) :
    openioc_scan nodes heap = some res := by
  rw [← scan_log_erase, h]; rfl

/-- A failed call of the extractor during a scan: the scan returns the
answer of that call, which is its last call. -/
theorem scan_log_failure (nodes : List Node) (heap : Heap)
    (res : (cl_error_t × Walk) ⊕ Walk) (log : List Walk) (wc : Walk)
    (h : openioc_scan_log nodes heap = some (res, log)) (hm : wc ∈ log)
    (hf : (openioc_parse_content wc).1 ≠ CL_SUCCESS) :
    openioc_scan nodes heap = some (Sum.inl (openioc_parse_content wc)) ∧
      log.getLast? = some wc ∧ ∀ pre post, log = pre ++ wc :: post → post = [] := by
  have ht := loop_log_trace _ _ _ _ _ h
  obtain ⟨hr, hlast, hpost⟩ := trace_use _ _ ht.1 wc hm hf
  refine ⟨?_, hlast, hpost⟩
  rw [scan_log_answer _ _ _ _ h]
  cases res with
  | inl e =>
    have : e = openioc_parse_content wc := hr
    rw [this]
  | inr w1 =>
    have : (CL_SUCCESS, w1) = openioc_parse_content wc := hr
    rw [← this] at hf
    exact absurd rfl hf

/-- The record of an invocation contains the records of the calls it makes:
it begins with the record of the nested invocation, of the item handler, or
with the call on the `Content` start tag. -/
theorem log_nesting :
    (∀ (fuel : Nat) (w : Walk) (r : cl_error_t × Walk) (log : List Walk),
      xmlStrEqual (openioc_read w.reader).1 "Content".toList = true →
      xmlTextReaderNodeType (openioc_read w.reader).2 = XML_READER_TYPE_ELEMENT →
      openioc_parse_indicatoritem_log (fuel + 1) w = some (r, log) →
      log.head? = some { w with reader := (openioc_read w.reader).2 }) ∧
    (∀ (fuel : Nat) (w : Walk) (r r1 : cl_error_t × Walk) (log log1 : List Walk),
      xmlStrEqual (openioc_read w.reader).1 "IndicatorItem".toList = true →
      xmlTextReaderNodeType (openioc_read w.reader).2 = XML_READER_TYPE_ELEMENT →
      openioc_parse_indicatoritem_log fuel { w with reader := (openioc_read w.reader).2 }
        = some (r1, log1) →
      openioc_parse_indicator_log (fuel + 1) w = some (r, log) → log1 <+: log) ∧
    (∀ (fuel : Nat) (w : Walk) (r r1 : cl_error_t × Walk) (log log1 : List Walk),
      xmlStrEqual (openioc_read w.reader).1 "Indicator".toList = true →
      xmlTextReaderNodeType (openioc_read w.reader).2 = XML_READER_TYPE_ELEMENT →
      openioc_parse_indicator_log fuel { w with reader := (openioc_read w.reader).2 }
        = some (r1, log1) →
      openioc_parse_indicator_log (fuel + 1) w = some (r, log) → log1 <+: log) ∧
    (∀ (fuel : Nat) (w : Walk) (res : (cl_error_t × Walk) ⊕ Walk) (r1 : cl_error_t × Walk)
        (log log1 : List Walk),
      xmlStrEqual (xmlTextReaderConstLocalName w.reader) "Indicator".toList = true →
      xmlTextReaderNodeType w.reader = XML_READER_TYPE_ELEMENT →
      openioc_parse_indicator_log fuel w = some (r1, log1) →
      openioc_parse_loop_log (fuel + 1) 1 w = some (res, log) → log1 <+: log) := by
  refine ⟨?_, ?_, ?_, ?_⟩
  · intro fuel w r log hname htype h
    have hn := xmlStrEqual_some _ _ hname
    have hsome : (openioc_read w.reader).1.isNone = false := by rw [hn]; rfl
    rw [item_log_unfold, hsome, if_neg (by simp), if_pos ⟨hname, htype⟩] at h
    split at h
    · obtain ⟨_, e2⟩ := Prod.mk.inj (Option.some.inj h)
      subst e2
      rfl
    · split at h
      · exact absurd h (by simp)
      · obtain ⟨_, e2⟩ := Prod.mk.inj (Option.some.inj h)
        subst e2
        rfl
  · intro fuel w r r1 log log1 hname htype hcall h
    have hn := xmlStrEqual_some _ _ hname
    have hsome : (openioc_read w.reader).1.isNone = false := by rw [hn]; rfl
    have hne : ¬ (xmlStrEqual (openioc_read w.reader).1 "Indicator".toList = true ∧
        xmlTextReaderNodeType (openioc_read w.reader).2 = XML_READER_TYPE_ELEMENT) := by
      rw [hn]
      intro hc
      exact absurd hc.1 (by decide)
    rw [indicator_log_unfold, hsome, if_neg (by simp), if_neg hne, if_pos ⟨hname, htype⟩,
      hcall] at h
    simp only at h
    split at h
    · obtain ⟨_, e2⟩ := Prod.mk.inj (Option.some.inj h)
      subst e2
      exact List.prefix_refl _
    · split at h
      · exact absurd h (by simp)
      · obtain ⟨_, e2⟩ := Prod.mk.inj (Option.some.inj h)
        subst e2
        exact List.prefix_append _ _
  · intro fuel w r r1 log log1 hname htype hcall h
    have hn := xmlStrEqual_some _ _ hname
    have hsome : (openioc_read w.reader).1.isNone = false := by rw [hn]; rfl
    rw [indicator_log_unfold, hsome, if_neg (by simp), if_pos ⟨hname, htype⟩, hcall] at h
    simp only at h
    split at h
    · obtain ⟨_, e2⟩ := Prod.mk.inj (Option.some.inj h)
      subst e2
      exact List.prefix_refl _
    · split at h
      · exact absurd h (by simp)
      · obtain ⟨_, e2⟩ := Prod.mk.inj (Option.some.inj h)
        subst e2
        exact List.prefix_append _ _
  · intro fuel w res r1 log log1 hname htype hcall h
    rw [loop_log_unfold, if_neg (by simp), if_pos ⟨hname, htype⟩, hcall] at h
    simp only at h
    split at h
    · obtain ⟨_, e2⟩ := Prod.mk.inj (Option.some.inj h)
      subst e2
      exact List.prefix_refl _
    · split at h
      · exact absurd h (by simp)
      · obtain ⟨_, e2⟩ := Prod.mk.inj (Option.some.inj h)
        subst e2
        exact List.prefix_append _ _

/-- C9: an error of the content extractor at any point of the traversal stops
the whole document. The walkers are run with a record of the states on which
openioc_parse_content is called, which does not change their answers and
which contains, for every invocation, the records of the calls made below it.
Whenever a call in the record of the item handler, of an invocation of
openioc_parse_indicator at any level, or of the scan of openioc_parse answers
a code other than CL_SUCCESS, that call is the last one of the record and the
function returns that same code in the very state the extractor left, so no
further node is read; openioc_parse returns that code, CL_EMEM, having called
the store for no hash and left the engine as it was. Conversely a scan is
aborted only with CL_EMEM, in the state of a failed call of the extractor. -/
theorem content_error_stops_document {M : Type} :
    (∀ (fuel : Nat) (w : Walk) (r : cl_error_t × Walk) (log : List Walk) (wc : Walk),
      openioc_parse_indicatoritem_log fuel w = some (r, log) → wc ∈ log →
      (openioc_parse_content wc).1 ≠ CL_SUCCESS →
      openioc_parse_indicatoritem fuel w = some (openioc_parse_content wc) ∧
        log.getLast? = some wc) ∧
    (∀ (fuel : Nat) (w : Walk) (r : cl_error_t × Walk) (log : List Walk) (wc : Walk),
      openioc_parse_indicator_log fuel w = some (r, log) → wc ∈ log →
      (openioc_parse_content wc).1 ≠ CL_SUCCESS →
      openioc_parse_indicator fuel w = some (openioc_parse_content wc) ∧
        log.getLast? = some wc) ∧
    (∀ (cfg : Config) (st : HashStore M) (fname : CStr) (fd : Int) (nodes : List Node)
        (engine : cl_engine M) (heap : Heap) (res : (cl_error_t × Walk) ⊕ Walk)
        (log : List Walk) (wc : Walk),
      0 ≤ fd → openioc_scan_log nodes heap = some (res, log) → wc ∈ log →
      (openioc_parse_content wc).1 ≠ CL_SUCCESS →
      openioc_parse cfg st (some fname) fd (some nodes) engine heap =
          some { ret := Returned.value (openioc_parse_content wc).1, engine := engine,
                 calls := [], heap := (openioc_parse_content wc).2.heap } ∧
        openioc_scan nodes heap = some (Sum.inl (openioc_parse_content wc)) ∧
        log.getLast? = some wc ∧ (openioc_parse_content wc).1 = CL_EMEM) ∧
    (∀ (fuel : Nat) (w : Walk),
      (openioc_parse_indicatoritem_log fuel w).map Prod.fst =
          openioc_parse_indicatoritem fuel w ∧
        (openioc_parse_indicator_log fuel w).map Prod.fst = openioc_parse_indicator fuel w ∧
        (w.reader.rest.length < fuel →
          (∃ r, openioc_parse_indicatoritem_log fuel w = some r) ∧
          ∃ r, openioc_parse_indicator_log fuel w = some r)) ∧
    (∀ (nodes : List Node) (heap : Heap),
      (openioc_scan_log nodes heap).map Prod.fst = openioc_scan nodes heap ∧
        ∃ r, openioc_scan_log nodes heap = some r) ∧
    (∀ (fuel : Nat) (w : Walk) (r : cl_error_t × Walk) (log : List Walk),
      xmlStrEqual (openioc_read w.reader).1 "Content".toList = true →
      xmlTextReaderNodeType (openioc_read w.reader).2 = XML_READER_TYPE_ELEMENT →
      openioc_parse_indicatoritem_log (fuel + 1) w = some (r, log) →
      log.head? = some { w with reader := (openioc_read w.reader).2 }) ∧
    (∀ (fuel : Nat) (w : Walk) (r r1 : cl_error_t × Walk) (log log1 : List Walk),
      xmlStrEqual (openioc_read w.reader).1 "IndicatorItem".toList = true →
      xmlTextReaderNodeType (openioc_read w.reader).2 = XML_READER_TYPE_ELEMENT →
      openioc_parse_indicatoritem_log fuel { w with reader := (openioc_read w.reader).2 }
        = some (r1, log1) →
      openioc_parse_indicator_log (fuel + 1) w = some (r, log) → log1 <+: log) ∧
    (∀ (fuel : Nat) (w : Walk) (r r1 : cl_error_t × Walk) (log log1 : List Walk),
      xmlStrEqual (openioc_read w.reader).1 "Indicator".toList = true →
      xmlTextReaderNodeType (openioc_read w.reader).2 = XML_READER_TYPE_ELEMENT →
      openioc_parse_indicator_log fuel { w with reader := (openioc_read w.reader).2 }
        = some (r1, log1) →
      openioc_parse_indicator_log (fuel + 1) w = some (r, log) → log1 <+: log) ∧
    (∀ (fuel : Nat) (w : Walk) (res : (cl_error_t × Walk) ⊕ Walk) (r1 : cl_error_t × Walk)
        (log log1 : List Walk),
      xmlStrEqual (xmlTextReaderConstLocalName w.reader) "Indicator".toList = true →
      xmlTextReaderNodeType w.reader = XML_READER_TYPE_ELEMENT →
      openioc_parse_indicator_log fuel w = some (r1, log1) →
      openioc_parse_loop_log (fuel + 1) 1 w = some (res, log) → log1 <+: log) ∧
    (∀ (nodes : List Node) (heap : Heap) (rc : cl_error_t) (w : Walk),
      openioc_scan nodes heap = some (Sum.inl (rc, w)) →
      rc = CL_EMEM ∧ ∃ wc, openioc_parse_content wc = (CL_EMEM, w)) := by
  refine ⟨?_, ?_, ?_, ?_, ?_, log_nesting.1, log_nesting.2.1, log_nesting.2.2.1,
    log_nesting.2.2.2, ?_⟩
  · intro fuel w r log wc h hm hf
    obtain ⟨hr, hlast, _⟩ := trace_use _ _ (item_log_trace _ _ _ _ h) wc hm hf
    rw [← hr]
    exact ⟨item_log_answer _ _ _ _ h, hlast⟩
  · intro fuel w r log wc h hm hf
    obtain ⟨hr, hlast, _⟩ := trace_use _ _ (indicator_log_trace _ _ _ _ h) wc hm hf
    rw [← hr]
    exact ⟨indicator_log_answer _ _ _ _ h, hlast⟩
  · intro cfg st fname fd nodes engine heap res log wc hfd h hm hf
    obtain ⟨hscan, hlast, _⟩ := scan_log_failure nodes heap res log wc h hm hf
    exact ⟨parse_scan_error cfg st fname fd nodes engine heap _ _ hfd hscan, hscan, hlast,
      content_error_emem wc _ _ rfl hf⟩
  · intro fuel w
    exact ⟨item_log_erase fuel w, indicator_log_erase fuel w,
      fun hlt => ⟨item_log_total fuel w hlt, indicator_log_total fuel w hlt⟩⟩
  · intro nodes heap
    exact ⟨scan_log_erase nodes heap, scan_log_total nodes heap⟩
  · intro nodes heap rc w h
    unfold openioc_scan at h
    obtain ⟨herr, wc, hwc⟩ := loop_error_origin _ _ _ _ _ h
    have he := content_error_emem wc w rc hwc herr
    subst he
    exact ⟨rfl, wc, hwc⟩

theorem content_error_stops_document_witness :
    openioc_parse linuxConfig sampleStore (some "sample.ioc".toList) 3
        (some paddedNodes) { hm_hdb := none } secondFailsHeap =
      some { ret := Returned.value CL_EMEM, engine := { hm_hdb := none }, calls := [],
             heap := { ok := fun k => k != 1, used := 2 } } :=
  (content_error_stops_document.2.2.1 linuxConfig sampleStore "sample.ioc".toList 3
    paddedNodes { hm_hdb := none } secondFailsHeap
    (Sum.inl (CL_EMEM,
      { reader := { cur := some (textNode "bb".toList), rest := paddedNodes.drop 17 },
        elems := ["aa".toList],
        heap := { ok := fun k => k != 1, used := 2 } }))
    [{ reader := { cur := some (startNode "Content".toList [("type".toList, "md5".toList)]),
                   rest := paddedNodes.drop 10 },
       elems := [], heap := secondFailsHeap },
     { reader := { cur := some (startNode "Content".toList [("type".toList, "sha1".toList)]),
                   rest := paddedNodes.drop 16 },
       elems := ["aa".toList],
       heap := { ok := fun k => k != 1, used := 1 } }]
    { reader := { cur := some (startNode "Content".toList [("type".toList, "sha1".toList)]),
                  rest := paddedNodes.drop 16 },
      elems := ["aa".toList],
      heap := { ok := fun k => k != 1, used := 1 } }
    (by decide) rfl (List.mem_cons_of_mem _ (List.mem_cons_self _ _)) (by decide)).1

/-! ## The item handler on a body with any children -/

theorem openioc_read_cons (cur : Option Node) (n : Node) (ns : List Node) :
    openioc_read { cur := cur, rest := n :: ns } =
      (n.localName, { cur := some n, rest := ns }) := by
  simp [openioc_read, xmlTextReaderRead, xmlTextReaderConstLocalName]

theorem swallowsNext_skip (n : Node) (ns : List Node) (h : n.acceptedContent = false) :
    swallowsNext (n :: ns) = swallowsNext ns := by
  cases ns with
  | nil => simp only [swallowsNext, h]
  | cons m rest => simp only [swallowsNext, h, Bool.false_eq_true, if_false]

theorem itemCollect_skip (n : Node) (ns : List Node) (h : n.acceptedContent = false) :
    itemCollect (n :: ns) = itemCollect ns := by
  cases ns with
  | nil => simp only [itemCollect]
  | cons m rest => simp only [itemCollect, h, Bool.false_eq_true, if_false]

theorem swallowsNext_take (n m : Node) (rest : List Node) (h : n.acceptedContent = true) :
    swallowsNext (n :: m :: rest) = swallowsNext rest := by
  simp only [swallowsNext, h, if_true]

theorem itemCollect_take (n m : Node) (rest : List Node) (h : n.acceptedContent = true) :
    itemCollect (n :: m :: rest) = m.textValue ++ itemCollect rest := by
  simp only [itemCollect, h, if_true]

theorem acceptedContent_eq (n : Node) :
    n.acceptedContent = (n.isContentStart && acceptedType n.attrs) := rfl

theorem parse_content_text_none (n t : Node) (ns : List Node) (elems : List CStr)
    (heap : Heap) (h : acceptedType n.attrs = true) (hv : t.value = none) :
    openioc_parse_content { reader := { cur := some n, rest := t :: ns }, elems := elems,
                            heap := heap } =
      (CL_SUCCESS, { reader := { cur := some t, rest := ns }, elems := elems,
                     heap := heap }) := by
  by_cases ht : t.nodeType = XML_READER_TYPE_TEXT
  · obtain ⟨ty, hty, hp⟩ := acceptedType_true n (t :: ns) h
    simp only [openioc_parse_content, hty, hp, if_false, xmlTextReaderRead,
      xmlTextReaderNodeType, ht, and_self, if_true, xmlTextReaderConstValue, Option.bind, hv]
  · exact parse_content_no_text n t ns elems heap h ht

/-- The extractor on an accepted `Content` start tag with a node behind it
(no allocation failing): the node is read, and its value is pushed if it is a
text node. -/
theorem parse_content_next (n t : Node) (ns : List Node) (elems : List CStr) (heap : Heap)
    (h : acceptedType n.attrs = true) (hok : heap.ok heap.used = true) :
    openioc_parse_content { reader := { cur := some n, rest := t :: ns }, elems := elems,
                            heap := heap } =
      (CL_SUCCESS, { reader := { cur := some t, rest := ns },
                     elems := t.textValue.reverse ++ elems,
                     heap := heap.after t.textValue.length }) := by
  by_cases ht : t.nodeType = XML_READER_TYPE_TEXT
  · cases hv : t.value with
    | none =>
      rw [parse_content_text_none n t ns elems heap h hv]
      simp only [Node.textValue, ht, if_true, hv, Option.toList, List.reverse_nil,
        List.nil_append, List.length_nil, Heap.after_zero]
    | some v =>
      rw [parse_content_push n t v ns elems heap h ht hv hok]
      simp only [Node.textValue, ht, if_true, hv, Option.toList, List.reverse_cons,
        List.reverse_nil, List.nil_append, List.singleton_append, List.length_singleton]
  · rw [parse_content_no_text n t ns elems heap h ht]
    simp only [Node.textValue, ht, if_false, List.reverse_nil, List.nil_append,
      List.length_nil, Heap.after_zero]

theorem item_log_step_end (f : Nat) (cur : Option Node) (n : Node) (ns : List Node)
    (elems : List CStr) (heap : Heap) (h : n.isItemEnd = true) :
    openioc_parse_indicatoritem_log (f + 1)
        { reader := { cur := cur, rest := n :: ns }, elems := elems, heap := heap } =
      some ((CL_SUCCESS, { reader := { cur := some n, rest := ns }, elems := elems,
                           heap := heap }), []) := by
  simp only [Node.isItemEnd, Bool.and_eq_true, beq_iff_eq] at h
  obtain ⟨h1, h2⟩ := h
  rw [item_log_unfold, openioc_read_cons]
  simp only [h2, xmlTextReaderNodeType, h1]
  rfl

theorem item_log_step_skip (f : Nat) (cur : Option Node) (n : Node) (ns : List Node)
    (elems : List CStr) (heap : Heap) (hname : n.localName ≠ none)
    (hc : n.isContentStart = false) (he : n.isItemEnd = false) :
    openioc_parse_indicatoritem_log (f + 1)
        { reader := { cur := cur, rest := n :: ns }, elems := elems, heap := heap } =
      openioc_parse_indicatoritem_log f
        { reader := { cur := some n, rest := ns }, elems := elems, heap := heap } := by
  rw [item_log_unfold, openioc_read_cons]
  have h0 : n.localName.isNone = false := by
    cases hn : n.localName with
    | none => exact absurd hn hname
    | some x => rfl
  have h1 : ¬ (xmlStrEqual n.localName "Content".toList = true ∧
      xmlTextReaderNodeType { cur := some n, rest := ns } = XML_READER_TYPE_ELEMENT) := by
    rintro ⟨a, b⟩
    have := xmlStrEqual_some _ _ a
    simp only [xmlTextReaderNodeType] at b
    simp [Node.isContentStart, this, b] at hc
  have h2 : ¬ (xmlStrEqual n.localName "IndicatorItem".toList = true ∧
      xmlTextReaderNodeType { cur := some n, rest := ns } = XML_READER_TYPE_END_ELEMENT) := by
    rintro ⟨a, b⟩
    have := xmlStrEqual_some _ _ a
    simp only [xmlTextReaderNodeType] at b
    simp [Node.isItemEnd, this, b] at he
  simp only [h0, Bool.false_eq_true, if_false, h1, h2]

theorem item_log_step_content (f : Nat) (cur : Option Node) (n : Node) (ns : List Node)
    (elems : List CStr) (heap : Heap) (w2 : Walk) (hc : n.isContentStart = true)
    (hcall : openioc_parse_content
      { reader := { cur := some n, rest := ns }, elems := elems, heap := heap } =
        (CL_SUCCESS, w2)) :
    openioc_parse_indicatoritem_log (f + 1)
        { reader := { cur := cur, rest := n :: ns }, elems := elems, heap := heap } =
      match openioc_parse_indicatoritem_log f w2 with
      | none => none
      | some (r, log) =>
        some (r, { reader := { cur := some n, rest := ns }, elems := elems, heap := heap }
          :: log) := by
  simp only [Node.isContentStart, Bool.and_eq_true, beq_iff_eq] at hc
  obtain ⟨h1, h2⟩ := hc
  rw [item_log_unfold, openioc_read_cons]
  simp only [h2, xmlTextReaderNodeType, h1, hcall]
  rfl

theorem item_body_walk :
    ∀ (N : Nat) (body : List Node), body.length ≤ N →
      ∀ (fuel : Nat) (cur : Option Node) (endTag : Node) (tail : List Node)
        (elems : List CStr) (heap : Heap),
      heap.neverFails → endTag.isItemEnd = true →
      (∀ n ∈ body, n.localName ≠ none) → (∀ n ∈ body, n.isItemEnd = false) →
      swallowsNext body = false → body.length + 1 ≤ fuel →
      ∃ log, openioc_parse_indicatoritem_log fuel
          { reader := { cur := cur, rest := body ++ endTag :: tail },
            elems := elems, heap := heap } =
        some ((CL_SUCCESS,
          { reader := { cur := some endTag, rest := tail },
            elems := (itemCollect body).reverse ++ elems,
            heap := heap.after (itemCollect body).length }), log) ∧
        ∀ wc ∈ log, ∃ n ∈ body, wc.reader.cur = some n ∧ n.isContentStart = true := by
  intro N
  induction N with
  | zero =>
    intro body hlen fuel cur endTag tail elems heap _ hend _ _ _ hf
    have hb : body = [] := List.length_eq_zero.mp (Nat.le_zero.mp hlen)
    subst hb
    obtain ⟨f, rfl⟩ : ∃ f, fuel = f + 1 := ⟨fuel - 1, by simp at hf; omega⟩
    refine ⟨[], ?_, fun _ hm => absurd hm (List.not_mem_nil _)⟩
    rw [List.nil_append, item_log_step_end _ _ _ _ _ _ hend]
    rfl
  | succ N ih =>
    intro body hlen fuel cur endTag tail elems heap hheap hend hnames hnested hsw hf
    cases body with
    | nil =>
      obtain ⟨f, rfl⟩ : ∃ f, fuel = f + 1 := ⟨fuel - 1, by simp at hf; omega⟩
      refine ⟨[], ?_, fun _ hm => absurd hm (List.not_mem_nil _)⟩
      rw [List.nil_append, item_log_step_end _ _ _ _ _ _ hend]
      rfl
    | cons n ns =>
      simp only [List.length_cons] at hlen hf
      obtain ⟨f, rfl⟩ : ∃ f, fuel = f + 1 := ⟨fuel - 1, by omega⟩
      have hname := hnames n (List.mem_cons_self _ _)
      have hne := hnested n (List.mem_cons_self _ _)
      have hnames2 : ∀ x ∈ ns, x.localName ≠ none :=
        fun x hx => hnames x (List.mem_cons_of_mem _ hx)
      have hnested2 : ∀ x ∈ ns, x.isItemEnd = false :=
        fun x hx => hnested x (List.mem_cons_of_mem _ hx)
      rw [List.cons_append]
      cases hc : n.isContentStart with
      | false =>
        have hacc : n.acceptedContent = false := by
          rw [acceptedContent_eq, hc]; rfl
        rw [swallowsNext_skip n ns hacc] at hsw
        obtain ⟨log, hlog, hP⟩ := ih ns (by omega) f (some n) endTag tail elems heap hheap
          hend hnames2 hnested2 hsw (by omega)
        refine ⟨log, ?_, fun wc hwc => ?_⟩
        · rw [item_log_step_skip _ _ _ _ _ _ hname hc hne, hlog, itemCollect_skip n ns hacc]
        · obtain ⟨x, hx, hcur, hxc⟩ := hP wc hwc
          exact ⟨x, List.mem_cons_of_mem _ hx, hcur, hxc⟩
      | true =>
        cases hty : acceptedType n.attrs with
        | false =>
          have hacc : n.acceptedContent = false := by
            rw [acceptedContent_eq, hc, hty]; rfl
          rw [swallowsNext_skip n ns hacc] at hsw
          obtain ⟨log, hlog, hP⟩ := ih ns (by omega) f (some n) endTag tail elems heap hheap
            hend hnames2 hnested2 hsw (by omega)
          refine ⟨({ reader := { cur := some n, rest := ns ++ endTag :: tail },
                     elems := elems, heap := heap } : Walk) :: log, ?_, fun wc hwc => ?_⟩
          · rw [item_log_step_content _ _ _ _ _ _ _ hc
              (parse_content_skip n (ns ++ endTag :: tail) elems heap hty), hlog,
              itemCollect_skip n ns hacc]
          · rcases List.mem_cons.mp hwc with rfl | hwc
            · exact ⟨n, List.mem_cons_self _ _, rfl, hc⟩
            · obtain ⟨x, hx, hcur, hxc⟩ := hP wc hwc
              exact ⟨x, List.mem_cons_of_mem _ hx, hcur, hxc⟩
        | true =>
          have hacc : n.acceptedContent = true := by
            rw [acceptedContent_eq, hc, hty]; rfl
          cases ns with
          | nil =>
            simp only [swallowsNext, hacc] at hsw
            exact absurd hsw (by simp)
          | cons m rest =>
            rw [swallowsNext_take n m rest hacc] at hsw
            simp only [List.length_cons] at hlen hf
            have hnames3 : ∀ x ∈ rest, x.localName ≠ none :=
              fun x hx => hnames2 x (List.mem_cons_of_mem _ hx)
            have hnested3 : ∀ x ∈ rest, x.isItemEnd = false :=
              fun x hx => hnested2 x (List.mem_cons_of_mem _ hx)
            obtain ⟨log, hlog, hP⟩ := ih rest (by omega) f (some m) endTag tail
              (m.textValue.reverse ++ elems) (heap.after m.textValue.length)
              (Heap.neverFails_after heap _ hheap) hend hnames3 hnested3 hsw (by omega)
            refine ⟨({ reader := { cur := some n, rest := m :: (rest ++ endTag :: tail) },
                       elems := elems, heap := heap } : Walk) :: log, ?_, fun wc hwc => ?_⟩
            · rw [List.cons_append, item_log_step_content _ _ _ _ _ _ _ hc
                (parse_content_next n m (rest ++ endTag :: tail) elems heap hty
                  (hheap heap.used)), hlog, itemCollect_take n m rest hacc]
              simp only [List.reverse_append, List.append_assoc, List.length_append,
                Heap.after_after]
            · rcases List.mem_cons.mp hwc with rfl | hwc
              · exact ⟨n, List.mem_cons_self _ _, rfl, hc⟩
              · obtain ⟨x, hx, hcur, hxc⟩ := hP wc hwc
                exact ⟨x, List.mem_cons_of_mem _ (List.mem_cons_of_mem _ hx), hcur, hxc⟩

/-- When the last child is not the start tag of a `Content` element with an
accepted type, no call of the extractor reads past the children. -/
theorem swallowsNext_last :
    ∀ (N : Nat) (body : List Node), body.length ≤ N →
      (∀ n, body.getLast? = some n → n.acceptedContent = false) →
      swallowsNext body = false := by
  intro N
  induction N with
  | zero =>
    intro body hlen _
    rw [List.length_eq_zero.mp (Nat.le_zero.mp hlen)]
    rfl
  | succ N ih =>
    intro body hlen hlast
    match body, hlen, hlast with
    | [], _, _ => rfl
    | [n], _, hlast => exact hlast n rfl
    | n :: m :: rest, hlen, hlast =>
      simp only [List.length_cons] at hlen
      cases hacc : n.acceptedContent with
      | false =>
        rw [swallowsNext_skip n _ hacc]
        exact ih (m :: rest) (by simp only [List.length_cons]; omega)
          (fun x hx => hlast x (by rw [List.getLast?_cons_cons]; exact hx))
      | true =>
        rw [swallowsNext_take n m rest hacc]
        refine ih rest (by omega) (fun x hx => hlast x ?_)
        cases rest with
        | nil => exact absurd hx (by simp)
        | cons y ys => rw [List.getLast?_cons_cons, List.getLast?_cons_cons]; exact hx

theorem content_start_accepted (attrs : List (CStr × CStr)) :
    (startNode "Content".toList attrs).acceptedContent = acceptedType attrs := rfl

/-- The children of an `IndicatorItem` of the grammar, `Content` elements
with start and end tags, are a body on which the item handler stops at its
end tag, and what it collects there are the texts of the accepted ones. -/
theorem contentNodes_body (cs : List Content) :
    (∀ n ∈ contentNodes cs, n.localName ≠ none ∧ n.isItemEnd = false) ∧
      swallowsNext (contentNodes cs) = false ∧
      itemCollect (contentNodes cs) = (cs.filter Content.collected).map Content.text := by
  induction cs with
  | nil => exact ⟨fun _ hm => absurd hm (List.not_mem_nil _), rfl, rfl⟩
  | cons c cs ih =>
    obtain ⟨ih1, ih2, ih3⟩ := ih
    have hend : (endNode "Content".toList).acceptedContent = false := rfl
    by_cases htext : c.text = []
    · have hnodes : c.nodes = [startNode "Content".toList c.attrs, endNode "Content".toList] := by
        simp only [Content.nodes, htext, if_true]
      have hcol : c.collected = false := by simp [Content.collected, htext]
      simp only [contentNodes, hnodes, List.cons_append, List.nil_append]
      refine ⟨?_, ?_, ?_⟩
      · intro n hn
        rcases List.mem_cons.mp hn with rfl | hn
        · exact ⟨by simp [startNode], rfl⟩
        rcases List.mem_cons.mp hn with rfl | hn
        · exact ⟨by simp [endNode], rfl⟩
        · exact ih1 n hn
      · cases hacc : acceptedType c.attrs with
        | false =>
          rw [swallowsNext_skip _ _ (by rw [content_start_accepted, hacc]),
            swallowsNext_skip _ _ hend, ih2]
        | true =>
          rw [swallowsNext_take _ _ _ (by rw [content_start_accepted, hacc]), ih2]
      · rw [List.filter_cons, hcol]
        simp only [Bool.false_eq_true, if_false]
        cases hacc : acceptedType c.attrs with
        | false =>
          rw [itemCollect_skip _ _ (by rw [content_start_accepted, hacc]),
            itemCollect_skip _ _ hend, ih3]
        | true =>
          rw [itemCollect_take _ _ _ (by rw [content_start_accepted, hacc]), ih3]
          rfl
    · have hnodes : c.nodes = [startNode "Content".toList c.attrs, textNode c.text,
          endNode "Content".toList] := by
        simp only [Content.nodes, htext, if_false]
      have hne : c.text.isEmpty = false := by
        cases hct : c.text with
        | nil => exact absurd hct htext
        | cons a as => rfl
      have htxt : (textNode c.text).acceptedContent = false := rfl
      simp only [contentNodes, hnodes, List.cons_append, List.nil_append]
      refine ⟨?_, ?_, ?_⟩
      · intro n hn
        rcases List.mem_cons.mp hn with rfl | hn
        · exact ⟨by simp [startNode], rfl⟩
        rcases List.mem_cons.mp hn with rfl | hn
        · exact ⟨by simp [textNode], rfl⟩
        rcases List.mem_cons.mp hn with rfl | hn
        · exact ⟨by simp [endNode], rfl⟩
        · exact ih1 n hn
      · cases hacc : acceptedType c.attrs with
        | false =>
          rw [swallowsNext_skip _ _ (by rw [content_start_accepted, hacc]),
            swallowsNext_skip _ _ htxt, swallowsNext_skip _ _ hend, ih2]
        | true =>
          rw [swallowsNext_take _ _ _ (by rw [content_start_accepted, hacc]),
            swallowsNext_skip _ _ hend, ih2]
      · cases hacc : acceptedType c.attrs with
        | false =>
          have hcol : c.collected = false := by simp [Content.collected, hacc]
          rw [List.filter_cons, hcol]
          simp only [Bool.false_eq_true, if_false]
          rw [itemCollect_skip _ _ (by rw [content_start_accepted, hacc]),
            itemCollect_skip _ _ htxt, itemCollect_skip _ _ hend, ih3]
        | true =>
          have hcol : c.collected = true := by simp [Content.collected, hacc, hne]
          rw [List.filter_cons, hcol]
          simp only [if_true, List.map_cons]
          rw [itemCollect_take _ _ _ (by rw [content_start_accepted, hacc]),
            itemCollect_skip _ _ hend, ih3]
          rfl

/-- C17, amended: an IndicatorItem with any children (every node named, as
the reader names them), provided that no child is the end tag of an
IndicatorItem (no nested IndicatorItem) and that no call of the extractor
reads past the children (the last child that the handler sees is not the
start tag of a Content with an accepted type, as a self-closing one right
before the end tag would be). Then openioc_parse_indicatoritem, given a step
of fuel per child and one more, no allocation failing, returns CL_SUCCESS at
the end tag of the IndicatorItem: the nodes behind it are left as they are;
what is collected are the values behind the accepted Content start tags among
the children; and every call of the extractor is made on a Content start tag
that is one of the children. -/
theorem item_handler_stops_at_end_tag (body : List Node) (endTag : Node) (fuel : Nat)
    (cur : Option Node) (tail : List Node) (elems : List CStr) (heap : Heap)
    (hheap : heap.neverFails) (hend : endTag.isItemEnd = true)
    (hnames : ∀ n ∈ body, n.localName ≠ none)
    (hnested : ∀ n ∈ body, n.isItemEnd = false)
    (hswallow : swallowsNext body = false) (hfuel : body.length + 1 ≤ fuel) :
    openioc_parse_indicatoritem fuel
        { reader := { cur := cur, rest := body ++ endTag :: tail },
          elems := elems, heap := heap } =
      some (CL_SUCCESS,
        { reader := { cur := some endTag, rest := tail },
          elems := (itemCollect body).reverse ++ elems,
          heap := heap.after (itemCollect body).length }) ∧
    ∃ r log, openioc_parse_indicatoritem_log fuel
        { reader := { cur := cur, rest := body ++ endTag :: tail },
          elems := elems, heap := heap } = some (r, log) ∧
      ∀ wc ∈ log, ∃ n ∈ body, wc.reader.cur = some n ∧ n.isContentStart = true := by
  obtain ⟨log, hlog, hP⟩ := item_body_walk body.length body (Nat.le_refl _) fuel cur endTag
    tail elems heap hheap hend hnames hnested hswallow hfuel
  exact ⟨item_log_answer _ _ _ _ hlog, _, log, hlog, hP⟩

theorem item_handler_stops_at_end_tag_witness :
    openioc_parse_indicatoritem 17
        { reader := { cur := some (startNode "IndicatorItem".toList []),
                      rest := paddedItemBody ++ endNode "IndicatorItem".toList ::
                        [endNode "Indicator".toList, endNode "ioc".toList] },
          elems := ["old".toList], heap := plentyHeap } =
      some (CL_SUCCESS,
        { reader := { cur := some (endNode "IndicatorItem".toList),
                      rest := [endNode "Indicator".toList, endNode "ioc".toList] },
          elems := ["aa".toList, "old".toList],
          heap := plentyHeap.after 1 }) :=
  (item_handler_stops_at_end_tag paddedItemBody (endNode "IndicatorItem".toList) 17
    (some (startNode "IndicatorItem".toList [])) [endNode "Indicator".toList,
      endNode "ioc".toList] ["old".toList] plentyHeap (fun _ => rfl) (by decide) (by decide)
    (by decide) (by decide) (by decide)).1

end OpenIOC
